import Mathlib

/-!
Shallow embedding of the VDC workload synthesis pipeline from
`src/generate_vdc_workload.py` and `src/lib/workload.py`.

Python dicts are modelled as association lists preserving insertion order
(`alookup` / `aset`), Python asserts, `KeyError` and `ValueError` as
`Except.error`, machine ints as `ℕ`/`ℤ`, and floats (VM core counts) as `ℚ`.
-/

deriving instance DecidableEq for Except

/-- Association-list lookup, modelling Python dict lookup `d[k]` returning
`none` where Python raises `KeyError`. -/
def alookup {α β : Type} [DecidableEq α] : List (α × β) → α → Option β
  | [], _ => none
  | (k', v) :: rest, k => if k' = k then some v else alookup rest k

/-- Association-list update `d[k] = v`, modelling Python dict assignment:
replaces the value in place if the key exists, otherwise appends at the end
(Python dicts preserve insertion order). -/
def aset {α β : Type} [DecidableEq α] : List (α × β) → α → β → List (α × β)
  | [], k, v => [(k, v)]
  | (k', v') :: rest, k, v =>
    if k' = k then (k, v) :: rest else (k', v') :: aset rest k v

/-- Dict lookup that raises (`Except.error`) on a missing key. -/
def lookupE {α β : Type} [DecidableEq α] (l : List (α × β)) (k : α) (msg : String) :
    Except String β :=
  match alookup l k with
  | some v => Except.ok v
  | none => Except.error msg

/-- An event of the workload, as built by `WorkloadPreprocesing.sanitize`
(`lib/workload.py` lines 215-234): a `create` carries vdc uuid, vm uuid,
cores and ram; a `delete` carries only vdc uuid and vm uuid. -/
inductive Event : Type
  | create (vdc_uuid vm_uuid : String) (cores ram : ℚ)
  | delete (vdc_uuid vm_uuid : String)

deriving instance DecidableEq for Event

/-- The vm uuid of an event. -/
def Event.vm : Event → String
  | .create _ vm _ _ => vm
  | .delete _ vm => vm

/-- The (logical) vdc uuid of an event. -/
def Event.vdc : Event → String
  | .create vdc _ _ _ => vdc
  | .delete vdc _ => vdc

/-- Whether an event is a create event. -/
def Event.isCreate : Event → Bool
  | .create _ _ _ _ => true
  | .delete _ _ => false

/-- Whether an event is a delete event. -/
def Event.isDelete : Event → Bool
  | .create _ _ _ _ => false
  | .delete _ _ => true

/-- `EVENT_LIST_TYPE`: ordered mapping from tick to the events of that tick. -/
abbrev EventList := List (ℕ × List Event)

/-- `const.TIME_DRIFT` from `lib/constants.py`. -/
def TIME_DRIFT : ℕ := 100

/-- `const.INVALID_TIMESTAMPS` from `lib/constants.py`. -/
def INVALID_TIMESTAMPS : List ℕ :=
  [2556100, 2002300, 2001400, 2559700, 2393800, 2312200,
   2580700, 2001100, 2458900, 1728700, 2271700, 2278900,
   2557600, 2005900, 2004400, 2569000, 2395300, 2313100, 2581300, 2079100, 2591500]

/-- `const.MAX_PEAK_VDC_SIZE` from `lib/constants.py`. -/
def MAX_PEAK_VDC_SIZE : ℕ := 30

/-- `const.VDC_CONCAT_STR` from `lib/constants.py`. -/
def VDC_CONCAT_STR : String := "__"

/-- `WorkloadPreprocesing._validate_event_time`: subtract the fixed drift from
the known-invalid timestamps, pass every other timestamp through unchanged. -/
def validate_event_time (event_time : ℕ) : ℕ :=
  if event_time ∈ INVALID_TIMESTAMPS then event_time - TIME_DRIFT else event_time

/-- One row of the vmtable CSV: vm uuid (column 0), vdc/deployment uuid
(column 2), create and delete times (columns 3-4), cores and ram
(columns 9-10, floats in the source, modelled as `ℚ`). -/
structure Row where
  vm_uuid : String
  vdc_uuid : String
  create_time : ℕ
  delete_time : ℕ
  cores : ℚ
  ram : ℚ

deriving instance DecidableEq for Row

/-- `events_sorted[t].append e`: append an event to the list at tick `t` of the
pre-populated grid; a tick absent from the grid is a Python `KeyError`. -/
def gridInsert (es : EventList) (t : ℕ) (e : Event) : Except String EventList :=
  match es with
  | [] => Except.error "KeyError: tick not on grid"
  | (k, l) :: rest =>
    if k = t then Except.ok ((k, l ++ [e]) :: rest)
    else do
      let rest' ← gridInsert rest t e
      Except.ok ((k, l) :: rest')

/-- The body of the per-row loop of `WorkloadPreprocesing.sanitize`
(`lib/workload.py` lines 188-234): drop insta-VMs, assert
`create_time < delete_time`, correct the known-invalid timestamps, assert the
corrected lifetime is positive, then append a create and a delete event. -/
def sanitizeRow (es : EventList) (r : Row) : Except String EventList :=
  if r.create_time = r.delete_time then Except.ok es
  else if r.create_time < r.delete_time then
    let ct := validate_event_time r.create_time
    let dt := validate_event_time r.delete_time
    if ct < dt then do
      let es' ← gridInsert es ct (Event.create r.vdc_uuid r.vm_uuid r.cores r.ram)
      gridInsert es' dt (Event.delete r.vdc_uuid r.vm_uuid)
    else Except.error "assert: corrected lifetime not positive"
  else Except.error "assert: create_time not before delete_time"

/-- `sec_in_5mins` from `WorkloadPreprocesing.sanitize`. -/
def SEC_IN_5MINS : ℕ := 300

/-- The pre-populated tick grid of `WorkloadPreprocesing.sanitize`
(lines 182-184): `total_items` ticks, 300 seconds apart, all empty. -/
def initialGrid (total_items : ℕ) : EventList :=
  (List.range total_items).map (fun i => (i * SEC_IN_5MINS, []))

/-- `WorkloadPreprocesing.sanitize`, with the grid horizon `total_items`
(hard-coded to `12 * 24 * 30` in the source) as a parameter. The diagnostic
counters and logging of the source are dropped; the control-flow asserts are
kept as errors. -/
def sanitize (total_items : ℕ) (rows : List Row) : Except String EventList :=
  List.foldlM sanitizeRow (initialGrid total_items) rows

/-- The `(vdc_uuid, vm_uuid)` dict key used by `batch_vdcs` for uniqueness. -/
def eventKey (e : Event) : String × String := (e.vdc, e.vm)

/-- `events_in_tick`: regroup a tick's events into a dict keyed by
`(vdc_uuid, vm_uuid)` (later duplicates overwrite, keeping first position). -/
def batchDict (evs : List Event) : List ((String × String) × Event) :=
  evs.foldl (fun m e => aset m (eventKey e) e) []

/-- Python tuple comparison on `(vdc_uuid, vm_uuid)` keys: lexicographic with
code-point string ordering (a string compares by its character list). -/
def keyLe (a b : String × String) : Bool :=
  decide (a.1.data < b.1.data) ||
  (decide (a.1 = b.1) && (decide (a.2.data < b.2.data) || decide (a.2 = b.2)))

/-- The sort ordering on dict entries used to model Python `sorted` (which
compares the `(vdc_uuid, vm_uuid)` keys). -/
def keyRel (a b : (String × String) × Event) : Prop := keyLe a.1 b.1 = true

instance : DecidableRel keyRel :=
  fun a b => inferInstanceAs (Decidable (keyLe a.1 b.1 = true))

/-- The deque building of `batch_vdcs` (lines 277-281): creates are appended
to the right, deletes are appended to the left. -/
def dequePush (acc : List Event) (e : Event) : List Event :=
  match e with
  | Event.create _ _ _ _ => acc ++ [e]
  | Event.delete _ _ => e :: acc

/-- The per-tick body of `WorkloadPreprocesing.batch_vdcs`: dedup by
`(vdc_uuid, vm_uuid)`, sort by that key, then push into the deque. -/
def batchTick (vm_events : List Event) : List Event :=
  (List.insertionSort keyRel (batchDict vm_events)).foldl
    (fun acc kv => dequePush acc kv.2) []

/-- `WorkloadPreprocesing.batch_vdcs`: ticks with no events are skipped, every
other tick's list is regrouped and reordered by `batchTick`. -/
def batch_vdcs (events_sorted : EventList) : EventList :=
  events_sorted.foldl
    (fun b tl => if tl.2.isEmpty then b else b ++ [(tl.1, batchTick tl.2)]) []

/-- `_get_child_vdc_uuid`: bump (or initialize) the child index of the parent
vdc and build the child uuid `parent ++ "__" ++ index`. Returns the child uuid
and the updated index dict. -/
def get_child_vdc_uuid (vdc_child_index : List (String × ℕ)) (parent_vdc_uuid : String) :
    String × List (String × ℕ) :=
  match alookup vdc_child_index parent_vdc_uuid with
  | some n =>
    (parent_vdc_uuid ++ VDC_CONCAT_STR ++ Nat.repr (n + 1),
     aset vdc_child_index parent_vdc_uuid (n + 1))
  | none =>
    (parent_vdc_uuid ++ VDC_CONCAT_STR ++ Nat.repr 0,
     aset vdc_child_index parent_vdc_uuid 0)

/-- The mutable state of `_chop_vdcs` (lines 63-72). -/
structure ChopState where
  vdc_child_index : List (String × ℕ)
  vdc_uuid_map : List (String × String)
  vdc_alive_vms : List (String × List String)
  vm2vdc : List (String × String)
  vm_peers : List (String × List String)

deriving instance DecidableEq for ChopState

/-- The initial (all dicts empty) state of `_chop_vdcs`. -/
def initialChopState : ChopState := ⟨[], [], [], [], []⟩

/-- Python `list.remove`: removes the first occurrence, raises `ValueError`
when the element is absent. -/
def listRemove (l : List String) (x : String) : Except String (List String) :=
  match l with
  | [] => Except.error "ValueError: not in list"
  | y :: ys =>
    if y = x then Except.ok ys
    else do
      let r ← listRemove ys x
      Except.ok (y :: r)

/-- The `else` branch of the size check in `_chop_vdcs` (lines 102-106): mint
a new child vdc uuid, seed its alive list with this VM alone and make it the
logical vdc's current physical vdc. -/
def chopSpawnChild (s : ChopState) (vdc vm : String) : ChopState :=
  let p := get_child_vdc_uuid s.vdc_child_index vdc
  { s with
    vdc_child_index := p.2
    vdc_alive_vms := aset s.vdc_alive_vms p.1 [vm]
    vdc_uuid_map := aset s.vdc_uuid_map vdc p.1
    vm2vdc := aset s.vm2vdc vm p.1 }

/-- One event of the first pass of `_chop_vdcs` (lines 81-106): deletes remove
the VM from its physical vdc's alive list; creates decide the VM's physical
vdc membership. -/
def chopEvent (max_vdc_size : ℕ) (s : ChopState) (e : Event) : Except String ChopState :=
  match e with
  | Event.delete _ vm => do
    let vdc_uuid_current ← lookupE s.vm2vdc vm "KeyError: vm2vdc"
    let alive ← lookupE s.vdc_alive_vms vdc_uuid_current "assert: vdc not in vdc_alive_vms"
    let alive' ← listRemove alive vm
    Except.ok { s with vdc_alive_vms := aset s.vdc_alive_vms vdc_uuid_current alive' }
  | Event.create vdc vm _ _ =>
    match alookup s.vdc_uuid_map vdc with
    | none =>
      Except.ok { s with
        vdc_uuid_map := aset s.vdc_uuid_map vdc vdc
        vm2vdc := aset s.vm2vdc vm vdc
        vdc_alive_vms := aset s.vdc_alive_vms vdc [vm] }
    | some vdc_uuid_current => do
      let alive ← lookupE s.vdc_alive_vms vdc_uuid_current "KeyError: vdc_alive_vms"
      if alive.length < max_vdc_size then
        Except.ok { s with
          vdc_alive_vms := aset s.vdc_alive_vms vdc_uuid_current (alive ++ [vm])
          vm2vdc := aset s.vm2vdc vm vdc_uuid_current }
      else
        Except.ok (chopSpawnChild s vdc vm)

/-- One event of the second pass of `_chop_vdcs` (lines 109-117): record, for
each create event, all currently alive VMs of its physical vdc except itself
as its peers. -/
def chopPeersEvent (s : ChopState) (e : Event) : Except String ChopState :=
  match e with
  | Event.delete _ _ => Except.ok s
  | Event.create _ vm _ _ => do
    let p ← lookupE s.vm2vdc vm "KeyError: vm2vdc"
    let all_vm_peers ← lookupE s.vdc_alive_vms p "KeyError: vdc_alive_vms"
    Except.ok { s with
      vm_peers := aset s.vm_peers vm (all_vm_peers.filter (fun pvm => pvm ≠ vm)) }

/-- The per-tick body of `_chop_vdcs`: assert the tick is non-empty, run the
membership pass, then the peer pass. -/
def chopTick (max_vdc_size : ℕ) (s : ChopState) (tick_events : List Event) :
    Except String ChopState :=
  if tick_events.isEmpty then Except.error "assert: empty tick"
  else do
    let s' ← List.foldlM (chopEvent max_vdc_size) s tick_events
    List.foldlM chopPeersEvent s' tick_events

/-- `_chop_vdcs`: fold the per-tick body over all ticks and return
`(vm2vdc, vm_peers)`. -/
def chop_vdcs (events : EventList) (max_vdc_size : ℕ) :
    Except String (List (String × String) × List (String × List String)) := do
  let s ← List.foldlM (fun s tl => chopTick max_vdc_size s tl.2) initialChopState events
  Except.ok (s.vm2vdc, s.vm_peers)

/-- An event of the networked workload: a create additionally carries the
`net_conns_in_mbps` connection map (peer vm uuid to bandwidth). -/
inductive NetEvent : Type
  | create (vdc_uuid vm_uuid : String) (cores ram : ℚ) (conn : List (String × ℤ))
  | delete (vdc_uuid vm_uuid : String)

deriving instance DecidableEq for NetEvent

/-- Python `min` on two floats. -/
def pymin (a b : ℚ) : ℚ := if a ≤ b then a else b

/-- Python `int(...)` on a float: truncation toward zero. -/
def pyIntTrunc (q : ℚ) : ℤ := q.num.tdiv q.den

/-- The first pass of `_add_network` (lines 132-137): collect each VM's core
count from its create event. -/
def vmCoresDict (events : EventList) : List (String × ℚ) :=
  events.foldl (fun d tl => tl.2.foldl (fun d e =>
    match e with
    | Event.create _ vm cores _ => aset d vm cores
    | Event.delete _ _ => d) d) []

/-- The per-event body of the second pass of `_add_network` (lines 144-155):
rewrite the vdc uuid to the physical vdc, and attach the connection map
(`band_per_core * min(cores, peer cores)`, truncated to int) to creates. -/
def netEventOf (vm2vdc : List (String × String)) (vm_peers : List (String × List String))
    (coresDict : List (String × ℚ)) (band_per_core : ℤ) (e : Event) :
    Except String NetEvent :=
  match e with
  | Event.delete _ vm => do
    let p ← lookupE vm2vdc vm "KeyError: vm2vdc"
    Except.ok (NetEvent.delete p vm)
  | Event.create _ vm cores ram => do
    let p ← lookupE vm2vdc vm "KeyError: vm2vdc"
    let peers ← lookupE vm_peers vm "KeyError: vm_peers"
    let conn ← peers.foldlM (fun conn pvm => do
      let pc ← lookupE coresDict pvm "KeyError: vm_cores_dict"
      Except.ok (aset conn pvm (pyIntTrunc (band_per_core * pymin cores pc)))) []
    Except.ok (NetEvent.create p vm cores ram conn)

/-- `_add_network`: assert every tick is non-empty, rewrite every event's vdc
uuid to its physical vdc and attach the connection maps. The output keys are
the `tick_<t>` labels of the source. -/
def add_network (events : EventList) (vm2vdc : List (String × String))
    (vm_peers : List (String × List String)) (band_per_core : ℤ) :
    Except String (List (String × List NetEvent)) :=
  let coresDict := vmCoresDict events
  events.mapM (fun tl =>
    if tl.2.isEmpty then Except.error "assert: empty tick"
    else do
      let nevs ← tl.2.mapM (netEventOf vm2vdc vm_peers coresDict band_per_core)
      Except.ok ("tick_" ++ Nat.repr tl.1, nevs))

/-- The transient undirected weighted graph of `_check_virtual_network`
(a `networkx.Graph`): a node list and an edge list with weights; an edge is
stored once, in either orientation. -/
structure PeerGraph where
  nodes : List String
  edges : List ((String × String) × ℤ)

deriving instance DecidableEq for PeerGraph

/-- The empty graph. -/
def emptyPeerGraph : PeerGraph := ⟨[], []⟩

/-- Whether a stored edge connects `a` and `b` (in either orientation). -/
def edgeMatches (a b : String) (ed : (String × String) × ℤ) : Bool :=
  (decide (ed.1.1 = a) && decide (ed.1.2 = b)) ||
  (decide (ed.1.1 = b) && decide (ed.1.2 = a))

/-- `networkx.Graph.has_edge`. -/
def hasEdge (g : PeerGraph) (a b : String) : Bool := g.edges.any (edgeMatches a b)

/-- `networkx` edge weight lookup `edges[a, b]['weight']`. -/
def edgeWeight (g : PeerGraph) (a b : String) : Option ℤ :=
  (g.edges.find? (edgeMatches a b)).map Prod.snd

/-- Add a node if not already present (networkx set semantics). -/
def addNode (g : PeerGraph) (v : String) : PeerGraph :=
  if v ∈ g.nodes then g else { g with nodes := g.nodes ++ [v] }

/-- `add_weighted_edges_from [(a, b, w)]`: adds the endpoints as nodes and the
weighted edge. -/
def addEdge (g : PeerGraph) (a b : String) (w : ℤ) : PeerGraph :=
  let g' := addNode (addNode g a) b
  { g' with edges := g'.edges ++ [((a, b), w)] }

/-- `remove_edge a b`: removes the edge, keeping the endpoints as nodes. -/
def removeEdge (g : PeerGraph) (a b : String) : PeerGraph :=
  { g with edges := g.edges.filter (fun ed => !(edgeMatches a b ed)) }

/-- `remove_node v`: removes the node and all incident edges. -/
def removeNode (g : PeerGraph) (v : String) : PeerGraph :=
  { nodes := g.nodes.filter (fun x => decide (x ≠ v)),
    edges := g.edges.filter (fun ed => decide (ed.1.1 ≠ v) && decide (ed.1.2 ≠ v)) }

/-- One `(peer, band)` entry of a create event in `_check_virtual_network`
(lines 178-184): assert the bandwidth is positive; if the edge already exists
assert its weight matches and remove it, otherwise add it. -/
def checkConnEntry (src : String) (g : PeerGraph) (pb : String × ℤ) :
    Except String PeerGraph :=
  if pb.2 ≤ 0 then Except.error "assert: band not positive"
  else if hasEdge g src pb.1 then
    match edgeWeight g src pb.1 with
    | some w =>
      if w = pb.2 then Except.ok (removeEdge g src pb.1)
      else Except.error "assert: bandwidth not symmetric"
    | none => Except.error "assert: edge weight missing"
  else Except.ok (addEdge g src pb.1 pb.2)

/-- One event of the replay of `_check_virtual_network` (lines 169-184). -/
def checkEvent (g : PeerGraph) (e : NetEvent) : Except String PeerGraph :=
  match e with
  | NetEvent.delete _ vm => Except.ok (if vm ∈ g.nodes then removeNode g vm else g)
  | NetEvent.create _ vm _ _ conn => List.foldlM (checkConnEntry vm) g conn

/-- `_check_virtual_network`: replay the whole workload through the transient
graph, then assert that no nodes and no edges are left. -/
def check_virtual_network (workload : List (String × List NetEvent)) :
    Except String Bool := do
  let g ← List.foldlM (fun g tl =>
    if tl.2.isEmpty then Except.error "assert: empty tick"
    else List.foldlM checkEvent g tl.2) emptyPeerGraph workload
  if g.nodes.length = 0 then
    if g.edges.length = 0 then Except.ok true
    else Except.error "assert: leftover edges"
  else Except.error "assert: leftover nodes"

/-- The composition of the pipeline stages as in `generate_ml`
(lines 198-204), with the grid horizon and the max vdc size as parameters. -/
def pipeline (total_items max_vdc_size : ℕ) (band_per_core : ℤ) (rows : List Row) :
    Except String (List (String × List NetEvent)) := do
  let events_sorted ← sanitize total_items rows
  let batched := batch_vdcs events_sorted
  let vp ← chop_vdcs batched max_vdc_size
  add_network batched vp.1 vp.2 band_per_core

/-- `generate_ml`: the pipeline at `MAX_PEAK_VDC_SIZE`, followed by the
network symmetry check that the source asserts. -/
def generate_ml (total_items : ℕ) (rows : List Row) (band_per_core : ℤ) :
    Except String (List (String × List NetEvent)) := do
  let w ← pipeline total_items MAX_PEAK_VDC_SIZE band_per_core rows
  let ok ← check_virtual_network w
  if ok then Except.ok w else Except.error "check failed"

/-! ### Basic lemmas about the `Except` monad and the dict model -/

theorem except_bind_ok {ε α β : Type} (x : Except ε α) (f : α → Except ε β) (b : β)
    (h : x >>= f = Except.ok b) : ∃ a, x = Except.ok a ∧ f a = Except.ok b := by
  cases x with
  | ok a => exact ⟨a, rfl, h⟩
  | error e => simp [Bind.bind, Except.bind] at h

theorem foldlM_ok_cons {σ α : Type} (f : σ → α → Except String σ) (s : σ) (a : α)
    (l : List α) (out : σ) (h : List.foldlM f s (a :: l) = Except.ok out) :
    ∃ s', f s a = Except.ok s' ∧ List.foldlM f s' l = Except.ok out := by
  rw [List.foldlM_cons] at h
  exact except_bind_ok _ _ _ h

theorem foldlM_append_ok {σ α : Type} (f : σ → α → Except String σ) (s : σ)
    (l₁ l₂ : List α) (out : σ) (h : List.foldlM f s (l₁ ++ l₂) = Except.ok out) :
    ∃ s', List.foldlM f s l₁ = Except.ok s' ∧ List.foldlM f s' l₂ = Except.ok out := by
  induction l₁ generalizing s with
  | nil => exact ⟨s, rfl, h⟩
  | cons a t ih =>
    rw [List.cons_append] at h
    obtain ⟨s₁, h₁, h₂⟩ := foldlM_ok_cons _ _ _ _ _ h
    obtain ⟨s', hs', hout⟩ := ih s₁ h₂
    refine ⟨s', ?_, hout⟩
    rw [List.foldlM_cons, h₁]
    exact hs'

theorem alookup_aset_self {α β : Type} [DecidableEq α] (l : List (α × β)) (k : α) (v : β) :
    alookup (aset l k v) k = some v := by
  induction l with
  | nil => simp [aset, alookup]
  | cons p rest ih =>
    by_cases h : p.1 = k
    · simp [aset, h, alookup]
    · simp [aset, h, alookup, ih]

theorem alookup_aset_ne {α β : Type} [DecidableEq α] (l : List (α × β)) (k k' : α) (v : β)
    (h : k ≠ k') : alookup (aset l k v) k' = alookup l k' := by
  induction l with
  | nil => simp [aset, alookup, h]
  | cons p rest ih =>
    by_cases hp : p.1 = k
    · simp [aset, hp, alookup, h]
    · simp [aset, hp, alookup, ih]

theorem mem_aset {α β : Type} [DecidableEq α] (l : List (α × β)) (k : α) (v : β)
    (p : α × β) (h : p ∈ aset l k v) : p = (k, v) ∨ p ∈ l := by
  induction l with
  | nil => simpa [aset] using h
  | cons q rest ih =>
    by_cases hq : q.1 = k
    · simp only [aset, hq, if_pos rfl] at h
      rcases List.mem_cons.1 h with h | h
      · exact Or.inl h
      · exact Or.inr (List.mem_cons_of_mem _ h)
    · simp only [aset, if_neg hq] at h
      rcases List.mem_cons.1 h with h | h
      · exact Or.inr (h ▸ List.mem_cons_self _ _)
      · rcases ih h with h | h
        · exact Or.inl h
        · exact Or.inr (List.mem_cons_of_mem _ h)

theorem alookup_mem {α β : Type} [DecidableEq α] (l : List (α × β)) (k : α) (v : β)
    (h : alookup l k = some v) : (k, v) ∈ l := by
  induction l with
  | nil => simp [alookup] at h
  | cons p rest ih =>
    by_cases hp : p.1 = k
    · simp only [alookup, if_pos hp] at h
      have hpv : p = (k, v) := by
        cases p
        simp_all
      exact hpv ▸ List.mem_cons_self _ _
    · simp only [alookup, if_neg hp] at h
      exact List.mem_cons_of_mem _ (ih h)

theorem alookup_eq_none {α β : Type} [DecidableEq α] (l : List (α × β)) (k : α)
    (h : alookup l k = none) : ∀ v, (k, v) ∉ l := by
  intro v hv
  induction l with
  | nil => simp at hv
  | cons p rest ih =>
    by_cases hp : p.1 = k
    · simp [alookup, hp] at h
    · rcases List.mem_cons.1 hv with rfl | hv'
      · exact hp rfl
      · exact ih (by simpa [alookup, hp] using h) hv'

/-- The keys of an association list. -/
def akeys {α β : Type} (l : List (α × β)) : List α := l.map Prod.fst

theorem akeys_aset {α β : Type} [DecidableEq α] (l : List (α × β)) (k : α) (v : β)
    (k' : α) (h : k' ∈ akeys (aset l k v)) : k' = k ∨ k' ∈ akeys l := by
  rcases List.mem_map.1 h with ⟨p, hp, rfl⟩
  rcases mem_aset _ _ _ _ hp with rfl | hmem
  · exact Or.inl rfl
  · exact Or.inr (List.mem_map_of_mem _ hmem)

theorem alookup_isSome_of_aset {α β : Type} [DecidableEq α] (l : List (α × β)) (k k' : α)
    (v : β) (h : (alookup l k').isSome) : (alookup (aset l k v) k').isSome := by
  by_cases hk : k = k'
  · subst hk
    simp [alookup_aset_self]
  · rwa [alookup_aset_ne _ _ _ _ hk]

theorem listRemove_ok {l : List String} {x : String} {l' : List String}
    (h : listRemove l x = Except.ok l') : l' = l.erase x ∧ x ∈ l := by
  induction l generalizing l' with
  | nil => simp [listRemove] at h
  | cons y ys ih =>
    by_cases hy : y = x
    · subst hy
      simp only [listRemove, if_pos rfl] at h
      cases h
      exact ⟨(List.erase_cons_head _ _).symm, List.mem_cons_self _ _⟩
    · simp only [listRemove, if_neg hy] at h
      obtain ⟨r, hr, hok⟩ := except_bind_ok _ _ _ h
      cases hok
      obtain ⟨h1, h2⟩ := ih hr
      refine ⟨?_, List.mem_cons_of_mem _ h2⟩
      rw [List.erase_cons_tail, h1]
      simp [hy]

theorem listRemove_err (l : List String) (x : String) (h : x ∉ l) :
    listRemove l x = Except.error "ValueError: not in list" := by
  induction l with
  | nil => rfl
  | cons y ys ih =>
    have hy : y ≠ x := fun hyx => h (hyx ▸ List.mem_cons_self _ _)
    have hx : x ∉ ys := fun hx => h (List.mem_cons_of_mem _ hx)
    simp only [listRemove, if_neg hy, ih hx]
    rfl

/-! ### Characterization of `sanitize` -/

theorem gridInsert_keys_mem {es : EventList} {t : ℕ} {e : Event} {es' : EventList}
    (h : gridInsert es t e = Except.ok es') : t ∈ akeys es := by
  induction es generalizing es' with
  | nil => simp [gridInsert] at h
  | cons tl rest ih =>
    by_cases hk : tl.1 = t
    · exact hk ▸ List.mem_map_of_mem _ (List.mem_cons_self _ _)
    · obtain ⟨tl', htl⟩ := tl
      simp only [gridInsert, if_neg hk] at h
      obtain ⟨r, hr, _⟩ := except_bind_ok _ _ _ h
      exact List.mem_cons_of_mem _ (ih hr)

theorem gridInsert_struct {es : EventList} {t : ℕ} {e : Event} {es' : EventList}
    (hnd : (akeys es).Nodup) (h : gridInsert es t e = Except.ok es') :
    es' = es.map (fun tl => (tl.1, if tl.1 = t then tl.2 ++ [e] else tl.2)) := by
  induction es generalizing es' with
  | nil => simp [gridInsert] at h
  | cons tl rest ih =>
    obtain ⟨k, l⟩ := tl
    simp only [akeys, List.map_cons, List.nodup_cons] at hnd
    by_cases hk : k = t
    · subst hk
      simp only [gridInsert, if_pos rfl] at h
      cases h
      have hrest : rest.map (fun tl => (tl.1, if tl.1 = k then tl.2 ++ [e] else tl.2)) = rest := by
        apply List.map_congr_left ?_ |>.trans (List.map_id _)
        intro tl htl
        have : tl.1 ≠ k := fun hh => hnd.1 (hh ▸ List.mem_map_of_mem _ htl)
        simp [this]
      simp [hrest]
    · simp only [gridInsert, if_neg hk] at h
      obtain ⟨r, hr, hok⟩ := except_bind_ok _ _ _ h
      cases hok
      simp [ih hnd.2 hr, hk]

theorem gridInsert_akeys {es : EventList} {t : ℕ} {e : Event} {es' : EventList}
    (h : gridInsert es t e = Except.ok es') : akeys es' = akeys es := by
  induction es generalizing es' with
  | nil => simp [gridInsert] at h
  | cons tl rest ih =>
    obtain ⟨k, l⟩ := tl
    by_cases hk : k = t
    · simp only [gridInsert, if_pos hk] at h
      cases h
      rfl
    · simp only [gridInsert, if_neg hk] at h
      obtain ⟨r, hr, hok⟩ := except_bind_ok _ _ _ h
      cases hok
      have hih := ih hr
      simp only [akeys, List.map_cons] at hih ⊢
      rw [hih]

/-- The events that `sanitize` appends at tick `t` for one CSV row: nothing for
an insta-VM, its create event if its corrected create time is `t`, its delete
event if its corrected delete time is `t`. -/
def rowEventsAt (t : ℕ) (r : Row) : List Event :=
  if r.create_time = r.delete_time then []
  else
    (if validate_event_time r.create_time = t then
      [Event.create r.vdc_uuid r.vm_uuid r.cores r.ram] else []) ++
    (if validate_event_time r.delete_time = t then
      [Event.delete r.vdc_uuid r.vm_uuid] else [])

theorem sanitizeRow_struct {es : EventList} {r : Row} {es' : EventList}
    (hnd : (akeys es).Nodup) (h : sanitizeRow es r = Except.ok es') :
    es' = es.map (fun tl => (tl.1, tl.2 ++ rowEventsAt tl.1 r)) := by
  by_cases hins : r.create_time = r.delete_time
  · simp only [sanitizeRow, if_pos hins] at h
    cases h
    simp [rowEventsAt, hins]
  · simp only [sanitizeRow, if_neg hins] at h
    by_cases hlt : r.create_time < r.delete_time
    · simp only [if_pos hlt] at h
      by_cases hv : validate_event_time r.create_time < validate_event_time r.delete_time
      · simp only [if_pos hv] at h
        obtain ⟨es₁, h₁, h₂⟩ := except_bind_ok _ _ _ h
        have hs₁ := gridInsert_struct hnd h₁
        have hnd₁ : (akeys es₁).Nodup := by
          rw [gridInsert_akeys h₁]
          exact hnd
        have hs₂ := gridInsert_struct hnd₁ h₂
        have hne : validate_event_time r.create_time ≠ validate_event_time r.delete_time :=
          Nat.ne_of_lt hv
        rw [hs₂, hs₁, List.map_map]
        apply List.map_congr_left
        intro tl _
        simp only [Function.comp_apply, rowEventsAt, if_neg hins]
        by_cases hc : tl.1 = validate_event_time r.create_time
        · have hd : tl.1 ≠ validate_event_time r.delete_time := fun hh => hne (hc.symm.trans hh)
          rw [if_neg hd, if_pos hc, if_pos hc.symm,
            if_neg (fun hh : validate_event_time r.delete_time = tl.1 => hd hh.symm)]
          simp
        · by_cases hd : tl.1 = validate_event_time r.delete_time
          · rw [if_pos hd, if_neg hc,
              if_neg (fun hh : validate_event_time r.create_time = tl.1 => hc hh.symm),
              if_pos hd.symm]
            simp
          · rw [if_neg hd, if_neg hc,
              if_neg (fun hh : validate_event_time r.create_time = tl.1 => hc hh.symm),
              if_neg (fun hh : validate_event_time r.delete_time = tl.1 => hd hh.symm)]
            simp
      · simp [if_neg hv] at h
    · simp [if_neg hlt] at h

theorem sanitizeRow_akeys {es : EventList} {r : Row} {es' : EventList}
    (hnd : (akeys es).Nodup) (h : sanitizeRow es r = Except.ok es') :
    akeys es' = akeys es := by
  rw [sanitizeRow_struct hnd h]
  simp [akeys]

theorem sanitizeRow_conds {es : EventList} {r : Row} {es' : EventList}
    (h : sanitizeRow es r = Except.ok es') (hsurv : r.create_time ≠ r.delete_time) :
    r.create_time < r.delete_time ∧
    validate_event_time r.create_time < validate_event_time r.delete_time ∧
    validate_event_time r.create_time ∈ akeys es ∧
    validate_event_time r.delete_time ∈ akeys es := by
  simp only [sanitizeRow, if_neg hsurv] at h
  by_cases hlt : r.create_time < r.delete_time
  · simp only [if_pos hlt] at h
    by_cases hv : validate_event_time r.create_time < validate_event_time r.delete_time
    · simp only [if_pos hv] at h
      obtain ⟨es₁, h₁, h₂⟩ := except_bind_ok _ _ _ h
      refine ⟨hlt, hv, gridInsert_keys_mem h₁, ?_⟩
      have hmem := gridInsert_keys_mem h₂
      rwa [gridInsert_akeys h₁] at hmem
    · simp [if_neg hv] at h
  · simp [if_neg hlt] at h

theorem sanitizeRow_akeys_free {es : EventList} {r : Row} {es' : EventList}
    (h : sanitizeRow es r = Except.ok es') : akeys es' = akeys es := by
  by_cases hins : r.create_time = r.delete_time
  · simp only [sanitizeRow, if_pos hins] at h
    cases h
    rfl
  · simp only [sanitizeRow, if_neg hins] at h
    by_cases hlt : r.create_time < r.delete_time
    · simp only [if_pos hlt] at h
      by_cases hv : validate_event_time r.create_time < validate_event_time r.delete_time
      · simp only [if_pos hv] at h
        obtain ⟨es₁, h₁, h₂⟩ := except_bind_ok _ _ _ h
        rw [gridInsert_akeys h₂, gridInsert_akeys h₁]
      · simp [if_neg hv] at h
    · simp [if_neg hlt] at h

/-- All the events appended by `sanitize` at tick `t`, in row order. -/
def sanitizedEventsAt (rows : List Row) (t : ℕ) : List Event :=
  rows.foldr (fun r acc => rowEventsAt t r ++ acc) []

theorem sanitizedEventsAt_cons (r : Row) (rows : List Row) (t : ℕ) :
    sanitizedEventsAt (r :: rows) t = rowEventsAt t r ++ sanitizedEventsAt rows t := rfl

theorem mem_sanitizedEventsAt {rows : List Row} {t : ℕ} {e : Event}
    (h : e ∈ sanitizedEventsAt rows t) : ∃ r ∈ rows, e ∈ rowEventsAt t r := by
  induction rows with
  | nil => cases h
  | cons r rows ih =>
    rw [sanitizedEventsAt_cons] at h
    rcases List.mem_append.1 h with h | h
    · exact ⟨r, List.mem_cons_self _ _, h⟩
    · obtain ⟨r', hr', he⟩ := ih h
      exact ⟨r', List.mem_cons_of_mem _ hr', he⟩

theorem rowEventsAt_cases {t : ℕ} {r : Row} {e : Event} (h : e ∈ rowEventsAt t r) :
    r.create_time ≠ r.delete_time ∧
    ((validate_event_time r.create_time = t ∧
        e = Event.create r.vdc_uuid r.vm_uuid r.cores r.ram) ∨
      (validate_event_time r.delete_time = t ∧
        e = Event.delete r.vdc_uuid r.vm_uuid)) := by
  by_cases hins : r.create_time = r.delete_time
  · simp [rowEventsAt, hins] at h
  · refine ⟨hins, ?_⟩
    simp only [rowEventsAt, if_neg hins] at h
    rcases List.mem_append.1 h with h | h
    · by_cases hc : validate_event_time r.create_time = t
      · simp only [if_pos hc, List.mem_singleton] at h
        exact Or.inl ⟨hc, h⟩
      · simp [if_neg hc] at h
    · by_cases hd : validate_event_time r.delete_time = t
      · simp only [if_pos hd, List.mem_singleton] at h
        exact Or.inr ⟨hd, h⟩
      · simp [if_neg hd] at h

theorem sanitizeFold_struct {es : EventList} {rows : List Row} {out : EventList}
    (hnd : (akeys es).Nodup) (h : List.foldlM sanitizeRow es rows = Except.ok out) :
    out = es.map (fun tl => (tl.1, tl.2 ++ sanitizedEventsAt rows tl.1)) := by
  induction rows generalizing es with
  | nil =>
    simp only [List.foldlM_nil] at h
    cases h
    simp [sanitizedEventsAt]
  | cons r rows ih =>
    obtain ⟨es₁, h₁, h₂⟩ := foldlM_ok_cons _ _ _ _ _ h
    have hs := sanitizeRow_struct hnd h₁
    have hnd₁ : (akeys es₁).Nodup := by
      rw [sanitizeRow_akeys_free h₁]
      exact hnd
    have hout := ih hnd₁ h₂
    rw [hout, hs, List.map_map]
    apply List.map_congr_left
    intro tl _
    simp [sanitizedEventsAt_cons]

theorem sanitizeFold_conds {es : EventList} {rows : List Row} {out : EventList}
    (h : List.foldlM sanitizeRow es rows = Except.ok out) :
    ∀ r ∈ rows, r.create_time ≠ r.delete_time →
      r.create_time < r.delete_time ∧
      validate_event_time r.create_time < validate_event_time r.delete_time ∧
      validate_event_time r.create_time ∈ akeys es ∧
      validate_event_time r.delete_time ∈ akeys es := by
  induction rows generalizing es with
  | nil =>
    intro r hr
    cases hr
  | cons r0 rows ih =>
    obtain ⟨es₁, h₁, h₂⟩ := foldlM_ok_cons _ _ _ _ _ h
    intro r hr hsurv
    rcases List.mem_cons.1 hr with rfl | hr'
    · exact sanitizeRow_conds h₁ hsurv
    · have := ih h₂ r hr' hsurv
      rwa [sanitizeRow_akeys_free h₁] at this

theorem akeys_initialGrid (N : ℕ) :
    akeys (initialGrid N) = (List.range N).map (fun i => i * SEC_IN_5MINS) := by
  simp [akeys, initialGrid, List.map_map]

theorem akeys_initialGrid_nodup (N : ℕ) : (akeys (initialGrid N)).Nodup := by
  rw [akeys_initialGrid]
  refine List.Nodup.map ?_ (List.nodup_range N)
  intro a b hab
  exact Nat.eq_of_mul_eq_mul_right (by norm_num [SEC_IN_5MINS]) hab

theorem mem_akeys_initialGrid {N t : ℕ} :
    t ∈ akeys (initialGrid N) ↔ ∃ i, i < N ∧ t = i * SEC_IN_5MINS := by
  rw [akeys_initialGrid]
  simp only [List.mem_map, List.mem_range]
  constructor
  · rintro ⟨i, hi, rfl⟩
    exact ⟨i, hi, rfl⟩
  · rintro ⟨i, hi, rfl⟩
    exact ⟨i, hi, rfl⟩

theorem sanitize_struct {N : ℕ} {rows : List Row} {out : EventList}
    (h : sanitize N rows = Except.ok out) :
    out = (List.range N).map (fun i =>
      (i * SEC_IN_5MINS, sanitizedEventsAt rows (i * SEC_IN_5MINS))) := by
  have := sanitizeFold_struct (akeys_initialGrid_nodup N) h
  rw [this, initialGrid, List.map_map]
  rfl

theorem sanitize_conds {N : ℕ} {rows : List Row} {out : EventList}
    (h : sanitize N rows = Except.ok out) :
    ∀ r ∈ rows, r.create_time ≠ r.delete_time →
      r.create_time < r.delete_time ∧
      validate_event_time r.create_time < validate_event_time r.delete_time ∧
      (∃ i, i < N ∧ validate_event_time r.create_time = i * SEC_IN_5MINS) ∧
      (∃ i, i < N ∧ validate_event_time r.delete_time = i * SEC_IN_5MINS) := by
  intro r hr hsurv
  obtain ⟨h1, h2, h3, h4⟩ := sanitizeFold_conds h r hr hsurv
  exact ⟨h1, h2, mem_akeys_initialGrid.1 h3, mem_akeys_initialGrid.1 h4⟩

theorem sanitize_mem_event {N : ℕ} {rows : List Row} {out : EventList} {t : ℕ}
    {l : List Event} {e : Event} (h : sanitize N rows = Except.ok out)
    (htl : (t, l) ∈ out) (he : e ∈ l) :
    ∃ r ∈ rows, r.create_time ≠ r.delete_time ∧ e ∈ rowEventsAt t r := by
  rw [sanitize_struct h] at htl
  rcases List.mem_map.1 htl with ⟨i, _, hi⟩
  have hl : l = sanitizedEventsAt rows t := by
    have h1 : t = i * SEC_IN_5MINS := (congrArg Prod.fst hi).symm
    have h2 : sanitizedEventsAt rows (i * SEC_IN_5MINS) = l := congrArg Prod.snd hi
    rw [← h2, h1]
  rw [hl] at he
  obtain ⟨r, hr, her⟩ := mem_sanitizedEventsAt he
  exact ⟨r, hr, (rowEventsAt_cases her).1, her⟩

theorem sanitize_tick_dvd {N : ℕ} {rows : List Row} {out : EventList}
    (h : sanitize N rows = Except.ok out) : ∀ tl ∈ out, SEC_IN_5MINS ∣ tl.1 := by
  intro tl htl
  rw [sanitize_struct h] at htl
  rcases List.mem_map.1 htl with ⟨i, _, hi⟩
  have : tl.1 = i * SEC_IN_5MINS := (congrArg Prod.fst hi).symm
  exact ⟨i, this.trans (Nat.mul_comm i _)⟩

/-- C8: the sanitizer drops every row with equal creation and deletion time
(its VM appears in no tick), every tick of the output grid is a multiple of
the 300-second unit, and for every emitted VM the (corrected) creation tick is
strictly below the (corrected) deletion tick. -/
theorem C8_sanitize_insta_and_tick_grid {N : ℕ} {rows : List Row} {out : EventList}
    (hvm : (rows.map Row.vm_uuid).Nodup) (h : sanitize N rows = Except.ok out) :
    (∀ r ∈ rows, r.create_time = r.delete_time →
      ∀ tl ∈ out, ∀ e ∈ tl.2, e.vm ≠ r.vm_uuid) ∧
    (∀ tl ∈ out, SEC_IN_5MINS ∣ tl.1) ∧
    (∀ t t' l l' vdc vdc' vm c ra, (t, l) ∈ out → (t', l') ∈ out →
      Event.create vdc vm c ra ∈ l → Event.delete vdc' vm ∈ l' → t < t') := by
  have hinj : ∀ r ∈ rows, ∀ r' ∈ rows, r.vm_uuid = r'.vm_uuid → r = r' := by
    intro r hr r' hr' hrr
    exact List.inj_on_of_nodup_map hvm hr hr' hrr
  refine ⟨?_, sanitize_tick_dvd h, ?_⟩
  · intro r hr hins tl htl e he hevm
    obtain ⟨r', hr', hsurv, her⟩ := sanitize_mem_event h (by exact htl) he
    have hvm' : e.vm = r'.vm_uuid := by
      rcases (rowEventsAt_cases her).2 with ⟨_, rfl⟩ | ⟨_, rfl⟩ <;> rfl
    exact hsurv (hinj r' hr' r hr (hvm'.symm.trans hevm) ▸ hins)
  · intro t t' l l' vdc vdc' vm c ra htl htl' hce hde
    obtain ⟨r₁, hr₁, hsurv₁, her₁⟩ := sanitize_mem_event h htl hce
    obtain ⟨r₂, hr₂, hsurv₂, her₂⟩ := sanitize_mem_event h htl' hde
    rcases (rowEventsAt_cases her₁).2 with ⟨hct, hc⟩ | ⟨_, hc⟩
    · rcases (rowEventsAt_cases her₂).2 with ⟨_, hd⟩ | ⟨hdt, hd⟩
      · cases hd
      · have hvm₁ : vm = r₁.vm_uuid := by
          cases hc
          rfl
        have hvm₂ : vm = r₂.vm_uuid := by
          cases hd
          rfl
        have hr12 : r₁ = r₂ := hinj r₁ hr₁ r₂ hr₂ (hvm₁ ▸ hvm₂ ▸ rfl)
        subst hr12
        obtain ⟨_, hlt, _, _⟩ := sanitizeFold_conds h r₁ hr₁ hsurv₁
        rw [← hct, ← hdt]
        exact hlt
    · cases hc

/-- Witness for C8 at a concrete input: one surviving VM and one insta-VM. -/
theorem C8_sanitize_insta_and_tick_grid_witness :
    (((([⟨"A", "d", 0, 600, 4, 8⟩, ⟨"B", "d", 300, 300, 1, 1⟩] : List Row).map
        Row.vm_uuid).Nodup) ∧
      sanitize 4 [⟨"A", "d", 0, 600, 4, 8⟩, ⟨"B", "d", 300, 300, 1, 1⟩] =
        Except.ok [(0, [Event.create "d" "A" 4 8]), (300, []),
          (600, [Event.delete "d" "A"]), (900, [])]) ∧
    ((∀ r ∈ ([⟨"A", "d", 0, 600, 4, 8⟩, ⟨"B", "d", 300, 300, 1, 1⟩] : List Row),
        r.create_time = r.delete_time →
        ∀ tl ∈ ([(0, [Event.create "d" "A" 4 8]), (300, []),
          (600, [Event.delete "d" "A"]), (900, [])] : EventList),
          ∀ e ∈ tl.2, e.vm ≠ r.vm_uuid) ∧
      (∀ tl ∈ ([(0, [Event.create "d" "A" 4 8]), (300, []),
          (600, [Event.delete "d" "A"]), (900, [])] : EventList), SEC_IN_5MINS ∣ tl.1) ∧
      (∀ t t' l l' vdc vdc' vm c ra,
        (t, l) ∈ ([(0, [Event.create "d" "A" 4 8]), (300, []),
          (600, [Event.delete "d" "A"]), (900, [])] : EventList) →
        (t', l') ∈ ([(0, [Event.create "d" "A" 4 8]), (300, []),
          (600, [Event.delete "d" "A"]), (900, [])] : EventList) →
        Event.create vdc vm c ra ∈ l → Event.delete vdc' vm ∈ l' → t < t')) :=
  ⟨⟨by decide, by decide⟩,
    @C8_sanitize_insta_and_tick_grid 4
      [⟨"A", "d", 0, 600, 4, 8⟩, ⟨"B", "d", 300, 300, 1, 1⟩]
      [(0, [Event.create "d" "A" 4 8]), (300, []), (600, [Event.delete "d" "A"]), (900, [])]
      (by decide) (by decide)⟩

/-! ### Characterization of `batch_vdcs` -/

theorem keyLe_iff (a b : String × String) :
    keyLe a b = true ↔ (a.1 < b.1 ∨ (a.1 = b.1 ∧ a.2 ≤ b.2)) := by
  simp only [keyLe, Bool.or_eq_true, Bool.and_eq_true, decide_eq_true_eq]
  have h1 : a.1.data < b.1.data ↔ a.1 < b.1 := (String.lt_iff_toList_lt).symm
  have h2 : a.2.data < b.2.data ↔ a.2 < b.2 := (String.lt_iff_toList_lt).symm
  rw [h1, h2]
  constructor
  · rintro (h | ⟨he, h | h⟩)
    · exact Or.inl h
    · exact Or.inr ⟨he, le_of_lt h⟩
    · exact Or.inr ⟨he, le_of_eq h⟩
  · rintro (h | ⟨he, h⟩)
    · exact Or.inl h
    · rcases lt_or_eq_of_le h with h' | h'
      · exact Or.inr ⟨he, Or.inl h'⟩
      · exact Or.inr ⟨he, Or.inr h'⟩

theorem keyLe_trans (a b c : String × String) (hab : keyLe a b = true)
    (hbc : keyLe b c = true) : keyLe a c = true := by
  rw [keyLe_iff] at *
  rcases hab with hab | ⟨hab, hab'⟩
  · rcases hbc with hbc | ⟨hbc, _⟩
    · exact Or.inl (lt_trans hab hbc)
    · exact Or.inl (hbc ▸ hab)
  · rcases hbc with hbc | ⟨hbc, hbc'⟩
    · exact Or.inl (hab ▸ hbc)
    · exact Or.inr ⟨hab.trans hbc, le_trans hab' hbc'⟩

theorem keyLe_total (a b : String × String) : (keyLe a b || keyLe b a) = true := by
  rw [Bool.or_eq_true, keyLe_iff, keyLe_iff]
  rcases lt_trichotomy a.1 b.1 with h | h | h
  · exact Or.inl (Or.inl h)
  · rcases le_total a.2 b.2 with h2 | h2
    · exact Or.inl (Or.inr ⟨h, h2⟩)
    · exact Or.inr (Or.inr ⟨h.symm, h2⟩)
  · exact Or.inr (Or.inl h)

instance : IsTrans ((String × String) × Event) keyRel :=
  ⟨fun a b c => keyLe_trans a.1 b.1 c.1⟩

instance : IsTotal ((String × String) × Event) keyRel :=
  ⟨fun a b => Bool.or_eq_true _ _ |>.mp (keyLe_total a.1 b.1)⟩

theorem dequeFold_eq (l : List ((String × String) × Event)) (acc : List Event) :
    l.foldl (fun acc kv => dequePush acc kv.2) acc =
      ((l.map Prod.snd).filter Event.isDelete).reverse ++ acc ++
        ((l.map Prod.snd).filter Event.isCreate) := by
  induction l generalizing acc with
  | nil => simp
  | cons kv l ih =>
    rw [List.foldl_cons, ih]
    match hkv : kv.2 with
    | Event.create vdc vm c r =>
      simp [dequePush, Event.isDelete, Event.isCreate, List.filter_cons, hkv]
    | Event.delete vdc vm =>
      simp [dequePush, Event.isDelete, Event.isCreate, List.filter_cons, hkv]

theorem batchDict_mem {evs : List Event} {kv : (String × String) × Event}
    (h : kv ∈ batchDict evs) : kv.1 = eventKey kv.2 ∧ kv.2 ∈ evs := by
  have aux : ∀ (evs : List Event) (m : List ((String × String) × Event)),
      kv ∈ evs.foldl (fun m e => aset m (eventKey e) e) m →
      kv ∈ m ∨ (kv.1 = eventKey kv.2 ∧ kv.2 ∈ evs) := by
    intro evs
    induction evs with
    | nil => exact fun m h => Or.inl h
    | cons e evs ih =>
      intro m h
      rcases ih _ h with h' | ⟨hk, hm⟩
      · rcases mem_aset _ _ _ _ h' with rfl | h''
        · exact Or.inr ⟨rfl, List.mem_cons_self _ _⟩
        · exact Or.inl h''
      · exact Or.inr ⟨hk, List.mem_cons_of_mem _ hm⟩
  rcases aux evs [] h with h' | h'
  · cases h'
  · exact h'

theorem aset_ne_nil {α β : Type} [DecidableEq α] (l : List (α × β)) (k : α) (v : β) :
    aset l k v ≠ [] := by
  cases l with
  | nil => simp [aset]
  | cons p rest =>
    by_cases h : p.1 = k
    · simp [aset, h]
    · simp [aset, h]

theorem batchDict_ne_nil {evs : List Event} (h : evs ≠ []) : batchDict evs ≠ [] := by
  have aux : ∀ (evs : List Event) (m : List ((String × String) × Event)), m ≠ [] →
      evs.foldl (fun m e => aset m (eventKey e) e) m ≠ [] := by
    intro evs
    induction evs with
    | nil => exact fun m hm => hm
    | cons e evs ih => exact fun m _ => ih _ (aset_ne_nil _ _ _)
  cases evs with
  | nil => exact absurd rfl h
  | cons e evs =>
    exact aux evs _ (aset_ne_nil [] (eventKey e) e)

theorem batchTick_split (l : List Event) :
    ∃ ds cs, batchTick l = ds ++ cs ∧ (∀ e ∈ ds, e.isDelete = true) ∧
      (∀ e ∈ cs, e.isCreate = true) ∧
      cs.Pairwise (fun e e' => e.vdc ≤ e'.vdc) := by
  have hsorted := List.sorted_insertionSort keyRel (batchDict l)
  have hperm := List.perm_insertionSort keyRel (batchDict l)
  set sorted := List.insertionSort keyRel (batchDict l) with hs
  refine ⟨((sorted.map Prod.snd).filter Event.isDelete).reverse,
    (sorted.map Prod.snd).filter Event.isCreate, ?_, ?_, ?_, ?_⟩
  · have := dequeFold_eq sorted []
    simpa [batchTick] using this
  · intro e he
    exact (List.mem_filter.1 (List.mem_reverse.1 he)).2
  · intro e he
    exact (List.mem_filter.1 he).2
  · have hkeys : ∀ kv ∈ sorted, kv.1 = eventKey kv.2 := by
    -- every entry of the sorted dict is key-consistent
      intro kv hkv
      exact (batchDict_mem (hperm.mem_iff.1 hkv)).1
    have hp : sorted.Pairwise (fun kv kv' : (String × String) × Event =>
        kv.2.vdc ≤ kv'.2.vdc) := by
      refine hsorted.imp_of_mem ?_
      intro a b ha hb hab
      have hka := hkeys a ha
      have hkb := hkeys b hb
      simp only [keyRel] at hab
      rw [keyLe_iff] at hab
      rcases hab with hlt | ⟨heq, _⟩
      · rw [hka, hkb] at hlt
        exact le_of_lt hlt
      · rw [hka, hkb] at heq
        simp only [eventKey] at heq
        exact le_of_eq heq
    have hmap : (sorted.map Prod.snd).Pairwise (fun e e' : Event => e.vdc ≤ e'.vdc) :=
      List.pairwise_map.2 hp
    exact hmap.filter _

theorem mem_batch_vdcs {events : EventList} {tl : ℕ × List Event}
    (h : tl ∈ batch_vdcs events) :
    ∃ l, (tl.1, l) ∈ events ∧ l ≠ [] ∧ tl.2 = batchTick l := by
  have aux : ∀ (events : EventList) (acc : EventList),
      tl ∈ events.foldl
        (fun b tl => if tl.2.isEmpty then b else b ++ [(tl.1, batchTick tl.2)]) acc →
      tl ∈ acc ∨ ∃ l, (tl.1, l) ∈ events ∧ l ≠ [] ∧ tl.2 = batchTick l := by
    intro events
    induction events with
    | nil => exact fun acc h => Or.inl h
    | cons etl events ih =>
      intro acc h
      rw [List.foldl_cons] at h
      by_cases he : etl.2.isEmpty
      · rw [if_pos he] at h
        rcases ih _ h with h' | ⟨l, hl, hne, hb⟩
        · exact Or.inl h'
        · exact Or.inr ⟨l, List.mem_cons_of_mem _ hl, hne, hb⟩
      · rw [if_neg he] at h
        rcases ih _ h with h' | ⟨l, hl, hne, hb⟩
        · rcases List.mem_append.1 h' with h'' | h''
          · exact Or.inl h''
          · refine Or.inr ⟨etl.2, ?_, by simpa using he, ?_⟩
            · have : tl = (etl.1, batchTick etl.2) := List.mem_singleton.1 h''
              rw [this]
              exact List.mem_cons_self _ _
            · have : tl = (etl.1, batchTick etl.2) := List.mem_singleton.1 h''
              rw [this]
        · exact Or.inr ⟨l, List.mem_cons_of_mem _ hl, hne, hb⟩
  rcases aux events [] h with h' | h'
  · cases h'
  · exact h'

theorem batchTick_ne_nil {l : List Event} (h : l ≠ []) : batchTick l ≠ [] := by
  have hperm := List.perm_insertionSort keyRel (batchDict l)
  have hne : List.insertionSort keyRel (batchDict l) ≠ [] := by
    intro hnil
    rw [hnil] at hperm
    exact batchDict_ne_nil h hperm.symm.eq_nil
  set sorted := List.insertionSort keyRel (batchDict l) with hs
  cases hsorted : sorted with
  | nil => exact absurd hsorted hne
  | cons kv rest =>
    have hfold := dequeFold_eq sorted []
    intro hcon
    rw [show batchTick l = sorted.foldl (fun acc kv => dequePush acc kv.2) [] from rfl,
      hfold] at hcon
    have hmem : kv.2 ∈ sorted.map Prod.snd := by
      rw [hsorted]
      exact List.mem_map_of_mem _ (List.mem_cons_self _ _)
    match hkv : kv.2 with
    | Event.create vdc vm c r =>
      have : kv.2 ∈ (sorted.map Prod.snd).filter Event.isCreate :=
        List.mem_filter.2 ⟨hmem, by rw [hkv]; rfl⟩
      rw [hkv] at this
      simp only [List.append_eq_nil] at hcon
      rw [hcon.2] at this
      cases this
    | Event.delete vdc vm =>
      have : kv.2 ∈ (sorted.map Prod.snd).filter Event.isDelete :=
        List.mem_filter.2 ⟨hmem, by rw [hkv]; rfl⟩
      rw [hkv] at this
      simp only [List.append_eq_nil] at hcon
      have h2 := hcon.1.1
      rw [List.reverse_eq_nil_iff] at h2
      rw [h2] at this
      cases this

/-- C6: in every tick emitted by the tick batcher, the event list is a block
of DELETE events followed by a block of CREATE events, and the CREATE block is
sorted by (natural string order of) vdc uuid, hence CREATE events of the same
vdc are contiguous. -/
theorem C6_batch_deletes_first_creates_sorted (events : EventList)
    (tl : ℕ × List Event) (h : tl ∈ batch_vdcs events) :
    ∃ ds cs, tl.2 = ds ++ cs ∧ (∀ e ∈ ds, e.isDelete = true) ∧
      (∀ e ∈ cs, e.isCreate = true) ∧ cs.Pairwise (fun e e' => e.vdc ≤ e'.vdc) := by
  obtain ⟨l, _, _, hb⟩ := mem_batch_vdcs h
  rw [hb]
  exact batchTick_split l

/-- Witness for C6 at a concrete input tick. -/
theorem C6_batch_deletes_first_creates_sorted_witness :
    ((0, [Event.delete "d" "y", Event.create "c" "z" 1 1, Event.create "d" "x" 1 1]) ∈
      batch_vdcs [(0, [Event.delete "d" "y", Event.create "d" "x" 1 1,
        Event.create "c" "z" 1 1])]) ∧
    (∃ ds cs,
      ([Event.delete "d" "y", Event.create "c" "z" 1 1, Event.create "d" "x" 1 1] :
        List Event) = ds ++ cs ∧
      (∀ e ∈ ds, e.isDelete = true) ∧ (∀ e ∈ cs, e.isCreate = true) ∧
      cs.Pairwise (fun e e' => e.vdc ≤ e'.vdc)) :=
  ⟨by decide,
    C6_batch_deletes_first_creates_sorted
      [(0, [Event.delete "d" "y", Event.create "d" "x" 1 1, Event.create "c" "z" 1 1])]
      (0, [Event.delete "d" "y", Event.create "c" "z" 1 1, Event.create "d" "x" 1 1])
      (by decide)⟩

theorem mapM_ok_forall₂ {α β : Type} (f : α → Except String β) (l : List α)
    (l' : List β) (h : l.mapM f = Except.ok l') :
    List.Forall₂ (fun a b => f a = Except.ok b) l l' := by
  induction l generalizing l' with
  | nil =>
    rw [List.mapM_nil] at h
    cases h
    exact List.Forall₂.nil
  | cons a t ih =>
    rw [List.mapM_cons] at h
    obtain ⟨b, hb, h2⟩ := except_bind_ok _ _ _ h
    obtain ⟨bs, hbs, h3⟩ := except_bind_ok _ _ _ h2
    cases h3
    exact List.Forall₂.cons hb (ih _ hbs)

theorem forall₂_mem_right {α β : Type} {R : α → β → Prop} {l : List α} {l' : List β}
    {b : β} (h : List.Forall₂ R l l') (hb : b ∈ l') : ∃ a ∈ l, R a b := by
  induction h with
  | nil => cases hb
  | cons hr _ ih =>
    rcases List.mem_cons.1 hb with rfl | hb'
    · exact ⟨_, List.mem_cons_self _ _, hr⟩
    · obtain ⟨a, ha, har⟩ := ih hb'
      exact ⟨a, List.mem_cons_of_mem _ ha, har⟩

theorem add_network_tick_ok {evs : EventList} {vm2vdc : List (String × String)}
    {vm_peers : List (String × List String)} {band : ℤ} {tl : ℕ × List Event}
    {ntl : String × List NetEvent}
    (h : (if tl.2.isEmpty then (Except.error "assert: empty tick" :
        Except String (String × List NetEvent))
      else do
        let nevs ← tl.2.mapM (netEventOf vm2vdc vm_peers (vmCoresDict evs) band)
        Except.ok ("tick_" ++ Nat.repr tl.1, nevs)) = Except.ok ntl) :
    tl.2 ≠ [] ∧ ∃ nevs, tl.2.mapM (netEventOf vm2vdc vm_peers (vmCoresDict evs) band) =
      Except.ok nevs ∧ ntl = ("tick_" ++ Nat.repr tl.1, nevs) := by
  by_cases he : tl.2.isEmpty
  · rw [if_pos he] at h
    cases h
  · rw [if_neg he] at h
    obtain ⟨nevs, hnevs, hok⟩ := except_bind_ok _ _ _ h
    cases hok
    exact ⟨by simpa using he, nevs, hnevs, rfl⟩

/-- C10: every tick of the batched event mapping has a non-empty event list
(empty grid ticks are skipped by the batcher), and every tick record of the
networked workload produced from it has a non-empty event list. -/
theorem C10_nonempty_ticks (events : EventList) (vm2vdc : List (String × String))
    (vm_peers : List (String × List String)) (band : ℤ)
    (w : List (String × List NetEvent)) :
    (∀ tl ∈ batch_vdcs events, tl.2 ≠ []) ∧
    (add_network (batch_vdcs events) vm2vdc vm_peers band = Except.ok w →
      ∀ ntl ∈ w, ntl.2 ≠ []) := by
  constructor
  · intro tl htl
    obtain ⟨l, _, hne, hb⟩ := mem_batch_vdcs htl
    rw [hb]
    exact batchTick_ne_nil hne
  · intro h ntl hntl
    have hf := mapM_ok_forall₂ _ _ _ h
    obtain ⟨tl, htl, hrel⟩ := forall₂_mem_right hf hntl
    obtain ⟨hne, nevs, hnevs, hntl'⟩ := add_network_tick_ok hrel
    have hlen := (mapM_ok_forall₂ _ _ _ hnevs).length_eq
    have hnevs_ne : nevs ≠ [] := by
      intro hnil
      rw [hnil, List.length_nil] at hlen
      exact hne (List.length_eq_zero.1 hlen)
    rw [hntl']
    exact hnevs_ne

/-- Witness for C10 at a concrete input. -/
theorem C10_nonempty_ticks_witness :
    (add_network (batch_vdcs [(0, [Event.create "d" "x" 1 1]), (300, [])])
        [("x", "d")] [("x", [])] 10 =
      Except.ok [("tick_0", [NetEvent.create "d" "x" 1 1 []])]) ∧
    ((∀ tl ∈ batch_vdcs [(0, [Event.create "d" "x" 1 1]), (300, [])], tl.2 ≠ []) ∧
      (add_network (batch_vdcs [(0, [Event.create "d" "x" 1 1]), (300, [])])
          [("x", "d")] [("x", [])] 10 =
        Except.ok [("tick_0", [NetEvent.create "d" "x" 1 1 []])] →
        ∀ ntl ∈ [(("tick_0" : String), [NetEvent.create "d" "x" 1 1 []])], ntl.2 ≠ [])) :=
  ⟨by decide,
    C10_nonempty_ticks [(0, [Event.create "d" "x" 1 1]), (300, [])]
      [("x", "d")] [("x", [])] 10 [("tick_0", [NetEvent.create "d" "x" 1 1 []])]⟩

/-! ### Characterization of `add_network` -/

theorem connFold_ok {coresDict : List (String × ℚ)} {band : ℤ} {cores : ℚ}
    {peers : List String} {init conn : List (String × ℤ)}
    (h : peers.foldlM (fun conn pvm => do
      let pc ← lookupE coresDict pvm "KeyError: vm_cores_dict"
      Except.ok (aset conn pvm (pyIntTrunc (band * pymin cores pc)))) init =
      Except.ok conn) :
    (∀ kv ∈ conn, kv ∈ init ∨ ∃ pc, alookup coresDict kv.1 = some pc ∧
      kv.2 = pyIntTrunc (band * pymin cores pc)) ∧
    (∀ p, (alookup init p).isSome → (alookup conn p).isSome) ∧
    (∀ p ∈ peers, (alookup conn p).isSome) := by
  induction peers generalizing init with
  | nil =>
    simp only [List.foldlM_nil] at h
    cases h
    exact ⟨fun kv hkv => Or.inl hkv, fun p hp => hp, fun p hp => absurd hp (List.not_mem_nil p)⟩
  | cons pvm peers ih =>
    obtain ⟨init₁, h₁, h₂⟩ := foldlM_ok_cons _ _ _ _ _ h
    obtain ⟨pc, hpc, hset⟩ := except_bind_ok _ _ _ h₁
    have hpc' : alookup coresDict pvm = some pc := by
      unfold lookupE at hpc
      cases hl : alookup coresDict pvm with
      | none => rw [hl] at hpc; cases hpc
      | some v => rw [hl] at hpc; cases hpc; rfl
    cases hset
    obtain ⟨ih1, ih2, ih3⟩ := ih h₂
    refine ⟨?_, ?_, ?_⟩
    · intro kv hkv
      rcases ih1 kv hkv with hkv' | hf
      · rcases mem_aset _ _ _ _ hkv' with rfl | hkv''
        · exact Or.inr ⟨pc, hpc', rfl⟩
        · exact Or.inl hkv''
      · exact Or.inr hf
    · intro p hp
      exact ih2 p (alookup_isSome_of_aset _ _ _ _ hp)
    · intro p hp
      rcases List.mem_cons.1 hp with rfl | hp'
      · exact ih2 p (by rw [alookup_aset_self]; rfl)
      · exact ih3 p hp'

theorem netEventOf_ok_rel {vm2vdc : List (String × String)}
    {vm_peers : List (String × List String)} {coresDict : List (String × ℚ)}
    {band : ℤ} {e : Event} {ne : NetEvent}
    (h : netEventOf vm2vdc vm_peers coresDict band e = Except.ok ne) :
    (∀ vdc vm, e = Event.delete vdc vm →
      ∃ p, alookup vm2vdc vm = some p ∧ ne = NetEvent.delete p vm) ∧
    (∀ vdc vm cores ram, e = Event.create vdc vm cores ram →
      ∃ p peers conn, alookup vm2vdc vm = some p ∧ alookup vm_peers vm = some peers ∧
        ne = NetEvent.create p vm cores ram conn ∧
        (∀ kv ∈ conn, ∃ pc, alookup coresDict kv.1 = some pc ∧
          kv.2 = pyIntTrunc (band * pymin cores pc)) ∧
        (∀ p' ∈ peers, (alookup conn p').isSome)) := by
  match e with
  | Event.delete dvdc dvm =>
    simp only [netEventOf] at h
    obtain ⟨p, hp, hok⟩ := except_bind_ok _ _ _ h
    have hp' : alookup vm2vdc dvm = some p := by
      unfold lookupE at hp
      cases hl : alookup vm2vdc dvm with
      | none => rw [hl] at hp; cases hp
      | some v => rw [hl] at hp; cases hp; rfl
    cases hok
    constructor
    · intro vdc vm heq
      cases heq
      exact ⟨p, hp', rfl⟩
    · intro vdc vm cores ram heq
      cases heq
  | Event.create cvdc cvm ccores cram =>
    simp only [netEventOf] at h
    obtain ⟨p, hp, h1⟩ := except_bind_ok _ _ _ h
    have hp' : alookup vm2vdc cvm = some p := by
      unfold lookupE at hp
      cases hl : alookup vm2vdc cvm with
      | none => rw [hl] at hp; cases hp
      | some v => rw [hl] at hp; cases hp; rfl
    obtain ⟨peers, hpe, h2⟩ := except_bind_ok _ _ _ h1
    have hpe' : alookup vm_peers cvm = some peers := by
      unfold lookupE at hpe
      cases hl : alookup vm_peers cvm with
      | none => rw [hl] at hpe; cases hpe
      | some v => rw [hl] at hpe; cases hpe; rfl
    obtain ⟨conn, hconn, hok⟩ := except_bind_ok _ _ _ h2
    cases hok
    obtain ⟨hc1, _, hc3⟩ := connFold_ok hconn
    constructor
    · intro vdc vm heq
      cases heq
    · intro vdc vm cores ram heq
      cases heq
      refine ⟨p, peers, conn, hp', hpe', rfl, ?_, hc3⟩
      intro kv hkv
      rcases hc1 kv hkv with hkv' | hf
      · cases hkv'
      · exact hf

/-- C7: network synthesis rewrites every event's vdc uuid to its physical vdc;
every create event gets a connection map whose every entry carries
`int(band_per_core * min(own cores, peer cores))`, with an entry for each
recorded peer; delete events are otherwise unmodified. -/
theorem C7_add_network_bandwidth {events : EventList} {vm2vdc : List (String × String)}
    {vm_peers : List (String × List String)} {band : ℤ}
    {w : List (String × List NetEvent)}
    (h : add_network events vm2vdc vm_peers band = Except.ok w) :
    List.Forall₂ (fun (tl : ℕ × List Event) (ntl : String × List NetEvent) =>
      ntl.1 = "tick_" ++ Nat.repr tl.1 ∧
      List.Forall₂ (fun e ne =>
        (∀ vdc vm, e = Event.delete vdc vm →
          ∃ p, alookup vm2vdc vm = some p ∧ ne = NetEvent.delete p vm) ∧
        (∀ vdc vm cores ram, e = Event.create vdc vm cores ram →
          ∃ p peers conn, alookup vm2vdc vm = some p ∧
            alookup vm_peers vm = some peers ∧
            ne = NetEvent.create p vm cores ram conn ∧
            (∀ kv ∈ conn, ∃ pc, alookup (vmCoresDict events) kv.1 = some pc ∧
              kv.2 = pyIntTrunc (band * pymin cores pc)) ∧
            (∀ p' ∈ peers, (alookup conn p').isSome))) tl.2 ntl.2) events w := by
  have hf := mapM_ok_forall₂ _ _ _ h
  refine hf.imp ?_
  intro tl ntl hrel
  obtain ⟨_, nevs, hnevs, hntl⟩ := add_network_tick_ok hrel
  refine ⟨by rw [hntl], ?_⟩
  have hf2 := mapM_ok_forall₂ _ _ _ hnevs
  rw [hntl]
  exact hf2.imp (fun e ne hok => netEventOf_ok_rel hok)

/-- Witness for C7: two same-tick VMs with 4 and 8 cores and band-per-core 10
get 40 Mbps in both directions. -/
theorem C7_add_network_bandwidth_witness :
    (add_network [(0, [Event.create "d" "A" 4 8, Event.create "d" "B" 8 8]),
        (600, [Event.delete "d" "A"])]
      [("A", "d"), ("B", "d")] [("A", ["B"]), ("B", ["A"])] 10 =
      Except.ok [("tick_0", [NetEvent.create "d" "A" 4 8 [("B", 40)],
        NetEvent.create "d" "B" 8 8 [("A", 40)]]),
        ("tick_600", [NetEvent.delete "d" "A"])]) ∧
    List.Forall₂ (fun (tl : ℕ × List Event) (ntl : String × List NetEvent) =>
      ntl.1 = "tick_" ++ Nat.repr tl.1 ∧
      List.Forall₂ (fun e ne =>
        (∀ vdc vm, e = Event.delete vdc vm →
          ∃ p, alookup [("A", "d"), ("B", "d")] vm = some p ∧
            ne = NetEvent.delete p vm) ∧
        (∀ vdc vm cores ram, e = Event.create vdc vm cores ram →
          ∃ p peers conn, alookup [("A", "d"), ("B", "d")] vm = some p ∧
            alookup [("A", ["B"]), ("B", ["A"])] vm = some peers ∧
            ne = NetEvent.create p vm cores ram conn ∧
            (∀ kv ∈ conn, ∃ pc,
              alookup (vmCoresDict [(0, [Event.create "d" "A" 4 8,
                Event.create "d" "B" 8 8]), (600, [Event.delete "d" "A"])]) kv.1 =
                some pc ∧
              kv.2 = pyIntTrunc (10 * pymin cores pc)) ∧
            (∀ p' ∈ peers, (alookup conn p').isSome))) tl.2 ntl.2)
      [(0, [Event.create "d" "A" 4 8, Event.create "d" "B" 8 8]),
        (600, [Event.delete "d" "A"])]
      [("tick_0", [NetEvent.create "d" "A" 4 8 [("B", 40)],
        NetEvent.create "d" "B" 8 8 [("A", 40)]]),
        ("tick_600", [NetEvent.delete "d" "A"])] :=
  ⟨by with_unfolding_all decide, C7_add_network_bandwidth (by with_unfolding_all decide)⟩

/-! ### The chopper: capacity invariant -/

/-- The chopper state after processing a list of complete ticks followed by a
prefix of a further tick's membership pass: an arbitrary observation point of
the tick-by-tick replay of `_chop_vdcs`. -/
def chopAt (max_vdc_size : ℕ) (ticks : EventList) (pending : List Event) :
    Except String ChopState := do
  let s ← List.foldlM (fun s tl => chopTick max_vdc_size s tl.2) initialChopState ticks
  List.foldlM (chopEvent max_vdc_size) s pending

theorem lookupE_ok {α β : Type} [DecidableEq α] {l : List (α × β)} {k : α} {msg : String}
    {v : β} (h : lookupE l k msg = Except.ok v) : alookup l k = some v := by
  unfold lookupE at h
  cases hl : alookup l k with
  | none => rw [hl] at h; cases h
  | some v' => rw [hl] at h; cases h; rfl

/-- All alive lists of a chopper state are bounded by `max`. -/
def CapInv (max : ℕ) (s : ChopState) : Prop :=
  ∀ p l, alookup s.vdc_alive_vms p = some l → l.length ≤ max

theorem capInv_aset {max : ℕ} {A : List (String × List String)} {p : String}
    {lnew : List String} (hA : ∀ q l, alookup A q = some l → l.length ≤ max)
    (hnew : lnew.length ≤ max) :
    ∀ q l, alookup (aset A p lnew) q = some l → l.length ≤ max := by
  intro q l hq
  by_cases hpq : p = q
  · subst hpq
    rw [alookup_aset_self] at hq
    cases hq
    exact hnew
  · rw [alookup_aset_ne _ _ _ _ hpq] at hq
    exact hA q l hq

theorem chopEvent_capInv {max : ℕ} (hmax : 1 ≤ max) {s : ChopState} {e : Event}
    {s' : ChopState} (h : chopEvent max s e = Except.ok s') (hs : CapInv max s) :
    CapInv max s' := by
  match e with
  | Event.delete dvdc dvm =>
    simp only [chopEvent] at h
    obtain ⟨p, hp, h1⟩ := except_bind_ok _ _ _ h
    obtain ⟨alive, halive, h2⟩ := except_bind_ok _ _ _ h1
    obtain ⟨alive', hrem, hok⟩ := except_bind_ok _ _ _ h2
    cases hok
    have halive' := lookupE_ok halive
    obtain ⟨herase, _⟩ := listRemove_ok hrem
    refine capInv_aset hs ?_
    rw [herase]
    exact le_trans (List.length_erase_le _ _) (hs _ _ halive')
  | Event.create cvdc cvm c r =>
    simp only [chopEvent] at h
    cases hmap : alookup s.vdc_uuid_map cvdc with
    | none =>
      rw [hmap] at h
      cases h
      exact capInv_aset hs (by simpa using hmax)
    | some p =>
      rw [hmap] at h
      obtain ⟨alive, halive, h1⟩ := except_bind_ok _ _ _ h
      have halive' := lookupE_ok halive
      by_cases hlen : alive.length < max
      · rw [if_pos hlen] at h1
        cases h1
        refine capInv_aset hs ?_
        rw [List.length_append]
        simpa using hlen
      · rw [if_neg hlen] at h1
        cases h1
        exact capInv_aset hs (by simpa using hmax)

theorem chopPeersEvent_alive {s : ChopState} {e : Event} {s' : ChopState}
    (h : chopPeersEvent s e = Except.ok s') : s'.vdc_alive_vms = s.vdc_alive_vms := by
  match e with
  | Event.delete dvdc dvm =>
    simp only [chopPeersEvent] at h
    cases h
    rfl
  | Event.create cvdc cvm c r =>
    simp only [chopPeersEvent] at h
    obtain ⟨p, _, h1⟩ := except_bind_ok _ _ _ h
    obtain ⟨all, _, hok⟩ := except_bind_ok _ _ _ h1
    cases hok
    rfl

theorem chopEventFold_capInv {max : ℕ} (hmax : 1 ≤ max) {s : ChopState}
    {evs : List Event} {s' : ChopState}
    (h : List.foldlM (chopEvent max) s evs = Except.ok s') (hs : CapInv max s) :
    CapInv max s' := by
  induction evs generalizing s with
  | nil =>
    simp only [List.foldlM_nil] at h
    cases h
    exact hs
  | cons e evs ih =>
    obtain ⟨s₁, h₁, h₂⟩ := foldlM_ok_cons _ _ _ _ _ h
    exact ih h₂ (chopEvent_capInv hmax h₁ hs)

theorem chopPeersFold_alive {s : ChopState} {evs : List Event} {s' : ChopState}
    (h : List.foldlM chopPeersEvent s evs = Except.ok s') :
    s'.vdc_alive_vms = s.vdc_alive_vms := by
  induction evs generalizing s with
  | nil =>
    simp only [List.foldlM_nil] at h
    cases h
    rfl
  | cons e evs ih =>
    obtain ⟨s₁, h₁, h₂⟩ := foldlM_ok_cons _ _ _ _ _ h
    rw [ih h₂, chopPeersEvent_alive h₁]

theorem chopTick_capInv {max : ℕ} (hmax : 1 ≤ max) {s : ChopState}
    {evs : List Event} {s' : ChopState} (h : chopTick max s evs = Except.ok s')
    (hs : CapInv max s) : CapInv max s' := by
  unfold chopTick at h
  by_cases he : evs.isEmpty
  · rw [if_pos he] at h
    cases h
  · rw [if_neg he] at h
    obtain ⟨s₁, h₁, h₂⟩ := except_bind_ok _ _ _ h
    have hcap := chopEventFold_capInv hmax h₁ hs
    intro p l hl
    rw [chopPeersFold_alive h₂] at hl
    exact hcap p l hl

theorem chopTickFold_capInv {max : ℕ} (hmax : 1 ≤ max) {ticks : EventList}
    {s : ChopState} {s' : ChopState}
    (h : List.foldlM (fun s tl => chopTick max s tl.2) s ticks = Except.ok s')
    (hs : CapInv max s) : CapInv max s' := by
  induction ticks generalizing s with
  | nil =>
    simp only [List.foldlM_nil] at h
    cases h
    exact hs
  | cons tl ticks ih =>
    obtain ⟨s₁, h₁, h₂⟩ := foldlM_ok_cons _ _ _ _ _ h
    exact ih h₂ (chopTick_capInv hmax h₁ hs)

/-- C5: at every observation point of the tick-by-tick chopping replay, every
physical vdc's alive-member list is bounded by the configured maximum; and a
create event joins the current physical vdc exactly when its alive count is
strictly below the maximum, otherwise it seeds a fresh child with that VM
alone. -/
theorem C5_alive_count_never_exceeds_max {max : ℕ} (hmax : 1 ≤ max)
    (ticks : EventList) (pending : List Event) (s : ChopState)
    (h : chopAt max ticks pending = Except.ok s) :
    (∀ p l, alookup s.vdc_alive_vms p = some l → l.length ≤ max) ∧
    (∀ (s' : ChopState) (vdc vm : String) (c r : ℚ) (p : String) (alive : List String),
      alookup s'.vdc_uuid_map vdc = some p →
      alookup s'.vdc_alive_vms p = some alive →
      chopEvent max s' (Event.create vdc vm c r) = Except.ok (
        if alive.length < max then
          { s' with
            vdc_alive_vms := aset s'.vdc_alive_vms p (alive ++ [vm])
            vm2vdc := aset s'.vm2vdc vm p }
        else chopSpawnChild s' vdc vm)) := by
  constructor
  · unfold chopAt at h
    obtain ⟨s₁, h₁, h₂⟩ := except_bind_ok _ _ _ h
    have hinit : CapInv max initialChopState := by
      intro p l hl
      simp [initialChopState, alookup] at hl
    exact chopEventFold_capInv hmax h₂ (chopTickFold_capInv hmax h₁ hinit)
  · intro s' vdc vm c r p alive hmap halive
    simp only [chopEvent, hmap, lookupE, halive]
    by_cases hlen : alive.length < max
    · simp [hlen, Bind.bind, Except.bind]
    · simp [hlen, Bind.bind, Except.bind]

/-- Witness for C5 at a concrete replay point (max 2, a full bin and a fresh
child seeded by the overflowing create). -/
theorem C5_alive_count_never_exceeds_max_witness :
    ((1 ≤ 2) ∧
      chopAt 2 [(0, [Event.create "d0" "A" 1 1, Event.create "d0" "B" 1 1])]
        [Event.create "d0" "C" 1 1] =
      Except.ok (⟨[("d0", 0)], [("d0", "d0__0")],
        [("d0", ["A", "B"]), ("d0__0", ["C"])],
        [("A", "d0"), ("B", "d0"), ("C", "d0__0")],
        [("A", ["B"]), ("B", ["A"])]⟩ : ChopState)) ∧
    ((∀ p l, alookup (⟨[("d0", 0)], [("d0", "d0__0")],
        [("d0", ["A", "B"]), ("d0__0", ["C"])],
        [("A", "d0"), ("B", "d0"), ("C", "d0__0")],
        [("A", ["B"]), ("B", ["A"])]⟩ : ChopState).vdc_alive_vms p = some l →
        l.length ≤ 2) ∧
      (∀ (s' : ChopState) (vdc vm : String) (c r : ℚ) (p : String) (alive : List String),
        alookup s'.vdc_uuid_map vdc = some p →
        alookup s'.vdc_alive_vms p = some alive →
        chopEvent 2 s' (Event.create vdc vm c r) = Except.ok (
          if alive.length < 2 then
            { s' with
              vdc_alive_vms := aset s'.vdc_alive_vms p (alive ++ [vm])
              vm2vdc := aset s'.vm2vdc vm p }
          else chopSpawnChild s' vdc vm))) :=
  ⟨⟨by decide, by decide⟩,
    @C5_alive_count_never_exceeds_max 2 (by decide)
      [(0, [Event.create "d0" "A" 1 1, Event.create "d0" "B" 1 1])]
      [Event.create "d0" "C" 1 1]
      (⟨[("d0", 0)], [("d0", "d0__0")],
        [("d0", ["A", "B"]), ("d0__0", ["C"])],
        [("A", "d0"), ("B", "d0"), ("C", "d0__0")],
        [("A", ["B"]), ("B", ["A"])]⟩ : ChopState)
      (by decide)⟩

/-- Counterexample to C2: with configured maximum 2, the physical vdc `d0`
holds two alive VMs (its maximum) at the end of tick 0; VM `A` is deleted at
tick 300; the CREATE of `C` at tick 600 is nevertheless assigned to `d0`
again — a bin that reached capacity accepts a later create after a deletion,
so it does not "never reopen". -/
theorem C2_counterexample_bin_reopens :
    (chopAt 2 [(0, [Event.create "d0" "A" 1 1, Event.create "d0" "B" 1 1])] [] =
      Except.ok (⟨[], [("d0", "d0")], [("d0", ["A", "B"])],
        [("A", "d0"), ("B", "d0")], [("A", ["B"]), ("B", ["A"])]⟩ : ChopState)) ∧
    chop_vdcs [(0, [Event.create "d0" "A" 1 1, Event.create "d0" "B" 1 1]),
        (300, [Event.delete "d0" "A"]), (600, [Event.create "d0" "C" 1 1])] 2 =
      Except.ok ([("A", "d0"), ("B", "d0"), ("C", "d0")],
        [("A", ["B"]), ("B", ["A"]), ("C", ["B"])]) := by
  exact ⟨by decide, by decide⟩

/-! ### Injectivity of the child vdc uuid construction -/

/-- Reference decimal rendering of a natural number, most significant digit
first; shown below to agree with `Nat.repr`. -/
def natDigits (n : ℕ) : List Char :=
  if h : n < 10 then [Nat.digitChar n]
  else natDigits (n / 10) ++ [Nat.digitChar (n % 10)]
termination_by n
decreasing_by
  simp_wf
  exact Nat.div_lt_self (by omega) (by omega)

theorem natDigits_lt {n : ℕ} (h : n < 10) : natDigits n = [Nat.digitChar n] := by
  rw [natDigits, dif_pos h]

theorem natDigits_ge {n : ℕ} (h : ¬ n < 10) :
    natDigits n = natDigits (n / 10) ++ [Nat.digitChar (n % 10)] := by
  rw [natDigits]
  rw [dif_neg h]

theorem toDigitsCore_eq (fuel n : ℕ) (h : n < fuel) (ds : List Char) :
    Nat.toDigitsCore 10 fuel n ds = natDigits n ++ ds := by
  induction fuel generalizing n ds with
  | zero => omega
  | succ fuel ih =>
    rw [Nat.toDigitsCore]
    by_cases hn : n / 10 = 0
    · have hlt : n < 10 := (Nat.div_eq_zero_iff (by omega)).1 hn
      rw [if_pos hn, natDigits_lt hlt, Nat.mod_eq_of_lt hlt]
      rfl
    · have hge : ¬ n < 10 := fun hlt => hn ((Nat.div_eq_zero_iff (by omega)).2 hlt)
      have hdiv : n / 10 < fuel := by
        have h1 : n / 10 < n := Nat.div_lt_self (by omega) (by omega)
        omega
      rw [if_neg hn, ih _ hdiv, natDigits_ge hge, List.append_assoc]
      rfl

theorem repr_eq_natDigits (n : ℕ) : Nat.repr n = (natDigits n).asString := by
  unfold Nat.repr Nat.toDigits
  rw [toDigitsCore_eq (n + 1) n (Nat.lt_succ_self n)]
  simp

theorem digitChar_inj : ∀ a < 10, ∀ b < 10, Nat.digitChar a = Nat.digitChar b → a = b := by
  decide

theorem digitChar_ne_underscore : ∀ a < 10, Nat.digitChar a ≠ '_' := by decide

theorem natDigits_ne_nil (n : ℕ) : natDigits n ≠ [] := by
  rw [natDigits]
  by_cases h : n < 10
  · simp [h]
  · simp [h]

theorem mem_natDigits (n : ℕ) : ∀ c ∈ natDigits n, ∃ k, k < 10 ∧ c = Nat.digitChar k := by
  induction n using Nat.strong_induction_on with
  | _ n ih =>
    intro c hc
    rw [natDigits] at hc
    by_cases h : n < 10
    · rw [dif_pos h] at hc
      exact ⟨n, h, (List.mem_singleton.1 hc).symm ▸ rfl⟩
    · rw [dif_neg h] at hc
      rcases List.mem_append.1 hc with hc' | hc'
      · exact ih (n / 10) (Nat.div_lt_self (by omega) (by omega)) c hc'
      · exact ⟨n % 10, Nat.mod_lt n (by omega), List.mem_singleton.1 hc'⟩

theorem natDigits_no_underscore (n : ℕ) : '_' ∉ natDigits n := by
  intro h
  obtain ⟨k, hk, hck⟩ := mem_natDigits n '_' h
  exact digitChar_ne_underscore k hk hck.symm

theorem natDigits_inj : ∀ n m : ℕ, natDigits n = natDigits m → n = m := by
  intro n
  induction n using Nat.strong_induction_on with
  | _ n ih =>
    intro m h
    by_cases hn : n < 10
    · by_cases hm : m < 10
      · rw [natDigits_lt hn, natDigits_lt hm] at h
        exact digitChar_inj n hn m hm (List.singleton_inj.1 h)
      · rw [natDigits_lt hn, natDigits_ge hm] at h
        have hlen := congrArg List.length h
        have hne := natDigits_ne_nil (m / 10)
        simp only [List.length_singleton, List.length_append] at hlen
        cases hd : natDigits (m / 10) with
        | nil => exact absurd hd hne
        | cons c cs => rw [hd] at hlen; simp at hlen
    · by_cases hm : m < 10
      · rw [natDigits_ge hn, natDigits_lt hm] at h
        have hlen := congrArg List.length h
        have hne := natDigits_ne_nil (n / 10)
        simp only [List.length_singleton, List.length_append] at hlen
        cases hd : natDigits (n / 10) with
        | nil => exact absurd hd hne
        | cons c cs => rw [hd] at hlen; simp at hlen
      · rw [natDigits_ge hn, natDigits_ge hm] at h
        obtain ⟨h1, h2⟩ := List.append_inj' h (by simp)
        have hdiv : n / 10 = m / 10 :=
          ih (n / 10) (Nat.div_lt_self (by omega) (by omega)) (m / 10) h1
        have hmod : n % 10 = m % 10 :=
          digitChar_inj _ (Nat.mod_lt n (by omega)) _ (Nat.mod_lt m (by omega))
            (List.singleton_inj.1 h2)
        omega

theorem sep_append_inj : ∀ (xs ys ds es : List Char), '_' ∉ xs → '_' ∉ ys →
    xs ++ '_' :: '_' :: ds = ys ++ '_' :: '_' :: es → xs = ys ∧ ds = es := by
  intro xs
  induction xs with
  | nil =>
    intro ys ds es _ hys h
    cases ys with
    | nil =>
      simp only [List.nil_append, List.cons.injEq] at h
      exact ⟨rfl, h.2.2⟩
    | cons y ys' =>
      simp only [List.nil_append, List.cons_append, List.cons.injEq] at h
      exact absurd (h.1 ▸ List.mem_cons_self _ _) hys
  | cons x xs' ih =>
    intro ys ds es hxs hys h
    cases ys with
    | nil =>
      simp only [List.cons_append, List.nil_append, List.cons.injEq] at h
      exact absurd (h.1 ▸ List.mem_cons_self _ _) hxs
    | cons y ys' =>
      simp only [List.cons_append, List.cons.injEq] at h
      have hxs' : '_' ∉ xs' := fun hmem => hxs (List.mem_cons_of_mem _ hmem)
      have hys' : '_' ∉ ys' := fun hmem => hys (List.mem_cons_of_mem _ hmem)
      obtain ⟨h1, h2⟩ := ih ys' ds es hxs' hys' h.2
      exact ⟨by rw [h.1, h1], h2⟩

/-- No underscore character occurs in the string. -/
def noUnderscore (s : String) : Prop := '_' ∉ s.data

instance (s : String) : Decidable (noUnderscore s) :=
  inferInstanceAs (Decidable ('_' ∉ s.data))

theorem childId_data (a : String) (n : ℕ) :
    (a ++ VDC_CONCAT_STR ++ Nat.repr n).data = a.data ++ '_' :: '_' :: natDigits n := by
  rw [repr_eq_natDigits]
  show (a.data ++ VDC_CONCAT_STR.data) ++ (natDigits n).asString.data = _
  have h1 : VDC_CONCAT_STR.data = ['_', '_'] := rfl
  have h2 : (natDigits n).asString.data = natDigits n := rfl
  rw [h1, h2, List.append_assoc]
  rfl

theorem childId_inj {a b : String} {n m : ℕ} (ha : noUnderscore a) (hb : noUnderscore b)
    (h : a ++ VDC_CONCAT_STR ++ Nat.repr n = b ++ VDC_CONCAT_STR ++ Nat.repr m) :
    a = b ∧ n = m := by
  have hdata := congrArg String.data h
  rw [childId_data, childId_data] at hdata
  obtain ⟨h1, h2⟩ := sep_append_inj _ _ _ _ ha hb hdata
  constructor
  · cases a
    cases b
    exact congrArg String.mk h1
  · exact natDigits_inj n m h2

theorem childId_not_noUnderscore (a : String) (n : ℕ) :
    ¬ noUnderscore (a ++ VDC_CONCAT_STR ++ Nat.repr n) := by
  intro hno
  apply hno
  rw [childId_data]
  exact List.mem_append.2 (Or.inr (List.mem_cons_self _ _))

/-! ### The chopper: master invariant -/

/-- `e` is the create event of `vm`. -/
def isCreateOf (vm : String) (e : Event) : Prop := ∃ vdc c r, e = Event.create vdc vm c r

/-- `e` is the delete event of `vm`. -/
def isDeleteOf (vm : String) (e : Event) : Prop := ∃ vdc, e = Event.delete vdc vm

/-- Some processed event created `vm`. -/
def createdIn (done : List Event) (vm : String) : Prop := ∃ e ∈ done, isCreateOf vm e

/-- Some processed event deleted `vm`. -/
def deletedIn (done : List Event) (vm : String) : Prop := ∃ e ∈ done, isDeleteOf vm e

theorem createdIn_append {l₁ l₂ : List Event} {vm : String} :
    createdIn (l₁ ++ l₂) vm ↔ createdIn l₁ vm ∨ createdIn l₂ vm := by
  simp [createdIn, List.mem_append, or_and_right, exists_or]

theorem deletedIn_append {l₁ l₂ : List Event} {vm : String} :
    deletedIn (l₁ ++ l₂) vm ↔ deletedIn l₁ vm ∨ deletedIn l₂ vm := by
  simp [deletedIn, List.mem_append, or_and_right, exists_or]

theorem createdIn_singleton {e : Event} {vm : String} :
    createdIn [e] vm ↔ isCreateOf vm e := by
  simp [createdIn]

theorem deletedIn_singleton {e : Event} {vm : String} :
    deletedIn [e] vm ↔ isDeleteOf vm e := by
  simp [deletedIn]

theorem createdIn_mono {l₁ l₂ : List Event} {vm : String} (h : createdIn l₁ vm) :
    createdIn (l₁ ++ l₂) vm := createdIn_append.2 (Or.inl h)

theorem not_isCreateOf_delete (vm vdc vm' : String) :
    ¬ isCreateOf vm (Event.delete vdc vm') := by
  rintro ⟨a, b, c, h⟩
  cases h

theorem not_isDeleteOf_create (vm vdc vm' : String) (c r : ℚ) :
    ¬ isDeleteOf vm (Event.create vdc vm' c r) := by
  rintro ⟨a, h⟩
  cases h

theorem isCreateOf_create_iff {vm vdc vm' : String} {c r : ℚ} :
    isCreateOf vm (Event.create vdc vm' c r) ↔ vm' = vm := by
  constructor
  · rintro ⟨a, b, d, h⟩
    cases h
    rfl
  · rintro rfl
    exact ⟨vdc, c, r, rfl⟩

theorem isDeleteOf_delete_iff {vm vdc vm' : String} :
    isDeleteOf vm (Event.delete vdc vm') ↔ vm' = vm := by
  constructor
  · rintro ⟨a, h⟩
    cases h
    rfl
  · rintro rfl
    exact ⟨vdc, rfl⟩

/-- The master invariant of the membership pass of `_chop_vdcs`, relating the
chopper state to the prefix `done` of already-processed events. -/
structure ChopInv (done : List Event) (s : ChopState) : Prop where
  vm2vdc_created : ∀ vm p, alookup s.vm2vdc vm = some p → createdIn done vm
  created_vm2vdc : ∀ vm, createdIn done vm → (alookup s.vm2vdc vm).isSome
  vm2vdc_alive_key : ∀ vm p, alookup s.vm2vdc vm = some p →
    (alookup s.vdc_alive_vms p).isSome
  alive_mem : ∀ p l, alookup s.vdc_alive_vms p = some l →
    l.Nodup ∧ ∀ vm ∈ l, alookup s.vm2vdc vm = some p ∧ ¬ deletedIn done vm
  mem_alive : ∀ vm p, alookup s.vm2vdc vm = some p → ¬ deletedIn done vm →
    ∃ l, alookup s.vdc_alive_vms p = some l ∧ vm ∈ l
  ptr_alive : ∀ d p, alookup s.vdc_uuid_map d = some p →
    (alookup s.vdc_alive_vms p).isSome
  ptr_shape : ∀ d p, alookup s.vdc_uuid_map d = some p →
    (p = d ∧ alookup s.vdc_child_index d = none) ∨
    (∃ k, alookup s.vdc_child_index d = some k ∧ p = d ++ VDC_CONCAT_STR ++ Nat.repr k)
  uuid_keys_plain : ∀ d p, alookup s.vdc_uuid_map d = some p → noUnderscore d
  alive_key_plain : ∀ p, (alookup s.vdc_alive_vms p).isSome → noUnderscore p →
    (alookup s.vdc_uuid_map p).isSome
  alive_key_child : ∀ d k, noUnderscore d →
    (alookup s.vdc_alive_vms (d ++ VDC_CONCAT_STR ++ Nat.repr k)).isSome →
    ∃ k', alookup s.vdc_child_index d = some k' ∧ k ≤ k'

theorem chopInv_init : ChopInv [] initialChopState := by
  refine ⟨?_, ?_, ?_, ?_, ?_, ?_, ?_, ?_, ?_, ?_⟩ <;>
    simp [initialChopState, alookup, createdIn, deletedIn]

theorem alookup_aset_cases {α β : Type} [DecidableEq α] {l : List (α × β)} {k k' : α}
    {v w : β} (h : alookup (aset l k v) k' = some w) :
    (k' = k ∧ w = v) ∨ (k' ≠ k ∧ alookup l k' = some w) := by
  by_cases hk : k = k'
  · subst hk
    rw [alookup_aset_self] at h
    cases h
    exact Or.inl ⟨rfl, rfl⟩
  · rw [alookup_aset_ne _ _ _ _ hk] at h
    exact Or.inr ⟨fun hh => hk hh.symm, h⟩

theorem alookup_aset_isSome_cases {α β : Type} [DecidableEq α] {l : List (α × β)}
    {k k' : α} {v : β} (h : (alookup (aset l k v) k').isSome) :
    k' = k ∨ (alookup l k').isSome := by
  by_cases hk : k = k'
  · exact Or.inl hk.symm
  · rw [alookup_aset_ne _ _ _ _ hk] at h
    exact Or.inr h

/-- Extended chop invariant: every deleted VM was created (holds because every
processed delete was preceded by its create). -/
structure ChopInvD (done : List Event) (s : ChopState) extends ChopInv done s : Prop where
  deleted_created : ∀ vm, deletedIn done vm → createdIn done vm
  idx_seen : ∀ d k, alookup s.vdc_child_index d = some k →
    (alookup s.vdc_uuid_map d).isSome

theorem chopInvD_init : ChopInvD [] initialChopState := by
  refine ⟨chopInv_init, ?_, ?_⟩ <;> simp [initialChopState, alookup, createdIn, deletedIn]

theorem createdIn_snoc_create {done : List Event} {vdc vm u : String} {c r : ℚ} :
    createdIn (done ++ [Event.create vdc vm c r]) u ↔ createdIn done u ∨ u = vm := by
  rw [createdIn_append, createdIn_singleton, isCreateOf_create_iff]
  constructor
  · rintro (h | h)
    · exact Or.inl h
    · exact Or.inr h.symm
  · rintro (h | h)
    · exact Or.inl h
    · exact Or.inr h.symm

theorem deletedIn_snoc_create {done : List Event} {vdc vm u : String} {c r : ℚ} :
    deletedIn (done ++ [Event.create vdc vm c r]) u ↔ deletedIn done u := by
  rw [deletedIn_append, deletedIn_singleton]
  constructor
  · rintro (h | h)
    · exact h
    · exact absurd h (not_isDeleteOf_create _ _ _ _ _)
  · exact Or.inl

theorem createdIn_snoc_delete {done : List Event} {vdc vm u : String} :
    createdIn (done ++ [Event.delete vdc vm]) u ↔ createdIn done u := by
  rw [createdIn_append, createdIn_singleton]
  constructor
  · rintro (h | h)
    · exact h
    · exact absurd h (not_isCreateOf_delete _ _ _)
  · exact Or.inl

theorem deletedIn_snoc_delete {done : List Event} {vdc vm u : String} :
    deletedIn (done ++ [Event.delete vdc vm]) u ↔ deletedIn done u ∨ u = vm := by
  rw [deletedIn_append, deletedIn_singleton, isDeleteOf_delete_iff]
  constructor
  · rintro (h | h)
    · exact Or.inl h
    · exact Or.inr h.symm
  · rintro (h | h)
    · exact Or.inl h
    · exact Or.inr h.symm

theorem chopStep_create_new_inv {done : List Event} {s : ChopState}
    {vdc vm : String} {c r : ℚ}
    (hinv : ChopInvD done s) (hvm : ¬ createdIn done vm) (hvdc : noUnderscore vdc)
    (hmap : alookup s.vdc_uuid_map vdc = none) :
    ChopInvD (done ++ [Event.create vdc vm c r]) { s with
      vdc_uuid_map := aset s.vdc_uuid_map vdc vdc
      vm2vdc := aset s.vm2vdc vm vdc
      vdc_alive_vms := aset s.vdc_alive_vms vdc [vm] } := by
  obtain ⟨⟨f1, f2, f3, f4, f5, f6, f7, f8, f9, f10⟩, f11, f12⟩ := hinv
  have hvmnone : alookup s.vm2vdc vm = none := by
    cases hl : alookup s.vm2vdc vm with
    | none => rfl
    | some p => exact absurd (f1 vm p hl) hvm
  have halivenone : alookup s.vdc_alive_vms vdc = none := by
    cases hl : alookup s.vdc_alive_vms vdc with
    | none => rfl
    | some l =>
      have := f9 vdc (by rw [hl]; rfl) hvdc
      rw [hmap] at this
      cases this
  have hidxnone : alookup s.vdc_child_index vdc = none := by
    cases hl : alookup s.vdc_child_index vdc with
    | none => rfl
    | some k =>
      have := f12 vdc k hl
      rw [hmap] at this
      cases this
  refine ⟨⟨?_, ?_, ?_, ?_, ?_, ?_, ?_, ?_, ?_, ?_⟩, ?_, ?_⟩
  · -- vm2vdc_created
    intro u p h
    rcases alookup_aset_cases h with ⟨rfl, rfl⟩ | ⟨hne, h'⟩
    · exact createdIn_snoc_create.2 (Or.inr rfl)
    · exact createdIn_snoc_create.2 (Or.inl (f1 u p h'))
  · -- created_vm2vdc
    intro u hu
    rcases createdIn_snoc_create.1 hu with hu' | rfl
    · exact alookup_isSome_of_aset _ _ _ _ (f2 u hu')
    · rw [alookup_aset_self]
      rfl
  · -- vm2vdc_alive_key
    intro u p h
    rcases alookup_aset_cases h with ⟨rfl, rfl⟩ | ⟨hne, h'⟩
    · rw [alookup_aset_self]
      rfl
    · exact alookup_isSome_of_aset _ _ _ _ (f3 u p h')
  · -- alive_mem
    intro q m h
    rcases alookup_aset_cases h with ⟨rfl, rfl⟩ | ⟨hne, h'⟩
    · refine ⟨List.nodup_singleton vm, ?_⟩
      intro u hu
      cases List.mem_singleton.1 hu
      refine ⟨by rw [alookup_aset_self], ?_⟩
      rw [deletedIn_snoc_create]
      intro hdel
      exact hvm (f11 vm hdel)
    · obtain ⟨hnd, hmem⟩ := f4 q m h'
      refine ⟨hnd, ?_⟩
      intro u hu
      obtain ⟨hu1, hu2⟩ := hmem u hu
      have huvm : u ≠ vm := by
        intro hh
        rw [hh, hvmnone] at hu1
        cases hu1
      refine ⟨?_, ?_⟩
      · rw [alookup_aset_ne _ _ _ _ (fun hh => huvm hh.symm)]
        exact hu1
      · rw [deletedIn_snoc_create]
        exact hu2
  · -- mem_alive
    intro u p h hdel
    rw [deletedIn_snoc_create] at hdel
    rcases alookup_aset_cases h with ⟨hu, hp⟩ | ⟨hne, h'⟩
    · subst hu
      subst hp
      exact ⟨[u], by rw [alookup_aset_self], List.mem_singleton_self u⟩
    · obtain ⟨l, hl, hul⟩ := f5 u p h' hdel
      have hpvdc : p ≠ vdc := by
        intro hh
        rw [hh, halivenone] at hl
        cases hl
      exact ⟨l, by rw [alookup_aset_ne _ _ _ _ (fun hh => hpvdc hh.symm)]; exact hl, hul⟩
  · -- ptr_alive
    intro d p h
    rcases alookup_aset_cases h with ⟨rfl, rfl⟩ | ⟨hne, h'⟩
    · rw [alookup_aset_self]
      rfl
    · exact alookup_isSome_of_aset _ _ _ _ (f6 d p h')
  · -- ptr_shape
    intro d p h
    rcases alookup_aset_cases h with ⟨rfl, rfl⟩ | ⟨hne, h'⟩
    · exact Or.inl ⟨rfl, hidxnone⟩
    · exact f7 d p h'
  · -- uuid_keys_plain
    intro d p h
    rcases alookup_aset_cases h with ⟨rfl, rfl⟩ | ⟨hne, h'⟩
    · exact hvdc
    · exact f8 d p h'
  · -- alive_key_plain
    intro p hp hpu
    rcases alookup_aset_isSome_cases hp with rfl | hp'
    · rw [alookup_aset_self]
      rfl
    · exact alookup_isSome_of_aset _ _ _ _ (f9 p hp' hpu)
  · -- alive_key_child
    intro d k hd hp
    rcases alookup_aset_isSome_cases hp with heq | hp'
    · exact absurd (heq ▸ hvdc) (childId_not_noUnderscore d k)
    · exact f10 d k hd hp'
  · -- deleted_created
    intro u hu
    rw [deletedIn_snoc_create] at hu
    exact createdIn_snoc_create.2 (Or.inl (f11 u hu))
  · -- idx_seen
    intro d k h
    exact alookup_isSome_of_aset _ _ _ _ (f12 d k h)

theorem chopStep_create_room_inv {done : List Event} {s : ChopState}
    {vdc vm p : String} {c r : ℚ} {alive : List String}
    (hinv : ChopInvD done s) (hvm : ¬ createdIn done vm)
    (hmap : alookup s.vdc_uuid_map vdc = some p)
    (halive : alookup s.vdc_alive_vms p = some alive) :
    ChopInvD (done ++ [Event.create vdc vm c r]) { s with
      vdc_alive_vms := aset s.vdc_alive_vms p (alive ++ [vm])
      vm2vdc := aset s.vm2vdc vm p } := by
  obtain ⟨⟨f1, f2, f3, f4, f5, f6, f7, f8, f9, f10⟩, f11, f12⟩ := hinv
  have hvmnone : alookup s.vm2vdc vm = none := by
    cases hl : alookup s.vm2vdc vm with
    | none => rfl
    | some q => exact absurd (f1 vm q hl) hvm
  have hvmnotalive : vm ∉ alive := by
    intro hmem
    obtain ⟨h1, _⟩ := (f4 p alive halive).2 vm hmem
    rw [hvmnone] at h1
    cases h1
  refine ⟨⟨?_, ?_, ?_, ?_, ?_, ?_, ?_, ?_, ?_, ?_⟩, ?_, ?_⟩
  · -- vm2vdc_created
    intro u q h
    rcases alookup_aset_cases h with ⟨hu, _⟩ | ⟨hne, h'⟩
    · exact createdIn_snoc_create.2 (Or.inr hu)
    · exact createdIn_snoc_create.2 (Or.inl (f1 u q h'))
  · -- created_vm2vdc
    intro u hu
    rcases createdIn_snoc_create.1 hu with hu' | rfl
    · exact alookup_isSome_of_aset _ _ _ _ (f2 u hu')
    · rw [alookup_aset_self]
      rfl
  · -- vm2vdc_alive_key
    intro u q h
    rcases alookup_aset_cases h with ⟨hu, hq⟩ | ⟨hne, h'⟩
    · subst hq
      rw [alookup_aset_self]
      rfl
    · exact alookup_isSome_of_aset _ _ _ _ (f3 u q h')
  · -- alive_mem
    intro q m h
    rcases alookup_aset_cases h with ⟨hq, hm⟩ | ⟨hne, h'⟩
    · subst hq
      subst hm
      obtain ⟨hnd, hmem⟩ := f4 q alive halive
      constructor
      · rw [List.nodup_append]
        exact ⟨hnd, List.nodup_singleton vm,
          fun u hu hu' => hvmnotalive ((List.mem_singleton.1 hu') ▸ hu)⟩
      · intro u hu
        rcases List.mem_append.1 hu with hu' | hu'
        · obtain ⟨h1, h2⟩ := hmem u hu'
          have huvm : u ≠ vm := by
            intro hh
            rw [hh, hvmnone] at h1
            cases h1
          refine ⟨?_, ?_⟩
          · rw [alookup_aset_ne _ _ _ _ (fun hh => huvm hh.symm)]
            exact h1
          · rw [deletedIn_snoc_create]
            exact h2
        · cases List.mem_singleton.1 hu'
          refine ⟨by rw [alookup_aset_self], ?_⟩
          rw [deletedIn_snoc_create]
          intro hdel
          exact hvm (f11 _ hdel)
    · obtain ⟨hnd, hmem⟩ := f4 q m h'
      refine ⟨hnd, ?_⟩
      intro u hu
      obtain ⟨h1, h2⟩ := hmem u hu
      have huvm : u ≠ vm := by
        intro hh
        rw [hh, hvmnone] at h1
        cases h1
      refine ⟨?_, ?_⟩
      · rw [alookup_aset_ne _ _ _ _ (fun hh => huvm hh.symm)]
        exact h1
      · rw [deletedIn_snoc_create]
        exact h2
  · -- mem_alive
    intro u q h hdel
    rw [deletedIn_snoc_create] at hdel
    rcases alookup_aset_cases h with ⟨hu, hq⟩ | ⟨hne, h'⟩
    · subst hu
      subst hq
      exact ⟨alive ++ [u], by rw [alookup_aset_self],
        List.mem_append.2 (Or.inr (List.mem_singleton_self u))⟩
    · obtain ⟨l, hl, hul⟩ := f5 u q h' hdel
      by_cases hqp : q = p
      · subst hqp
        rw [halive] at hl
        cases hl
        exact ⟨alive ++ [vm], by rw [alookup_aset_self],
          List.mem_append.2 (Or.inl hul)⟩
      · exact ⟨l, by rw [alookup_aset_ne _ _ _ _ (fun hh => hqp hh.symm)]; exact hl, hul⟩
  · -- ptr_alive
    intro d q h
    exact alookup_isSome_of_aset _ _ _ _ (f6 d q h)
  · -- ptr_shape
    intro d q h
    exact f7 d q h
  · -- uuid_keys_plain
    intro d q h
    exact f8 d q h
  · -- alive_key_plain
    intro q hq hqu
    rcases alookup_aset_isSome_cases hq with rfl | hq'
    · exact f9 q (by rw [halive]; rfl) hqu
    · exact f9 q hq' hqu
  · -- alive_key_child
    intro d k hd hp
    rcases alookup_aset_isSome_cases hp with heq | hp'
    · exact f10 d k hd (by rw [heq, halive]; rfl)
    · exact f10 d k hd hp'
  · -- deleted_created
    intro u hu
    rw [deletedIn_snoc_create] at hu
    exact createdIn_snoc_create.2 (Or.inl (f11 u hu))
  · -- idx_seen
    intro d k h
    exact f12 d k h

theorem chopStep_spawn_inv {done : List Event} {s : ChopState}
    {vdc vm : String} {c r : ℚ} {kstar : ℕ}
    (hinv : ChopInvD done s) (hvm : ¬ createdIn done vm) (hvdc : noUnderscore vdc)
    (hcase : (alookup s.vdc_child_index vdc = none ∧ kstar = 0) ∨
      (∃ n, alookup s.vdc_child_index vdc = some n ∧ kstar = n + 1)) :
    ChopInvD (done ++ [Event.create vdc vm c r]) { s with
      vdc_child_index := aset s.vdc_child_index vdc kstar
      vdc_alive_vms := aset s.vdc_alive_vms (vdc ++ VDC_CONCAT_STR ++ Nat.repr kstar) [vm]
      vdc_uuid_map := aset s.vdc_uuid_map vdc (vdc ++ VDC_CONCAT_STR ++ Nat.repr kstar)
      vm2vdc := aset s.vm2vdc vm (vdc ++ VDC_CONCAT_STR ++ Nat.repr kstar) } := by
  obtain ⟨⟨f1, f2, f3, f4, f5, f6, f7, f8, f9, f10⟩, f11, f12⟩ := hinv
  set child := vdc ++ VDC_CONCAT_STR ++ Nat.repr kstar with hchild
  have hvmnone : alookup s.vm2vdc vm = none := by
    cases hl : alookup s.vm2vdc vm with
    | none => rfl
    | some q => exact absurd (f1 vm q hl) hvm
  have halivenone : alookup s.vdc_alive_vms child = none := by
    cases hl : alookup s.vdc_alive_vms child with
    | none => rfl
    | some l =>
      obtain ⟨k', hk', hle⟩ := f10 vdc kstar hvdc (by rw [← hchild, hl]; rfl)
      rcases hcase with ⟨hnone, _⟩ | ⟨n, hsome, hk⟩
      · rw [hnone] at hk'
        cases hk'
      · rw [hsome] at hk'
        cases hk'
        omega
  refine ⟨⟨?_, ?_, ?_, ?_, ?_, ?_, ?_, ?_, ?_, ?_⟩, ?_, ?_⟩
  · -- vm2vdc_created
    intro u q h
    rcases alookup_aset_cases h with ⟨hu, _⟩ | ⟨hne, h'⟩
    · exact createdIn_snoc_create.2 (Or.inr hu)
    · exact createdIn_snoc_create.2 (Or.inl (f1 u q h'))
  · -- created_vm2vdc
    intro u hu
    rcases createdIn_snoc_create.1 hu with hu' | rfl
    · exact alookup_isSome_of_aset _ _ _ _ (f2 u hu')
    · rw [alookup_aset_self]
      rfl
  · -- vm2vdc_alive_key
    intro u q h
    rcases alookup_aset_cases h with ⟨hu, hq⟩ | ⟨hne, h'⟩
    · subst hq
      rw [alookup_aset_self]
      rfl
    · exact alookup_isSome_of_aset _ _ _ _ (f3 u q h')
  · -- alive_mem
    intro q m h
    rcases alookup_aset_cases h with ⟨hq, hm⟩ | ⟨hne, h'⟩
    · subst hq
      subst hm
      refine ⟨List.nodup_singleton vm, ?_⟩
      intro u hu
      cases List.mem_singleton.1 hu
      refine ⟨by rw [alookup_aset_self], ?_⟩
      rw [deletedIn_snoc_create]
      intro hdel
      exact hvm (f11 _ hdel)
    · obtain ⟨hnd, hmem⟩ := f4 q m h'
      refine ⟨hnd, ?_⟩
      intro u hu
      obtain ⟨h1, h2⟩ := hmem u hu
      have huvm : u ≠ vm := by
        intro hh
        rw [hh, hvmnone] at h1
        cases h1
      refine ⟨?_, ?_⟩
      · rw [alookup_aset_ne _ _ _ _ (fun hh => huvm hh.symm)]
        exact h1
      · rw [deletedIn_snoc_create]
        exact h2
  · -- mem_alive
    intro u q h hdel
    rw [deletedIn_snoc_create] at hdel
    rcases alookup_aset_cases h with ⟨hu, hq⟩ | ⟨hne, h'⟩
    · subst hu
      subst hq
      exact ⟨[u], by rw [alookup_aset_self], List.mem_singleton_self u⟩
    · obtain ⟨l, hl, hul⟩ := f5 u q h' hdel
      have hqc : q ≠ child := by
        intro hh
        rw [hh, halivenone] at hl
        cases hl
      exact ⟨l, by rw [alookup_aset_ne _ _ _ _ (fun hh => hqc hh.symm)]; exact hl, hul⟩
  · -- ptr_alive
    intro d q h
    rcases alookup_aset_cases h with ⟨hd, hq⟩ | ⟨hne, h'⟩
    · subst hq
      rw [alookup_aset_self]
      rfl
    · exact alookup_isSome_of_aset _ _ _ _ (f6 d q h')
  · -- ptr_shape
    intro d q h
    rcases alookup_aset_cases h with ⟨hd, hq⟩ | ⟨hne, h'⟩
    · subst hd
      subst hq
      exact Or.inr ⟨kstar, by rw [alookup_aset_self], rfl⟩
    · rcases f7 d q h' with ⟨hq, hidx⟩ | ⟨k, hk, hq⟩
      · exact Or.inl ⟨hq, by rw [alookup_aset_ne _ _ _ _ (fun hh => hne hh.symm)]; exact hidx⟩
      · exact Or.inr ⟨k, by rw [alookup_aset_ne _ _ _ _ (fun hh => hne hh.symm)]; exact hk, hq⟩
  · -- uuid_keys_plain
    intro d q h
    rcases alookup_aset_cases h with ⟨hd, _⟩ | ⟨hne, h'⟩
    · exact hd ▸ hvdc
    · exact f8 d q h'
  · -- alive_key_plain
    intro q hq hqu
    rcases alookup_aset_isSome_cases hq with heq | hq'
    · rw [hchild] at heq
      exact absurd (heq ▸ hqu) (childId_not_noUnderscore vdc kstar)
    · exact alookup_isSome_of_aset _ _ _ _ (f9 q hq' hqu)
  · -- alive_key_child
    intro d k hd hp
    rcases alookup_aset_isSome_cases hp with heq | hp'
    · rw [hchild] at heq
      obtain ⟨hdv, hkk⟩ := childId_inj hd hvdc heq
      refine ⟨kstar, ?_, le_of_eq hkk⟩
      rw [hdv, alookup_aset_self]
    · obtain ⟨k', hk', hle⟩ := f10 d k hd hp'
      by_cases hdv : d = vdc
      · subst hdv
        rcases hcase with ⟨hnone, _⟩ | ⟨n, hsome, hk⟩
        · rw [hnone] at hk'
          cases hk'
        · rw [hsome] at hk'
          cases hk'
          refine ⟨kstar, by rw [alookup_aset_self], by omega⟩
      · exact ⟨k', by rw [alookup_aset_ne _ _ _ _ (fun hh => hdv hh.symm)]; exact hk', hle⟩
  · -- deleted_created
    intro u hu
    rw [deletedIn_snoc_create] at hu
    exact createdIn_snoc_create.2 (Or.inl (f11 u hu))
  · -- idx_seen
    intro d k h
    rcases alookup_aset_cases h with ⟨hd, _⟩ | ⟨hne, h'⟩
    · subst hd
      rw [alookup_aset_self]
      rfl
    · exact alookup_isSome_of_aset _ _ _ _ (f12 d k h')

theorem chopStep_delete_inv {done : List Event} {s : ChopState} {vdc vm p : String}
    {l : List String}
    (hinv : ChopInvD done s) (hc : createdIn done vm) (hnd : ¬ deletedIn done vm)
    (hp : alookup s.vm2vdc vm = some p)
    (hl : alookup s.vdc_alive_vms p = some l) :
    ChopInvD (done ++ [Event.delete vdc vm]) { s with
      vdc_alive_vms := aset s.vdc_alive_vms p (l.erase vm) } := by
  obtain ⟨⟨f1, f2, f3, f4, f5, f6, f7, f8, f9, f10⟩, f11, f12⟩ := hinv
  obtain ⟨hlnd, hlmem⟩ := f4 p l hl
  refine ⟨⟨?_, ?_, ?_, ?_, ?_, ?_, ?_, ?_, ?_, ?_⟩, ?_, ?_⟩
  · -- vm2vdc_created
    intro u q h
    rw [createdIn_snoc_delete]
    exact f1 u q h
  · -- created_vm2vdc
    intro u hu
    rw [createdIn_snoc_delete] at hu
    exact f2 u hu
  · -- vm2vdc_alive_key
    intro u q h
    exact alookup_isSome_of_aset _ _ _ _ (f3 u q h)
  · -- alive_mem
    intro q m h
    rcases alookup_aset_cases h with ⟨hq, hm⟩ | ⟨hne, h'⟩
    · subst hq
      subst hm
      refine ⟨hlnd.erase vm, ?_⟩
      intro u hu
      rw [hlnd.mem_erase_iff] at hu
      obtain ⟨huvm, hul⟩ := hu
      obtain ⟨h1, h2⟩ := hlmem u hul
      refine ⟨h1, ?_⟩
      rw [deletedIn_snoc_delete]
      rintro (hdel | rfl)
      · exact h2 hdel
      · exact huvm rfl
    · obtain ⟨hnd', hmem⟩ := f4 q m h'
      refine ⟨hnd', ?_⟩
      intro u hu
      obtain ⟨h1, h2⟩ := hmem u hu
      have huvm : u ≠ vm := by
        intro hh
        subst hh
        rw [hp] at h1
        cases h1
        exact hne rfl
      refine ⟨h1, ?_⟩
      rw [deletedIn_snoc_delete]
      rintro (hdel | hdel)
      · exact h2 hdel
      · exact huvm hdel
  · -- mem_alive
    intro u q h hdel
    rw [deletedIn_snoc_delete] at hdel
    push_neg at hdel
    obtain ⟨hdel1, hdel2⟩ := hdel
    obtain ⟨l', hl', hul'⟩ := f5 u q h hdel1
    by_cases hqp : q = p
    · subst hqp
      rw [hl] at hl'
      cases hl'
      refine ⟨l.erase vm, by rw [alookup_aset_self], ?_⟩
      exact List.mem_erase_of_ne hdel2 |>.2 hul'
    · exact ⟨l', by rw [alookup_aset_ne _ _ _ _ (fun hh => hqp hh.symm)]; exact hl', hul'⟩
  · -- ptr_alive
    intro d q h
    exact alookup_isSome_of_aset _ _ _ _ (f6 d q h)
  · -- ptr_shape
    exact f7
  · -- uuid_keys_plain
    exact f8
  · -- alive_key_plain
    intro q hq hqu
    rcases alookup_aset_isSome_cases hq with rfl | hq'
    · exact f9 q (by rw [hl]; rfl) hqu
    · exact f9 q hq' hqu
  · -- alive_key_child
    intro d k hd hpk
    rcases alookup_aset_isSome_cases hpk with heq | hp'
    · exact f10 d k hd (by rw [heq, hl]; rfl)
    · exact f10 d k hd hp'
  · -- deleted_created
    intro u hu
    rw [createdIn_snoc_delete]
    rw [deletedIn_snoc_delete] at hu
    rcases hu with hu | rfl
    · exact f11 u hu
    · exact hc
  · -- idx_seen
    exact f12

theorem listRemove_ok_of_mem {l : List String} {x : String} (h : x ∈ l) :
    listRemove l x = Except.ok (l.erase x) := by
  induction l with
  | nil => cases h
  | cons y ys ih =>
    by_cases hy : y = x
    · subst hy
      rw [List.erase_cons_head]
      simp [listRemove]
    · have hx : x ∈ ys := by
        rcases List.mem_cons.1 h with rfl | h'
        · exact absurd rfl hy
        · exact h'
      rw [List.erase_cons_tail (by simp [hy])]
      simp only [listRemove, if_neg hy, ih hx]
      rfl

/-- Per-event precondition for the membership pass: a create is the first
create of its VM and carries an underscore-free vdc uuid; a delete follows its
VM's create and is the first delete of its VM. -/
def eventOK (done : List Event) (e : Event) : Prop :=
  (∀ vdc vm c r, e = Event.create vdc vm c r → ¬ createdIn done vm ∧ noUnderscore vdc) ∧
  (∀ vdc vm, e = Event.delete vdc vm → createdIn done vm ∧ ¬ deletedIn done vm)

theorem chopEvent_invD_ok {max : ℕ} {done : List Event} {s : ChopState} {e : Event}
    (hinv : ChopInvD done s) (he : eventOK done e) :
    ∃ s', chopEvent max s e = Except.ok s' ∧ ChopInvD (done ++ [e]) s' ∧
      s'.vm_peers = s.vm_peers := by
  match e with
  | Event.delete vdc vm =>
    obtain ⟨hc, hnd⟩ := he.2 vdc vm rfl
    have hsome := hinv.toChopInv.created_vm2vdc vm hc
    cases hp : alookup s.vm2vdc vm with
    | none =>
      rw [hp] at hsome
      cases hsome
    | some p =>
      have halive := hinv.toChopInv.vm2vdc_alive_key vm p hp
      cases hl : alookup s.vdc_alive_vms p with
      | none =>
        rw [hl] at halive
        cases halive
      | some l =>
        obtain ⟨l', hl', hul⟩ := hinv.toChopInv.mem_alive vm p hp hnd
        rw [hl] at hl'
        cases hl'
        refine ⟨_, ?_, chopStep_delete_inv hinv hc hnd hp hl, rfl⟩
        simp [chopEvent, lookupE, hp, hl, listRemove_ok_of_mem hul, Bind.bind, Except.bind]
  | Event.create vdc vm c r =>
    obtain ⟨hvm, hvdc⟩ := he.1 vdc vm c r rfl
    cases hmap : alookup s.vdc_uuid_map vdc with
    | none =>
      refine ⟨_, ?_, chopStep_create_new_inv hinv hvm hvdc hmap, rfl⟩
      simp [chopEvent, hmap]
    | some p =>
      have halive := hinv.toChopInv.ptr_alive vdc p hmap
      cases hl : alookup s.vdc_alive_vms p with
      | none =>
        rw [hl] at halive
        cases halive
      | some alive =>
        by_cases hlen : alive.length < max
        · refine ⟨_, ?_, chopStep_create_room_inv hinv hvm hmap hl, rfl⟩
          simp [chopEvent, hmap, lookupE, hl, hlen, Bind.bind, Except.bind]
        · cases hidx : alookup s.vdc_child_index vdc with
          | none =>
            refine ⟨_, ?_, chopStep_spawn_inv hinv hvm hvdc (Or.inl ⟨hidx, rfl⟩), rfl⟩
            simp [chopEvent, hmap, lookupE, hl, hlen, Bind.bind, Except.bind,
              chopSpawnChild, get_child_vdc_uuid, hidx]
          | some n =>
            refine ⟨_, ?_, chopStep_spawn_inv hinv hvm hvdc (Or.inr ⟨n, hidx, rfl⟩), rfl⟩
            simp [chopEvent, hmap, lookupE, hl, hlen, Bind.bind, Except.bind,
              chopSpawnChild, get_child_vdc_uuid, hidx]

/-- All events of a tick list, in order. -/
def flatTicks (l : EventList) : List Event := (l.map Prod.snd).join

theorem flatTicks_append (a b : EventList) :
    flatTicks (a ++ b) = flatTicks a ++ flatTicks b := by
  simp [flatTicks]

theorem flatTicks_cons (tl : ℕ × List Event) (b : EventList) :
    flatTicks (tl :: b) = tl.2 ++ flatTicks b := by
  simp [flatTicks]

theorem chopEvent_vm2vdc_stable {max : ℕ} {done : List Event} {s : ChopState}
    {e : Event} {s' : ChopState} (hinv : ChopInvD done s) (he : eventOK done e)
    (h : chopEvent max s e = Except.ok s') {u : String}
    (hu : (alookup s.vm2vdc u).isSome) :
    alookup s'.vm2vdc u = alookup s.vm2vdc u := by
  have hcreated : createdIn done u := by
    cases hl : alookup s.vm2vdc u with
    | none => rw [hl] at hu; cases hu
    | some p => exact hinv.toChopInv.vm2vdc_created u p hl
  match e with
  | Event.delete vdc vm =>
    simp only [chopEvent] at h
    obtain ⟨p, _, h1⟩ := except_bind_ok _ _ _ h
    obtain ⟨alive, _, h2⟩ := except_bind_ok _ _ _ h1
    obtain ⟨alive', _, hok⟩ := except_bind_ok _ _ _ h2
    cases hok
    rfl
  | Event.create vdc vm c r =>
    have hne : vm ≠ u := by
      intro hh
      exact (he.1 vdc vm c r rfl).1 (hh ▸ hcreated)
    simp only [chopEvent] at h
    cases hmap : alookup s.vdc_uuid_map vdc with
    | none =>
      rw [hmap] at h
      cases h
      exact alookup_aset_ne _ _ _ _ hne
    | some p =>
      rw [hmap] at h
      obtain ⟨alive, _, h1⟩ := except_bind_ok _ _ _ h
      by_cases hlen : alive.length < max
      · rw [if_pos hlen] at h1
        cases h1
        exact alookup_aset_ne _ _ _ _ hne
      · rw [if_neg hlen] at h1
        cases h1
        exact alookup_aset_ne _ _ _ _ hne

theorem chopPeersEvent_fields {s : ChopState} {e : Event} {s' : ChopState}
    (h : chopPeersEvent s e = Except.ok s') :
    s'.vm2vdc = s.vm2vdc ∧ s'.vdc_alive_vms = s.vdc_alive_vms ∧
    s'.vdc_uuid_map = s.vdc_uuid_map ∧ s'.vdc_child_index = s.vdc_child_index := by
  match e with
  | Event.delete vdc vm =>
    simp only [chopPeersEvent] at h
    cases h
    exact ⟨rfl, rfl, rfl, rfl⟩
  | Event.create vdc vm c r =>
    simp only [chopPeersEvent] at h
    obtain ⟨p, _, h1⟩ := except_bind_ok _ _ _ h
    obtain ⟨all, _, hok⟩ := except_bind_ok _ _ _ h1
    cases hok
    exact ⟨rfl, rfl, rfl, rfl⟩

/-- The chop-state fields other than `vm_peers` determine the master
invariant. -/
theorem chopInvD_congr {done : List Event} {s s' : ChopState} (hinv : ChopInvD done s)
    (h1 : s'.vm2vdc = s.vm2vdc) (h2 : s'.vdc_alive_vms = s.vdc_alive_vms)
    (h3 : s'.vdc_uuid_map = s.vdc_uuid_map)
    (h4 : s'.vdc_child_index = s.vdc_child_index) : ChopInvD done s' := by
  obtain ⟨⟨f1, f2, f3, f4, f5, f6, f7, f8, f9, f10⟩, f11, f12⟩ := hinv
  rw [← h1] at f1 f2 f3 f4 f5
  rw [← h2] at f3 f4 f5 f6 f9 f10
  rw [← h3] at f6 f7 f8 f9 f12
  rw [← h4] at f7 f10 f12
  exact ⟨⟨f1, f2, f3, f4, f5, f6, f7, f8, f9, f10⟩, f11, f12⟩

/-- Prefix-indexed well-formedness of a flat event sequence: each event
satisfies its per-event precondition relative to everything before it. -/
def EventsOK : List Event → List Event → Prop
  | _, [] => True
  | done, e :: rest => eventOK done e ∧ EventsOK (done ++ [e]) rest

theorem eventsOK_append {done : List Event} {l₁ l₂ : List Event} :
    EventsOK done (l₁ ++ l₂) ↔ EventsOK done l₁ ∧ EventsOK (done ++ l₁) l₂ := by
  induction l₁ generalizing done with
  | nil => simp [EventsOK]
  | cons e l₁ ih =>
    have hl : done ++ e :: l₁ = (done ++ [e]) ++ l₁ := by simp
    show (eventOK done e ∧ EventsOK (done ++ [e]) (l₁ ++ l₂)) ↔
      (eventOK done e ∧ EventsOK (done ++ [e]) l₁) ∧ EventsOK (done ++ e :: l₁) l₂
    rw [ih, hl, and_assoc]

theorem chopFold_invD {max : ℕ} {done : List Event} {s : ChopState} {evs : List Event}
    (hinv : ChopInvD done s) (hok : EventsOK done evs) :
    ∃ s', List.foldlM (chopEvent max) s evs = Except.ok s' ∧
      ChopInvD (done ++ evs) s' ∧ s'.vm_peers = s.vm_peers ∧
      (∀ u, (alookup s.vm2vdc u).isSome →
        alookup s'.vm2vdc u = alookup s.vm2vdc u) := by
  induction evs generalizing done s with
  | nil =>
    refine ⟨s, rfl, by simpa using hinv, rfl, fun u _ => rfl⟩
  | cons e evs ih =>
    obtain ⟨he, hrest⟩ := hok
    obtain ⟨s₁, h₁, hinv₁, hpe₁⟩ := @chopEvent_invD_ok max _ _ _ hinv he
    obtain ⟨s', h', hinv', hpe', hstab'⟩ := ih hinv₁ hrest
    refine ⟨s', ?_, ?_, hpe'.trans hpe₁, ?_⟩
    · rw [List.foldlM_cons, h₁]
      exact h'
    · have hd : done ++ e :: evs = (done ++ [e]) ++ evs := by simp
      rw [hd]
      exact hinv'
    · intro u hu
      have h1 := chopEvent_vm2vdc_stable hinv he h₁ hu
      have h2 := hstab' u (by rw [h1]; exact hu)
      rw [h2, h1]

theorem chopPeersFold_spec {done₁ : List Event} {s₁ : ChopState}
    (hinv : ChopInvD done₁ s₁) :
    ∀ (evs : List Event) (s : ChopState), s.vm2vdc = s₁.vm2vdc →
    s.vdc_alive_vms = s₁.vdc_alive_vms →
    (∀ e ∈ evs, ∀ vm, isCreateOf vm e → createdIn done₁ vm) →
    ∃ s₂, List.foldlM chopPeersEvent s evs = Except.ok s₂ ∧
      s₂.vm2vdc = s₁.vm2vdc ∧ s₂.vdc_alive_vms = s₁.vdc_alive_vms ∧
      s₂.vdc_uuid_map = s.vdc_uuid_map ∧ s₂.vdc_child_index = s.vdc_child_index ∧
      (∀ vm, (alookup s.vm_peers vm).isSome → (alookup s₂.vm_peers vm).isSome) ∧
      (∀ vm, (∃ e ∈ evs, isCreateOf vm e) → (alookup s₂.vm_peers vm).isSome) ∧
      (∀ vm lv, alookup s₂.vm_peers vm = some lv →
        alookup s.vm_peers vm = some lv ∨
        ((∃ e ∈ evs, isCreateOf vm e) ∧ ∃ p, alookup s₁.vm2vdc vm = some p ∧
          ∀ u, u ∈ lv ↔ (u ≠ vm ∧ alookup s₁.vm2vdc u = some p ∧
            ¬ deletedIn done₁ u))) := by
  intro evs
  induction evs with
  | nil =>
    intro s h1 h2 _
    exact ⟨s, rfl, h1, h2, rfl, rfl, fun vm h => h, fun vm h => by simp at h,
      fun vm lv h => Or.inl h⟩
  | cons e evs ih =>
    intro s h1 h2 hcr
    match e with
    | Event.delete dvdc dvm =>
      obtain ⟨s₂, hfold, g1, g2, g3, g4, g5, g6, g7⟩ :=
        ih s h1 h2 (fun e' he' vm hc => hcr e' (List.mem_cons_of_mem _ he') vm hc)
      refine ⟨s₂, ?_, g1, g2, g3, g4, g5, ?_, ?_⟩
      · rw [List.foldlM_cons]
        exact hfold
      · intro vm hvm
        rcases hvm with ⟨e', he', hce⟩
        rcases List.mem_cons.1 he' with rfl | he''
        · exact absurd hce (not_isCreateOf_delete _ _ _)
        · exact g6 vm ⟨e', he'', hce⟩
      · intro vm lv h
        rcases g7 vm lv h with h' | ⟨⟨e', he', hce⟩, hsp⟩
        · exact Or.inl h'
        · exact Or.inr ⟨⟨e', List.mem_cons_of_mem _ he', hce⟩, hsp⟩
    | Event.create cvdc cvm c r =>
      have hcvm : createdIn done₁ cvm :=
        hcr _ (List.mem_cons_self _ _) cvm ⟨cvdc, c, r, rfl⟩
      have hp := hinv.toChopInv.created_vm2vdc cvm hcvm
      rw [← h1] at hp
      cases hpl : alookup s.vm2vdc cvm with
      | none =>
        rw [hpl] at hp
        cases hp
      | some p =>
        have hpl₁ : alookup s₁.vm2vdc cvm = some p := by rw [← h1]; exact hpl
        have halive := hinv.toChopInv.vm2vdc_alive_key cvm p hpl₁
        rw [← h2] at halive
        cases hal : alookup s.vdc_alive_vms p with
        | none =>
          rw [hal] at halive
          cases halive
        | some all =>
          have hal₁ : alookup s₁.vdc_alive_vms p = some all := by rw [← h2]; exact hal
          set snew : ChopState := { s with
            vm_peers := aset s.vm_peers cvm (all.filter (fun pvm => pvm ≠ cvm)) }
            with hsnew
          obtain ⟨s₂, hfold, g1, g2, g3, g4, g5, g6, g7⟩ :=
            ih snew h1 h2 (fun e' he' vm hc => hcr e' (List.mem_cons_of_mem _ he') vm hc)
          refine ⟨s₂, ?_, g1, g2, g3, g4, ?_, ?_, ?_⟩
          · rw [List.foldlM_cons]
            have hstep : chopPeersEvent s (Event.create cvdc cvm c r) = Except.ok snew := by
              simp [chopPeersEvent, lookupE, hpl, hal, Bind.bind, Except.bind, hsnew]
            rw [hstep]
            exact hfold
          · intro vm hvm
            exact g5 vm (alookup_isSome_of_aset _ _ _ _ hvm)
          · intro vm hvm
            rcases hvm with ⟨e', he', hce⟩
            rcases List.mem_cons.1 he' with rfl | he''
            · have hvmeq : vm = cvm := by
                rcases hce with ⟨a, b, d, hh⟩
                cases hh
                rfl
              subst hvmeq
              refine g5 vm ?_
              show (alookup (aset s.vm_peers vm
                (all.filter (fun pvm => pvm ≠ vm))) vm).isSome = true
              rw [alookup_aset_self]
              rfl
            · exact g6 vm ⟨e', he'', hce⟩
          · intro vm lv h
            rcases g7 vm lv h with h' | ⟨⟨e', he', hce⟩, hsp⟩
            · have h'a : alookup (aset s.vm_peers cvm
                  (all.filter (fun pvm => pvm ≠ cvm))) vm = some lv := h'
              rcases alookup_aset_cases h'a with ⟨hvm, hlv⟩ | ⟨hne, h''⟩
              · subst hvm
                subst hlv
                refine Or.inr ⟨⟨_, List.mem_cons_self _ _, ⟨cvdc, c, r, rfl⟩⟩,
                  p, hpl₁, ?_⟩
                intro u
                simp only [List.mem_filter, decide_eq_true_eq]
                constructor
                · rintro ⟨hul, hune⟩
                  obtain ⟨hu1, hu2⟩ := (hinv.toChopInv.alive_mem p all hal₁).2 u hul
                  exact ⟨hune, hu1, hu2⟩
                · rintro ⟨hune, hu1, hu2⟩
                  obtain ⟨l', hl', hul'⟩ := hinv.toChopInv.mem_alive u p hu1 hu2
                  rw [hal₁] at hl'
                  cases hl'
                  exact ⟨hul', hune⟩
              · exact Or.inl h''
            · exact Or.inr ⟨⟨e', List.mem_cons_of_mem _ he', hce⟩, hsp⟩

/-- Invariant at tick boundaries: the master invariant over the flattened
processed ticks, plus the frozen-peer-snapshot characterization of
`vm_peers`. -/
structure TickInv (ticksDone : EventList) (s : ChopState) : Prop where
  inv : ChopInvD (flatTicks ticksDone) s
  peers_some : ∀ vm, createdIn (flatTicks ticksDone) vm → (alookup s.vm_peers vm).isSome
  peers_spec : ∀ vm lv, alookup s.vm_peers vm = some lv →
    ∃ pre tl post, ticksDone = pre ++ tl :: post ∧ createdIn tl.2 vm ∧
      ∃ p, alookup s.vm2vdc vm = some p ∧
        ∀ u, u ∈ lv ↔ (u ≠ vm ∧ alookup s.vm2vdc u = some p ∧
          createdIn (flatTicks (pre ++ [tl])) u ∧
          ¬ deletedIn (flatTicks (pre ++ [tl])) u)

theorem tickInv_init : TickInv [] initialChopState := by
  refine ⟨chopInvD_init, ?_, ?_⟩
  · intro vm h
    simp [flatTicks, createdIn] at h
  · intro vm lv h
    simp [initialChopState, alookup] at h

theorem flatTicks_prefix_mono {pre : EventList} {tl : ℕ × List Event}
    {post : EventList} {u : String}
    (h : createdIn (flatTicks (pre ++ [tl])) u) :
    createdIn (flatTicks (pre ++ tl :: post)) u := by
  have hd : pre ++ tl :: post = (pre ++ [tl]) ++ post := by simp
  rw [hd, flatTicks_append, createdIn_append]
  exact Or.inl h

theorem chopTick_tickInv {max : ℕ} {ticksDone : EventList} {s : ChopState}
    {t : ℕ} {evs : List Event} (hinv : TickInv ticksDone s)
    (hok : EventsOK (flatTicks ticksDone) evs) (hne : evs ≠ []) :
    ∃ s', chopTick max s evs = Except.ok s' ∧ TickInv (ticksDone ++ [(t, evs)]) s' := by
  obtain ⟨s₁, h₁, hinv₁, hpe₁, hstab₁⟩ := @chopFold_invD max _ _ _ hinv.inv hok
  have hcr : ∀ e ∈ evs, ∀ vm, isCreateOf vm e →
      createdIn (flatTicks ticksDone ++ evs) vm := by
    intro e he vm hc
    exact createdIn_append.2 (Or.inr ⟨e, he, hc⟩)
  obtain ⟨s₂, hfold, g1, g2, g3, g4, g5, g6, g7⟩ :=
    chopPeersFold_spec hinv₁ evs s₁ rfl rfl hcr
  have hflat : flatTicks (ticksDone ++ [(t, evs)]) = flatTicks ticksDone ++ evs := by
    rw [flatTicks_append]
    simp [flatTicks]
  refine ⟨s₂, ?_, ?_, ?_, ?_⟩
  · unfold chopTick
    rw [if_neg (by simpa using hne)]
    rw [h₁]
    show List.foldlM chopPeersEvent s₁ evs = Except.ok s₂
    exact hfold
  · rw [hflat]
    exact chopInvD_congr hinv₁ g1 g2 (g3.trans rfl) (g4.trans rfl)
  · intro vm hvm
    rw [hflat, createdIn_append] at hvm
    rcases hvm with hvm | hvm
    · exact g5 vm (by rw [hpe₁]; exact hinv.peers_some vm hvm)
    · exact g6 vm hvm
  · intro vm lv h
    rcases g7 vm lv h with h' | ⟨hcvm, p, hp, hiff⟩
    · -- an entry recorded at an earlier tick
      rw [hpe₁] at h'
      obtain ⟨pre, tl, post, hdec, hctl, p, hp, hiff⟩ := hinv.peers_spec vm lv h'
      have hstab : ∀ u, (alookup s.vm2vdc u).isSome →
          alookup s₂.vm2vdc u = alookup s.vm2vdc u := by
        intro u hu
        rw [g1]
        exact hstab₁ u hu
      refine ⟨pre, tl, post ++ [(t, evs)], by rw [hdec]; simp, hctl, p, ?_, ?_⟩
      · rw [hstab vm (by rw [hp]; rfl)]
        exact hp
      · intro u
        rw [hiff u]
        constructor
        · rintro ⟨h1, h2, h3, h4⟩
          exact ⟨h1, by rw [hstab u (by rw [h2]; rfl)]; exact h2, h3, h4⟩
        · rintro ⟨h1, h2, h3, h4⟩
          refine ⟨h1, ?_, h3, h4⟩
          have hcu : createdIn (flatTicks ticksDone) u := by
            rw [hdec]
            exact flatTicks_prefix_mono h3
          have husome := hinv.inv.toChopInv.created_vm2vdc u hcu
          rw [← hstab u husome]
          exact h2
    · -- an entry recorded at this tick
      refine ⟨ticksDone, (t, evs), [], rfl, hcvm, p, by rw [g1]; exact hp, ?_⟩
      intro u
      have hfl : flatTicks (ticksDone ++ [(t, evs)]) = flatTicks ticksDone ++ evs := hflat
      rw [hiff u, hfl]
      constructor
      · rintro ⟨h1, h2, h3⟩
        refine ⟨h1, by rw [g1]; exact h2, ?_, h3⟩
        exact hinv₁.toChopInv.vm2vdc_created u p h2
      · rintro ⟨h1, h2, h3, h4⟩
        rw [g1] at h2
        exact ⟨h1, h2, h4⟩

/-- Prefix-indexed well-formedness of a tick sequence. -/
def TicksOK : EventList → EventList → Prop
  | _, [] => True
  | done, tl :: rest => tl.2 ≠ [] ∧ EventsOK (flatTicks done) tl.2 ∧ TicksOK (done ++ [tl]) rest

theorem chopTicksFold {max : ℕ} :
    ∀ (rest done : EventList) (s : ChopState), TickInv done s → TicksOK done rest →
    ∃ s', List.foldlM (fun s tl => chopTick max s tl.2) s rest = Except.ok s' ∧
      TickInv (done ++ rest) s' := by
  intro rest
  induction rest with
  | nil => exact fun done s hinv _ => ⟨s, rfl, by simpa using hinv⟩
  | cons tl rest ih =>
    rintro done s hinv ⟨hne, hok, hrest⟩
    obtain ⟨s₁, h₁, hinv₁⟩ := @chopTick_tickInv max _ _ tl.1 _ hinv hok hne
    rw [Prod.mk.eta] at hinv₁
    obtain ⟨s', h', hinv'⟩ := ih (done ++ [tl]) s₁ hinv₁ hrest
    refine ⟨s', ?_, ?_⟩
    · rw [List.foldlM_cons, h₁]
      exact h'
    · have hd : done ++ tl :: rest = (done ++ [tl]) ++ rest := by simp
      rw [hd]
      exact hinv'

theorem chop_vdcs_run {max : ℕ} {events : EventList} (hok : TicksOK [] events) :
    ∃ s, chop_vdcs events max = Except.ok (s.vm2vdc, s.vm_peers) ∧ TickInv events s := by
  obtain ⟨s, hfold, hinv⟩ := @chopTicksFold max events [] initialChopState
    tickInv_init hok
  refine ⟨s, ?_, by simpa using hinv⟩
  unfold chop_vdcs
  rw [hfold]
  rfl

/-- The VM uuids of the create events, in order. -/
def vmCreates (l : List Event) : List String :=
  l.filterMap (fun e => match e with
    | Event.create _ vm _ _ => some vm
    | Event.delete _ _ => none)

/-- The VM uuids of the delete events, in order. -/
def vmDeletes (l : List Event) : List String :=
  l.filterMap (fun e => match e with
    | Event.create _ _ _ _ => none
    | Event.delete _ vm => some vm)

theorem vmCreates_append (a b : List Event) :
    vmCreates (a ++ b) = vmCreates a ++ vmCreates b := by
  simp [vmCreates]

theorem vmDeletes_append (a b : List Event) :
    vmDeletes (a ++ b) = vmDeletes a ++ vmDeletes b := by
  simp [vmDeletes]

theorem mem_vmCreates {l : List Event} {vm : String} :
    vm ∈ vmCreates l ↔ createdIn l vm := by
  simp only [vmCreates, List.mem_filterMap, createdIn]
  constructor
  · rintro ⟨e, he, hm⟩
    match e with
    | Event.create vdc vm' c r =>
      simp only [Option.some.injEq] at hm
      subst hm
      exact ⟨_, he, vdc, c, r, rfl⟩
    | Event.delete _ _ => cases hm
  · rintro ⟨e, he, vdc, c, r, rfl⟩
    exact ⟨_, he, rfl⟩

theorem mem_vmDeletes {l : List Event} {vm : String} :
    vm ∈ vmDeletes l ↔ deletedIn l vm := by
  simp only [vmDeletes, List.mem_filterMap, deletedIn]
  constructor
  · rintro ⟨e, he, hm⟩
    match e with
    | Event.create _ _ _ _ => cases hm
    | Event.delete vdc vm' =>
      simp only [Option.some.injEq] at hm
      exact ⟨_, he, vdc, by rw [hm]⟩
  · rintro ⟨e, he, vdc, rfl⟩
    exact ⟨_, he, rfl⟩

/-- Global well-formedness of a batched tick sequence, sufficient for the
chopper to replay it without error. -/
structure ChopWF (events : EventList) : Prop where
  creates_nodup : (vmCreates (flatTicks events)).Nodup
  deletes_nodup : (vmDeletes (flatTicks events)).Nodup
  delete_has_earlier_create : ∀ tl ∈ events, ∀ vm ∈ vmDeletes tl.2,
    ∃ tl', tl' ∈ events ∧ tl'.1 < tl.1 ∧ vm ∈ vmCreates tl'.2
  vdcs_plain : ∀ tl ∈ events, ∀ e ∈ tl.2, noUnderscore e.vdc
  keys_mono : events.Pairwise (fun a b => a.1 < b.1)
  ticks_nonempty : ∀ tl ∈ events, tl.2 ≠ []

theorem vmCreates_cons_create (vdc vm : String) (c r : ℚ) (l : List Event) :
    vmCreates (Event.create vdc vm c r :: l) = vm :: vmCreates l := rfl

theorem vmDeletes_cons_delete (vdc vm : String) (l : List Event) :
    vmDeletes (Event.delete vdc vm :: l) = vm :: vmDeletes l := rfl

theorem createdIn_flatTicks_of_mem {events : EventList} {tl : ℕ × List Event}
    {vm : String} (htl : tl ∈ events) (h : createdIn tl.2 vm) :
    createdIn (flatTicks events) vm := by
  obtain ⟨e, he, hc⟩ := h
  refine ⟨e, ?_, hc⟩
  exact List.mem_join.2 ⟨tl.2, List.mem_map_of_mem _ htl, he⟩

theorem eventsOK_of_wf {events : EventList} (h : ChopWF events)
    {done : EventList} {t : ℕ} {evs : List Event} {rest : EventList}
    (hsplit : events = done ++ (t, evs) :: rest) :
    EventsOK (flatTicks done) evs := by
  suffices aux : ∀ evs₂ evs₁, evs = evs₁ ++ evs₂ →
      EventsOK (flatTicks done ++ evs₁) evs₂ by
    have := aux evs [] rfl
    simpa using this
  intro evs₂
  induction evs₂ with
  | nil =>
    intro evs₁ _
    trivial
  | cons e evs₂ ih =>
    intro evs₁ hsp
    have hmemtick : (t, evs) ∈ events := by
      rw [hsplit]
      exact List.mem_append.2 (Or.inr (List.mem_cons_self _ _))
    have hein : e ∈ evs := by
      rw [hsp]
      exact List.mem_append.2 (Or.inr (List.mem_cons_self _ _))
    refine ⟨⟨?_, ?_⟩, ?_⟩
    · rintro vdc vm c r rfl
      refine ⟨?_, ?_⟩
      · intro hcre
        have hvm : vm ∈ vmCreates (flatTicks done ++ evs₁) := mem_vmCreates.2 hcre
        have hflat : flatTicks events = (flatTicks done ++ evs₁) ++
            Event.create vdc vm c r :: (evs₂ ++ flatTicks rest) := by
          rw [hsplit, flatTicks_append, flatTicks_cons, hsp]
          simp
        have hnd := h.creates_nodup
        rw [hflat, vmCreates_append, vmCreates_cons_create] at hnd
        exact (List.nodup_append.1 hnd).2.2 hvm (List.mem_cons_self _ _)
      · exact h.vdcs_plain (t, evs) hmemtick _ hein
    · rintro vdc vm rfl
      obtain ⟨tl', htl', hlt, hcre'⟩ :=
        h.delete_has_earlier_create (t, evs) hmemtick vm
          (mem_vmDeletes.2 ⟨_, hein, vdc, rfl⟩)
      have hcre : createdIn tl'.2 vm := mem_vmCreates.1 hcre'
      have hpw := h.keys_mono
      rw [hsplit] at hpw
      have hrest_gt : ∀ b ∈ rest, t < b.1 :=
        fun b hb => List.rel_of_pairwise_cons (List.pairwise_append.1 hpw).2.1 hb
      have htld : tl' ∈ done := by
        rw [hsplit] at htl'
        rcases List.mem_append.1 htl' with h' | h'
        · exact h'
        · rcases List.mem_cons.1 h' with rfl | h''
          · exact absurd hlt (lt_irrefl t)
          · exact absurd hlt (not_lt.2 (le_of_lt (hrest_gt tl' h'')))
      constructor
      · exact createdIn_append.2 (Or.inl (createdIn_flatTicks_of_mem htld hcre))
      · intro hdel
        have hvm : vm ∈ vmDeletes (flatTicks done ++ evs₁) := mem_vmDeletes.2 hdel
        have hflat : flatTicks events = (flatTicks done ++ evs₁) ++
            Event.delete vdc vm :: (evs₂ ++ flatTicks rest) := by
          rw [hsplit, flatTicks_append, flatTicks_cons, hsp]
          simp
        have hnd := h.deletes_nodup
        rw [hflat, vmDeletes_append, vmDeletes_cons_delete] at hnd
        exact (List.nodup_append.1 hnd).2.2 hvm (List.mem_cons_self _ _)
    · have := ih (evs₁ ++ [e]) (by rw [hsp]; simp)
      have hd : flatTicks done ++ evs₁ ++ [e] = flatTicks done ++ (evs₁ ++ [e]) := by simp
      rw [hd]
      exact this

theorem ticksOK_of_wf {events : EventList} (h : ChopWF events) :
    ∀ (rest done : EventList), events = done ++ rest → TicksOK done rest := by
  intro rest
  induction rest with
  | nil =>
    intro done _
    trivial
  | cons tl rest ih =>
    intro done hsp
    obtain ⟨t, evs⟩ := tl
    refine ⟨?_, ?_, ?_⟩
    · exact h.ticks_nonempty (t, evs)
        (by rw [hsp]; exact List.mem_append.2 (Or.inr (List.mem_cons_self _ _)))
    · exact eventsOK_of_wf h hsp
    · exact ih (done ++ [(t, evs)]) (by rw [hsp]; simp)

theorem mem_flatTicks {l : EventList} {e : Event} :
    e ∈ flatTicks l ↔ ∃ tl, tl ∈ l ∧ e ∈ tl.2 := by
  unfold flatTicks
  rw [List.mem_join]
  constructor
  · rintro ⟨a, ha, he⟩
    obtain ⟨tl, htl, rfl⟩ := List.mem_map.1 ha
    exact ⟨tl, htl, he⟩
  · rintro ⟨tl, htl, he⟩
    exact ⟨tl.2, List.mem_map_of_mem _ htl, he⟩

/-- `vm` has a create event at some tick of `events` whose time is at most `t`. -/
def createdUpTo (events : EventList) (t : ℕ) (vm : String) : Prop :=
  ∃ tl, tl ∈ events ∧ tl.1 ≤ t ∧ createdIn tl.2 vm

/-- `vm` has a delete event at some tick of `events` whose time is at most `t`. -/
def deletedUpTo (events : EventList) (t : ℕ) (vm : String) : Prop :=
  ∃ tl, tl ∈ events ∧ tl.1 ≤ t ∧ deletedIn tl.2 vm

theorem exists_flatTicks_split {events pre post : EventList} {tl : ℕ × List Event}
    (hmono : events.Pairwise (fun a b => a.1 < b.1))
    (hsp : events = pre ++ tl :: post) (Q : Event → Prop) :
    (∃ e, e ∈ flatTicks (pre ++ [tl]) ∧ Q e) ↔
      ∃ tl', tl' ∈ events ∧ tl'.1 ≤ tl.1 ∧ ∃ e, e ∈ tl'.2 ∧ Q e := by
  rw [hsp] at hmono
  have hpre_lt : ∀ a ∈ pre, a.1 < tl.1 := fun a ha =>
    (List.pairwise_append.1 hmono).2.2 a ha tl (List.mem_cons_self _ _)
  have hpost_gt : ∀ b ∈ post, tl.1 < b.1 := fun b hb =>
    List.rel_of_pairwise_cons (List.pairwise_append.1 hmono).2.1 hb
  constructor
  · rintro ⟨e, he, hQ⟩
    obtain ⟨tl', htl', he'⟩ := mem_flatTicks.1 he
    rcases List.mem_append.1 htl' with h' | h'
    · exact ⟨tl', by rw [hsp]; exact List.mem_append.2 (Or.inl h'),
        le_of_lt (hpre_lt tl' h'), e, he', hQ⟩
    · rcases List.mem_singleton.1 h' with rfl
      exact ⟨tl', by rw [hsp]; exact List.mem_append.2 (Or.inr (List.mem_cons_self _ _)),
        le_refl _, e, he', hQ⟩
  · rintro ⟨tl', htl', hle, e, he, hQ⟩
    rw [hsp] at htl'
    refine ⟨e, mem_flatTicks.2 ⟨tl', ?_, he⟩, hQ⟩
    rcases List.mem_append.1 htl' with h' | h'
    · exact List.mem_append.2 (Or.inl h')
    · rcases List.mem_cons.1 h' with rfl | h''
      · exact List.mem_append.2 (Or.inr (List.mem_singleton_self _))
      · exact absurd hle (not_le.2 (hpost_gt tl' h''))

theorem createdUpTo_iff_split {events pre post : EventList} {tl : ℕ × List Event}
    (hmono : events.Pairwise (fun a b => a.1 < b.1))
    (hsp : events = pre ++ tl :: post) (u : String) :
    createdIn (flatTicks (pre ++ [tl])) u ↔ createdUpTo events tl.1 u :=
  exists_flatTicks_split hmono hsp (isCreateOf u)

theorem deletedUpTo_iff_split {events pre post : EventList} {tl : ℕ × List Event}
    (hmono : events.Pairwise (fun a b => a.1 < b.1))
    (hsp : events = pre ++ tl :: post) (u : String) :
    deletedIn (flatTicks (pre ++ [tl])) u ↔ deletedUpTo events tl.1 u :=
  exists_flatTicks_split hmono hsp (isDeleteOf u)

/-- **C1.** For every VM with a peer list recorded by the chopper, there is a
tick `t` of the input at which the VM was created and a physical VDC `p`
assigned to it, and the peer list holds exactly the VMs other than the VM
itself that are assigned to `p` and are alive at tick `t`, i.e. created at a
tick ≤ `t` and not deleted at a tick ≤ `t`.  The snapshot is frozen at the
creation tick: a VM created at a strictly later tick fails `createdUpTo` and so
never enters this list, even though its own snapshot may contain this VM. -/
theorem C1_peer_snapshot_frozen {events : EventList} {max : ℕ}
    {vm2vdc : List (String × String)} {vm_peers : List (String × List String)}
    (hwf : ChopWF events)
    (hrun : chop_vdcs events max = Except.ok (vm2vdc, vm_peers))
    (vm : String) (lv : List String) (hvm : alookup vm_peers vm = some lv) :
    ∃ t evs p, (t, evs) ∈ events ∧ createdIn evs vm ∧ alookup vm2vdc vm = some p ∧
      ∀ u, u ∈ lv ↔ (u ≠ vm ∧ alookup vm2vdc u = some p ∧
        createdUpTo events t u ∧ ¬ deletedUpTo events t u) := by
  obtain ⟨s, hok, hinv⟩ := @chop_vdcs_run max events (ticksOK_of_wf hwf events [] rfl)
  have heq := Except.ok.inj (hrun.symm.trans hok)
  have hv2 : vm2vdc = s.vm2vdc := congrArg Prod.fst heq
  have hvp : vm_peers = s.vm_peers := congrArg Prod.snd heq
  subst hv2 hvp
  obtain ⟨pre, tl, post, hdec, hctl, p, hp, hiff⟩ := hinv.peers_spec vm lv hvm
  refine ⟨tl.1, tl.2, p, ?_, hctl, hp, ?_⟩
  · rw [hdec, Prod.mk.eta]
    exact List.mem_append.2 (Or.inr (List.mem_cons_self _ _))
  · intro u
    rw [hiff u, createdUpTo_iff_split hwf.keys_mono hdec u,
      deletedUpTo_iff_split hwf.keys_mono hdec u]

/-- A four-tick single-VDC stream exercising the peer-snapshot theorem. -/
def peerSnapEx : EventList :=
  [(0, [Event.create "d" "A" 1 1]), (300, [Event.create "d" "B" 1 1]),
   (600, [Event.delete "d" "A"]), (900, [Event.delete "d" "B"])]

theorem C1_peer_snapshot_frozen_witness :
    ChopWF peerSnapEx ∧
    chop_vdcs peerSnapEx 30 =
      Except.ok ([("A", "d"), ("B", "d")], [("A", []), ("B", ["A"])]) ∧
    alookup [("A", []), ("B", ["A"])] "B" = some ["A"] ∧
    (∃ t evs p, (t, evs) ∈ peerSnapEx ∧ createdIn evs "B" ∧
      alookup [("A", "d"), ("B", "d")] "B" = some p ∧
      ∀ u, u ∈ ["A"] ↔ (u ≠ "B" ∧ alookup [("A", "d"), ("B", "d")] u = some p ∧
        createdUpTo peerSnapEx t u ∧ ¬ deletedUpTo peerSnapEx t u)) := by
  refine ⟨⟨by decide, by decide, by decide, by decide, by decide, by decide⟩,
    by decide, by decide, ?_⟩
  exact @C1_peer_snapshot_frozen peerSnapEx 30 [("A", "d"), ("B", "d")]
    [("A", []), ("B", ["A"])]
    ⟨by decide, by decide, by decide, by decide, by decide, by decide⟩
    (by decide) "B" ["A"] (by decide)

/-! ### The chopper: the current-bin pointer is monotone -/

/-- The rank of the current-bin pointer of logical vdc `d`: `0` before any
child bin has been minted (the pointer is the parent uuid itself), `k + 1`
when the child index of `d` is `k`. -/
def ptrRank (s : ChopState) (d : String) : ℕ :=
  match alookup s.vdc_child_index d with
  | none => 0
  | some k => k + 1

/-- The physical vdc uuid the pointer designates at a given rank. -/
def rankPtr (d : String) : ℕ → String
  | 0 => d
  | k + 1 => d ++ VDC_CONCAT_STR ++ Nat.repr k

theorem rankPtr_inj {d : String} (hd : noUnderscore d) {a b : ℕ}
    (h : rankPtr d a = rankPtr d b) : a = b := by
  match a, b with
  | 0, 0 => rfl
  | 0, k + 1 =>
    have hc := childId_not_noUnderscore d k
    rw [show d ++ VDC_CONCAT_STR ++ Nat.repr k = rankPtr d (k + 1) from rfl, ← h] at hc
    exact absurd hd hc
  | k + 1, 0 =>
    have hc := childId_not_noUnderscore d k
    rw [show d ++ VDC_CONCAT_STR ++ Nat.repr k = rankPtr d (k + 1) from rfl, h] at hc
    exact absurd hd hc
  | k + 1, j + 1 =>
    have h' : d ++ VDC_CONCAT_STR ++ Nat.repr k = d ++ VDC_CONCAT_STR ++ Nat.repr j := h
    obtain ⟨-, hkj⟩ := childId_inj hd hd h'
    rw [hkj]

/-- Under the master invariant, the pointer of `d` is the physical vdc at the
pointer's current rank. -/
theorem ptr_eq_rankPtr {done : List Event} {s : ChopState} (hinv : ChopInv done s)
    {d p : String} (hp : alookup s.vdc_uuid_map d = some p) :
    p = rankPtr d (ptrRank s d) := by
  rcases hinv.ptr_shape d p hp with ⟨h1, h2⟩ | ⟨k, hk, h2⟩
  · rw [h1]
    simp [ptrRank, h2, rankPtr]
  · rw [h2]
    simp [ptrRank, hk, rankPtr]

/-- One membership-pass event never decreases the pointer rank of any logical
vdc, and while the rank of `d` stays put its pointer is unchanged. -/
theorem chopEvent_rank_mono {max : ℕ} {s s' : ChopState} {e : Event}
    (hstep : chopEvent max s e = Except.ok s') (d : String) :
    ptrRank s d ≤ ptrRank s' d ∧
    (∀ p, alookup s.vdc_uuid_map d = some p → ptrRank s' d = ptrRank s d →
      alookup s'.vdc_uuid_map d = some p) := by
  match e with
  | Event.delete vdc vm =>
    simp only [chopEvent] at hstep
    obtain ⟨cur, h1, h2⟩ := except_bind_ok _ _ _ hstep
    obtain ⟨alive, h3, h4⟩ := except_bind_ok _ _ _ h2
    obtain ⟨alive', h5, h6⟩ := except_bind_ok _ _ _ h4
    cases h6
    exact ⟨le_refl _, fun p hp _ => hp⟩
  | Event.create vdc vm c r =>
    simp only [chopEvent] at hstep
    cases hmap : alookup s.vdc_uuid_map vdc with
    | none =>
      rw [hmap] at hstep
      cases hstep
      refine ⟨le_refl _, ?_⟩
      intro p hp _
      have hne : vdc ≠ d := by
        intro hh
        rw [hh, hp] at hmap
        cases hmap
      show alookup (aset s.vdc_uuid_map vdc vdc) d = some p
      rw [alookup_aset_ne _ _ _ _ hne]
      exact hp
    | some cur =>
      rw [hmap] at hstep
      obtain ⟨alive, h1, h2⟩ := except_bind_ok _ _ _ hstep
      by_cases hlen : alive.length < max
      · rw [if_pos hlen] at h2
        cases h2
        exact ⟨le_refl _, fun p hp _ => hp⟩
      · rw [if_neg hlen] at h2
        cases h2
        by_cases hd : vdc = d
        · subst hd
          cases hidx : alookup s.vdc_child_index vdc with
          | none =>
            constructor
            · simp [ptrRank, chopSpawnChild, get_child_vdc_uuid, hidx, alookup_aset_self]
            · intro p hp hrk
              exfalso
              simp [ptrRank, chopSpawnChild, get_child_vdc_uuid, hidx,
                alookup_aset_self] at hrk
          | some n =>
            constructor
            · simp [ptrRank, chopSpawnChild, get_child_vdc_uuid, hidx, alookup_aset_self]
            · intro p hp hrk
              exfalso
              simp [ptrRank, chopSpawnChild, get_child_vdc_uuid, hidx,
                alookup_aset_self] at hrk
        · have hd' : vdc ≠ d := hd
          constructor
          · cases hidx : alookup s.vdc_child_index vdc with
            | none =>
              simp [ptrRank, chopSpawnChild, get_child_vdc_uuid, hidx,
                alookup_aset_ne _ _ _ _ hd']
            | some n =>
              simp [ptrRank, chopSpawnChild, get_child_vdc_uuid, hidx,
                alookup_aset_ne _ _ _ _ hd']
          · intro p hp hrk
            cases hidx : alookup s.vdc_child_index vdc with
            | none =>
              show alookup (aset s.vdc_uuid_map vdc _) d = some p
              simp only [chopSpawnChild, get_child_vdc_uuid, hidx]
              rw [alookup_aset_ne _ _ _ _ hd']
              exact hp
            | some n =>
              show alookup (aset s.vdc_uuid_map vdc _) d = some p
              simp only [chopSpawnChild, get_child_vdc_uuid, hidx]
              rw [alookup_aset_ne _ _ _ _ hd']
              exact hp

/-- `chopEvent_rank_mono`, folded over a list of events. -/
theorem chopEventFold_rank_mono {max : ℕ} {s : ChopState} {evs : List Event}
    {s' : ChopState} (h : List.foldlM (chopEvent max) s evs = Except.ok s')
    (d : String) :
    ptrRank s d ≤ ptrRank s' d ∧
    (∀ p, alookup s.vdc_uuid_map d = some p → ptrRank s' d = ptrRank s d →
      alookup s'.vdc_uuid_map d = some p) := by
  induction evs generalizing s with
  | nil =>
    simp only [List.foldlM_nil] at h
    cases h
    exact ⟨le_refl _, fun p hp _ => hp⟩
  | cons e evs ih =>
    obtain ⟨s₁, h₁, h₂⟩ := foldlM_ok_cons _ _ _ _ _ h
    obtain ⟨hle₁, hst₁⟩ := chopEvent_rank_mono h₁ d
    obtain ⟨hle₂, hst₂⟩ := ih h₂
    refine ⟨le_trans hle₁ hle₂, ?_⟩
    intro p hp hrk
    exact hst₂ p (hst₁ p hp (by omega)) (by omega)

/-- The peers pass leaves the pointer dicts untouched. -/
theorem chopPeersFold_fields {s : ChopState} {evs : List Event} {s' : ChopState}
    (h : List.foldlM chopPeersEvent s evs = Except.ok s') :
    s'.vdc_uuid_map = s.vdc_uuid_map ∧ s'.vdc_child_index = s.vdc_child_index := by
  induction evs generalizing s with
  | nil =>
    simp only [List.foldlM_nil] at h
    cases h
    exact ⟨rfl, rfl⟩
  | cons e evs ih =>
    obtain ⟨s₁, h₁, h₂⟩ := foldlM_ok_cons _ _ _ _ _ h
    obtain ⟨_, _, hm, hi⟩ := chopPeersEvent_fields h₁
    obtain ⟨hm', hi'⟩ := ih h₂
    exact ⟨hm'.trans hm, hi'.trans hi⟩

theorem chopTick_rank_mono {max : ℕ} {s : ChopState} {evs : List Event}
    {s' : ChopState} (h : chopTick max s evs = Except.ok s') (d : String) :
    ptrRank s d ≤ ptrRank s' d ∧
    (∀ p, alookup s.vdc_uuid_map d = some p → ptrRank s' d = ptrRank s d →
      alookup s'.vdc_uuid_map d = some p) := by
  unfold chopTick at h
  by_cases hne : evs.isEmpty = true
  · rw [if_pos hne] at h
    cases h
  · rw [if_neg hne] at h
    obtain ⟨s₁, h₁, h₂⟩ := except_bind_ok _ _ _ h
    obtain ⟨hm, hi⟩ := chopPeersFold_fields h₂
    obtain ⟨hle, hst⟩ := chopEventFold_rank_mono h₁ d
    have hrk : ptrRank s' d = ptrRank s₁ d := by simp [ptrRank, hi]
    refine ⟨by rw [hrk]; exact hle, ?_⟩
    intro p hp h0
    rw [hm]
    exact hst p hp (by rw [← hrk]; exact h0)

theorem chopTickFold_rank_mono {max : ℕ} {s : ChopState} {ticks : EventList}
    {s' : ChopState}
    (h : List.foldlM (fun s tl => chopTick max s tl.2) s ticks = Except.ok s')
    (d : String) :
    ptrRank s d ≤ ptrRank s' d ∧
    (∀ p, alookup s.vdc_uuid_map d = some p → ptrRank s' d = ptrRank s d →
      alookup s'.vdc_uuid_map d = some p) := by
  induction ticks generalizing s with
  | nil =>
    simp only [List.foldlM_nil] at h
    cases h
    exact ⟨le_refl _, fun p hp _ => hp⟩
  | cons tl ticks ih =>
    obtain ⟨s₁, h₁, h₂⟩ := foldlM_ok_cons _ _ _ _ _ h
    obtain ⟨hle₁, hst₁⟩ := chopTick_rank_mono h₁ d
    obtain ⟨hle₂, hst₂⟩ := ih h₂
    refine ⟨le_trans hle₁ hle₂, ?_⟩
    intro p hp hrk
    exact hst₂ p (hst₁ p hp (by omega)) (by omega)

theorem ticksOK_append_left {l₁ l₂ done : EventList}
    (h : TicksOK done (l₁ ++ l₂)) : TicksOK done l₁ := by
  induction l₁ generalizing done with
  | nil => trivial
  | cons tl l₁ ih =>
    obtain ⟨h1, h2, h3⟩ := h
    exact ⟨h1, h2, ih h3⟩

theorem chopAt_nil_pending (max : ℕ) (ticks : EventList) :
    chopAt max ticks [] =
      List.foldlM (fun s tl => chopTick max s tl.2) initialChopState ticks := by
  unfold chopAt
  simp only [List.foldlM_nil]
  cases List.foldlM (fun s tl => chopTick max s tl.2) initialChopState ticks <;> rfl

/-- Every tick-prefix of a well-formed stream replays without error, and the
state there satisfies the tick invariant. -/
theorem chopPrefix_run {max : ℕ} {events : EventList} (hwf : ChopWF events) (n : ℕ) :
    ∃ s, chopAt max (events.take n) [] = Except.ok s ∧ TickInv (events.take n) s := by
  have h0 : TicksOK [] events := ticksOK_of_wf hwf events [] rfl
  have h1 : TicksOK [] (events.take n ++ events.drop n) := by
    rw [List.take_append_drop]
    exact h0
  obtain ⟨s, hfold, hinv⟩ := @chopTicksFold max (events.take n) [] initialChopState
    tickInv_init (ticksOK_append_left h1)
  refine ⟨s, ?_, by simpa using hinv⟩
  rw [chopAt_nil_pending]
  exact hfold

/-- **C2, amended.** The original claim is false: a physical vdc that reached
the configured maximum does accept later creates when deletions have brought
its alive-count back below the maximum while it is still the logical vdc's
current bin (`C2_counterexample_bin_reopens`).  What does hold is that the
current-bin pointer itself is monotone: at any three successive tick-prefix
observation points of a well-formed replay, if the pointer of logical vdc `d`
is the physical vdc `p` at the first and at the third point, it is `p` at the
middle point as well — once the pointer leaves a bin (by spawning a child with
a strictly larger child index) it never designates that bin again, so the
times during which a bin accepts creates form one contiguous interval. -/
theorem C2_pointer_bin_never_reopens {max : ℕ} {events : EventList}
    (hwf : ChopWF events) {i j k : ℕ} (hij : i ≤ j) (hjk : j ≤ k) (d p : String) :
    ∃ sI sJ sK,
      chopAt max (events.take i) [] = Except.ok sI ∧
      chopAt max (events.take j) [] = Except.ok sJ ∧
      chopAt max (events.take k) [] = Except.ok sK ∧
      (alookup sI.vdc_uuid_map d = some p → alookup sK.vdc_uuid_map d = some p →
        alookup sJ.vdc_uuid_map d = some p) := by
  obtain ⟨sI, hI, hinvI⟩ := @chopPrefix_run max events hwf i
  obtain ⟨sJ, hJ, hinvJ⟩ := @chopPrefix_run max events hwf j
  obtain ⟨sK, hK, hinvK⟩ := @chopPrefix_run max events hwf k
  refine ⟨sI, sJ, sK, hI, hJ, hK, ?_⟩
  intro hpI hpK
  rw [chopAt_nil_pending] at hI hJ hK
  have hsplitIJ : events.take j = events.take i ++ (events.take j).drop i := by
    conv_lhs => rw [← List.take_append_drop i (events.take j)]
    rw [List.take_take, min_eq_left hij]
  have hsplitJK : events.take k = events.take j ++ (events.take k).drop j := by
    conv_lhs => rw [← List.take_append_drop j (events.take k)]
    rw [List.take_take, min_eq_left hjk]
  rw [hsplitIJ] at hJ
  obtain ⟨sI', hI', hIJ⟩ := foldlM_append_ok _ _ _ _ _ hJ
  rw [hI] at hI'
  cases hI'
  rw [hsplitJK] at hK
  obtain ⟨sJ', hJ', hJK⟩ := foldlM_append_ok _ _ _ _ _ hK
  rw [hsplitIJ, hJ] at hJ'
  cases hJ'
  obtain ⟨hleIJ, hstIJ⟩ := chopTickFold_rank_mono hIJ d
  obtain ⟨hleJK, hstJK⟩ := chopTickFold_rank_mono hJK d
  have hd : noUnderscore d := hinvI.inv.toChopInv.uuid_keys_plain d p hpI
  have hrI : p = rankPtr d (ptrRank sI d) := ptr_eq_rankPtr hinvI.inv.toChopInv hpI
  have hrK : p = rankPtr d (ptrRank sK d) := ptr_eq_rankPtr hinvK.inv.toChopInv hpK
  have hIK : ptrRank sI d = ptrRank sK d := rankPtr_inj hd (hrI.symm.trans hrK)
  exact hstIJ p hpI (by omega)

theorem C2_pointer_bin_never_reopens_witness :
    ChopWF peerSnapEx ∧ (1 : ℕ) ≤ 2 ∧ (2 : ℕ) ≤ 3 ∧
    (∃ sI sJ sK,
      chopAt 1 (peerSnapEx.take 1) [] = Except.ok sI ∧
      chopAt 1 (peerSnapEx.take 2) [] = Except.ok sJ ∧
      chopAt 1 (peerSnapEx.take 3) [] = Except.ok sK ∧
      (alookup sI.vdc_uuid_map "d" = some "d" →
        alookup sK.vdc_uuid_map "d" = some "d" →
        alookup sJ.vdc_uuid_map "d" = some "d")) :=
  ⟨⟨by decide, by decide, by decide, by decide, by decide, by decide⟩, by decide, by decide,
    @C2_pointer_bin_never_reopens 1 peerSnapEx
      ⟨by decide, by decide, by decide, by decide, by decide, by decide⟩
      1 2 3 (by decide) (by decide) "d" "d"⟩

/-! ### Batching a tick whose keys are pairwise distinct is a permutation -/

theorem aset_fresh_append {α β : Type} [DecidableEq α] {l : List (α × β)} {k : α}
    (v : β) (h : k ∉ akeys l) : aset l k v = l ++ [(k, v)] := by
  induction l with
  | nil => rfl
  | cons p rest ih =>
    obtain ⟨k', v'⟩ := p
    simp only [akeys, List.map_cons, List.mem_cons, not_or] at h
    have hne : k' ≠ k := fun hh => h.1 hh.symm
    show (if k' = k then (k, v) :: rest else (k', v') :: aset rest k v) = _
    rw [if_neg hne, ih h.2]
    rfl

theorem batchDict_eq_of_nodup_keys {l : List Event}
    (h : (l.map eventKey).Nodup) :
    batchDict l = l.map (fun e => (eventKey e, e)) := by
  have aux : ∀ (l : List Event) (m : List ((String × String) × Event)),
      (∀ e ∈ l, eventKey e ∉ akeys m) → (l.map eventKey).Nodup →
      l.foldl (fun m e => aset m (eventKey e) e) m =
        m ++ l.map (fun e => (eventKey e, e)) := by
    intro l
    induction l with
    | nil =>
      intro m _ _
      simp
    | cons e l ih =>
      intro m hfresh hnd
      obtain ⟨hhead, htail⟩ := List.nodup_cons.1 hnd
      have hcond : ∀ e' ∈ l, eventKey e' ∉ akeys (m ++ [(eventKey e, e)]) := by
        intro e' he' hmem
        have hkeys : akeys (m ++ [(eventKey e, e)]) = akeys m ++ [eventKey e] := by
          simp [akeys]
        rw [hkeys] at hmem
        rcases List.mem_append.1 hmem with hmem | hmem
        · exact hfresh e' (List.mem_cons_of_mem _ he') hmem
        · exact hhead (List.mem_singleton.1 hmem ▸ List.mem_map_of_mem eventKey he')
      rw [List.foldl_cons, aset_fresh_append e (hfresh e (List.mem_cons_self _ _)),
        ih (m ++ [(eventKey e, e)]) hcond htail]
      simp
  have := aux l [] (by intro e _ hmem; cases hmem) h
  simpa [batchDict] using this

theorem isCreate_eq_not_isDelete (e : Event) : e.isCreate = !e.isDelete := by
  cases e <;> rfl

theorem batchTick_perm_of_nodup_keys {l : List Event}
    (h : (l.map eventKey).Nodup) : (batchTick l).Perm l := by
  have hperm := List.perm_insertionSort keyRel (batchDict l)
  set sorted := List.insertionSort keyRel (batchDict l) with hs
  have h1 : batchTick l =
      ((sorted.map Prod.snd).filter Event.isDelete).reverse ++
        (sorted.map Prod.snd).filter Event.isCreate := by
    have hfold := dequeFold_eq sorted []
    show sorted.foldl (fun acc kv => dequePush acc kv.2) [] = _
    rw [hfold]
    simp
  have h2 : (((sorted.map Prod.snd).filter Event.isDelete).reverse ++
      (sorted.map Prod.snd).filter Event.isCreate).Perm (sorted.map Prod.snd) := by
    have hcongr : (sorted.map Prod.snd).filter Event.isCreate =
        (sorted.map Prod.snd).filter (fun e => !e.isDelete) :=
      List.filter_congr (fun e _ => isCreate_eq_not_isDelete e)
    rw [hcongr]
    exact ((List.reverse_perm _).append (List.Perm.refl _)).trans
      (List.filter_append_perm _ _)
  have h4 : (batchDict l).map Prod.snd = l := by
    rw [batchDict_eq_of_nodup_keys h, List.map_map]
    show List.map (fun e => e) l = l
    simp
  have h3 : ((sorted.map Prod.snd)).Perm l := by
    rw [← h4]
    exact hperm.map Prod.snd
  rw [h1]
  exact h2.trans h3

/-! ### Per-tick facts of the sanitized grid -/

theorem rowEventsAt_vm {t : ℕ} {r : Row} {e : Event} (h : e ∈ rowEventsAt t r) :
    e.vm = r.vm_uuid := by
  rcases (rowEventsAt_cases h).2 with ⟨_, rfl⟩ | ⟨_, rfl⟩ <;> rfl

theorem rowEventsAt_vdc {t : ℕ} {r : Row} {e : Event} (h : e ∈ rowEventsAt t r) :
    e.vdc = r.vdc_uuid := by
  rcases (rowEventsAt_cases h).2 with ⟨_, rfl⟩ | ⟨_, rfl⟩ <;> rfl

theorem mem_sanitizedEventsAt_of {rows : List Row} {t : ℕ} {r : Row} {e : Event}
    (hr : r ∈ rows) (he : e ∈ rowEventsAt t r) : e ∈ sanitizedEventsAt rows t := by
  induction rows with
  | nil => cases hr
  | cons r0 rows ih =>
    rw [sanitizedEventsAt_cons, List.mem_append]
    rcases List.mem_cons.1 hr with rfl | hr'
    · exact Or.inl he
    · exact Or.inr (ih hr')

theorem rowEventsAt_nodup_vm {t : ℕ} {r : Row}
    (hc : r.create_time ≠ r.delete_time →
      validate_event_time r.create_time ≠ validate_event_time r.delete_time) :
    ((rowEventsAt t r).map Event.vm).Nodup := by
  by_cases hins : r.create_time = r.delete_time
  · simp [rowEventsAt, hins]
  · simp only [rowEventsAt, if_neg hins]
    by_cases hct : validate_event_time r.create_time = t
    · by_cases hdt : validate_event_time r.delete_time = t
      · exact absurd (hct.trans hdt.symm) (hc hins)
      · simp [if_pos hct, if_neg hdt]
    · by_cases hdt : validate_event_time r.delete_time = t
      · simp [if_neg hct, if_pos hdt]
      · simp [if_neg hct, if_neg hdt]

theorem sanitizedEventsAt_vm_nodup {rows : List Row} {t : ℕ}
    (hvm : (rows.map Row.vm_uuid).Nodup)
    (hc : ∀ r ∈ rows, r.create_time ≠ r.delete_time →
      validate_event_time r.create_time ≠ validate_event_time r.delete_time) :
    ((sanitizedEventsAt rows t).map Event.vm).Nodup := by
  induction rows with
  | nil => simp [sanitizedEventsAt]
  | cons r rows ih =>
    rw [sanitizedEventsAt_cons, List.map_append]
    obtain ⟨hhead, htail⟩ := List.nodup_cons.1 hvm
    refine List.Nodup.append (rowEventsAt_nodup_vm (hc r (List.mem_cons_self _ _)))
      (ih htail (fun r' hr' => hc r' (List.mem_cons_of_mem _ hr'))) ?_
    intro v hv1 hv2
    obtain ⟨e, he, heq⟩ := List.mem_map.1 hv1
    obtain ⟨e', he', heq'⟩ := List.mem_map.1 hv2
    obtain ⟨r', hr', her'⟩ := mem_sanitizedEventsAt he'
    refine hhead (List.mem_map.2 ⟨r', hr', ?_⟩)
    rw [← rowEventsAt_vm her', heq', ← heq, rowEventsAt_vm he]

theorem keys_nodup_of_vm_nodup {l : List Event} (h : (l.map Event.vm).Nodup) :
    (l.map eventKey).Nodup := by
  have h2 : ((l.map eventKey).map Prod.snd).Nodup := by
    rw [List.map_map]
    have hcomp : (Prod.snd ∘ eventKey) = Event.vm := by
      funext e
      cases e <;> rfl
    rw [hcomp]
    exact h
  exact List.Nodup.of_map Prod.snd h2

theorem out_tick_vm_nodup {N : ℕ} {rows : List Row} {out : EventList}
    (hvm : (rows.map Row.vm_uuid).Nodup) (hsan : sanitize N rows = Except.ok out)
    {t : ℕ} {l : List Event} (htl : (t, l) ∈ out) : (l.map Event.vm).Nodup := by
  have hc : ∀ r ∈ rows, r.create_time ≠ r.delete_time →
      validate_event_time r.create_time ≠ validate_event_time r.delete_time := by
    intro r hr hsurv
    exact Nat.ne_of_lt (sanitize_conds hsan r hr hsurv).2.1
  rw [sanitize_struct hsan] at htl
  obtain ⟨i, _, hi⟩ := List.mem_map.1 htl
  have h2 : sanitizedEventsAt rows (i * SEC_IN_5MINS) = l := congrArg Prod.snd hi
  have h1 : i * SEC_IN_5MINS = t := congrArg Prod.fst hi
  rw [← h2, h1]
  exact sanitizedEventsAt_vm_nodup hvm hc

theorem vmCreates_cons_delete (vdc vm : String) (l : List Event) :
    vmCreates (Event.delete vdc vm :: l) = vmCreates l := rfl

theorem vmDeletes_cons_create (vdc vm : String) (c r : ℚ) (l : List Event) :
    vmDeletes (Event.create vdc vm c r :: l) = vmDeletes l := rfl

theorem vmCreates_sublist_vm : ∀ l : List Event,
    (vmCreates l).Sublist (l.map Event.vm)
  | [] => List.Sublist.refl _
  | (Event.create vdc vm c r) :: l => by
    rw [vmCreates_cons_create, List.map_cons]
    exact (vmCreates_sublist_vm l).cons₂ _
  | (Event.delete vdc vm) :: l => by
    rw [vmCreates_cons_delete, List.map_cons]
    exact (vmCreates_sublist_vm l).cons _

theorem vmDeletes_sublist_vm : ∀ l : List Event,
    (vmDeletes l).Sublist (l.map Event.vm)
  | [] => List.Sublist.refl _
  | (Event.create vdc vm c r) :: l => by
    rw [vmDeletes_cons_create, List.map_cons]
    exact (vmDeletes_sublist_vm l).cons _
  | (Event.delete vdc vm) :: l => by
    rw [vmDeletes_cons_delete, List.map_cons]
    exact (vmDeletes_sublist_vm l).cons₂ _

theorem vmCreates_join (L : List (List Event)) :
    vmCreates L.join = (L.map vmCreates).join := by
  induction L with
  | nil => rfl
  | cons l L ih =>
    show vmCreates (l ++ L.join) = vmCreates l ++ (L.map vmCreates).join
    rw [vmCreates_append, ih]

theorem vmDeletes_join (L : List (List Event)) :
    vmDeletes L.join = (L.map vmDeletes).join := by
  induction L with
  | nil => rfl
  | cons l L ih =>
    show vmDeletes (l ++ L.join) = vmDeletes l ++ (L.map vmDeletes).join
    rw [vmDeletes_append, ih]

theorem batch_vdcs_eq (events : EventList) :
    batch_vdcs events = (events.filter (fun tl => !tl.2.isEmpty)).map
      (fun tl => (tl.1, batchTick tl.2)) := by
  have aux : ∀ (events : EventList) (acc : EventList),
      events.foldl
        (fun b tl => if tl.2.isEmpty then b else b ++ [(tl.1, batchTick tl.2)]) acc =
      acc ++ (events.filter (fun tl => !tl.2.isEmpty)).map
        (fun tl => (tl.1, batchTick tl.2)) := by
    intro events
    induction events with
    | nil =>
      intro acc
      simp
    | cons tl events ih =>
      intro acc
      rw [List.foldl_cons]
      by_cases he : tl.2.isEmpty
      · rw [if_pos he, ih, List.filter_cons]
        simp [he]
      · rw [if_neg he, ih, List.filter_cons]
        simp [he]
  have := aux events []
  simpa [batch_vdcs] using this

theorem sanitize_keys_mono {N : ℕ} {rows : List Row} {out : EventList}
    (hsan : sanitize N rows = Except.ok out) :
    out.Pairwise (fun a b => a.1 < b.1) := by
  rw [sanitize_struct hsan, List.pairwise_map]
  refine (List.pairwise_lt_range N).imp ?_
  intro i j hij
  show i * SEC_IN_5MINS < j * SEC_IN_5MINS
  simp only [SEC_IN_5MINS]
  omega

theorem create_in_out_tick {N : ℕ} {rows : List Row} {out : EventList}
    (hsan : sanitize N rows = Except.ok out) {t : ℕ} {l : List Event} {vm : String}
    (htl : (t, l) ∈ out) (hvm : vm ∈ vmCreates l) :
    ∃ r ∈ rows, vm = r.vm_uuid ∧ r.create_time ≠ r.delete_time ∧
      validate_event_time r.create_time = t := by
  obtain ⟨e, he, hce⟩ := mem_vmCreates.1 hvm
  obtain ⟨r, hr, hsurv, her⟩ := sanitize_mem_event hsan htl he
  rcases (rowEventsAt_cases her).2 with ⟨hct, heq⟩ | ⟨hdt, heq⟩
  · subst heq
    obtain ⟨vdc', c', r', heq'⟩ := hce
    cases heq'
    exact ⟨r, hr, rfl, hsurv, hct⟩
  · subst heq
    obtain ⟨vdc', c', r', heq'⟩ := hce
    cases heq'

theorem delete_in_out_tick {N : ℕ} {rows : List Row} {out : EventList}
    (hsan : sanitize N rows = Except.ok out) {t : ℕ} {l : List Event} {vm : String}
    (htl : (t, l) ∈ out) (hvm : vm ∈ vmDeletes l) :
    ∃ r ∈ rows, vm = r.vm_uuid ∧ r.create_time ≠ r.delete_time ∧
      validate_event_time r.delete_time = t := by
  obtain ⟨e, he, hde⟩ := mem_vmDeletes.1 hvm
  obtain ⟨r, hr, hsurv, her⟩ := sanitize_mem_event hsan htl he
  rcases (rowEventsAt_cases her).2 with ⟨hct, heq⟩ | ⟨hdt, heq⟩
  · subst heq
    obtain ⟨vdc', heq'⟩ := hde
    cases heq'
  · subst heq
    obtain ⟨vdc', heq'⟩ := hde
    cases heq'
    exact ⟨r, hr, rfl, hsurv, hdt⟩

/-- The sanitized, batched pipeline output satisfies every well-formedness
condition the chopper needs, provided the CSV rows carry pairwise-distinct vm
uuids and underscore-free logical vdc uuids. -/
theorem chopWF_pipeline {N : ℕ} {rows : List Row} {out : EventList}
    (hvm : (rows.map Row.vm_uuid).Nodup)
    (hplain : ∀ r ∈ rows, noUnderscore r.vdc_uuid)
    (hsan : sanitize N rows = Except.ok out) :
    ChopWF (batch_vdcs out) := by
  have hinj : ∀ r ∈ rows, ∀ r' ∈ rows, r.vm_uuid = r'.vm_uuid → r = r' := by
    intro r hr r' hr' hrr
    exact List.inj_on_of_nodup_map hvm hr hr' hrr
  have hmono_f : (out.filter (fun tl => !tl.2.isEmpty)).Pairwise
      (fun a b => a.1 < b.1) := (sanitize_keys_mono hsan).filter _
  have hbeq := batch_vdcs_eq out
  have htickperm : ∀ {t : ℕ} {l : List Event}, (t, l) ∈ out → (batchTick l).Perm l :=
    fun htl => batchTick_perm_of_nodup_keys
      (keys_nodup_of_vm_nodup (out_tick_vm_nodup hvm hsan htl))
  have hflat : flatTicks (batch_vdcs out) =
      ((out.filter (fun tl => !tl.2.isEmpty)).map (fun tl => batchTick tl.2)).join := by
    rw [hbeq]
    unfold flatTicks
    rw [List.map_map]
    rfl
  refine ⟨?_, ?_, ?_, ?_, ?_, ?_⟩
  · -- creates_nodup
    rw [hflat, vmCreates_join, List.map_map]
    refine List.nodup_flatten.2 ⟨?_, ?_⟩
    · intro l' hl'
      obtain ⟨tl, htl, rfl⟩ := List.mem_map.1 hl'
      have hto : (tl.1, tl.2) ∈ out := by
        rw [Prod.mk.eta]
        exact (List.mem_filter.1 htl).1
      show (vmCreates (batchTick tl.2)).Nodup
      refine (((htickperm hto).filterMap _).symm).nodup ?_
      exact List.Nodup.sublist (vmCreates_sublist_vm tl.2) (out_tick_vm_nodup hvm hsan hto)
    · rw [List.pairwise_map]
      refine hmono_f.imp_of_mem ?_
      intro a b ha hb hab
      intro v hva hvb
      have hao : (a.1, a.2) ∈ out := by
        rw [Prod.mk.eta]
        exact (List.mem_filter.1 ha).1
      have hbo : (b.1, b.2) ∈ out := by
        rw [Prod.mk.eta]
        exact (List.mem_filter.1 hb).1
      have hva' : v ∈ vmCreates a.2 := ((htickperm hao).filterMap _).mem_iff.1 hva
      have hvb' : v ∈ vmCreates b.2 := ((htickperm hbo).filterMap _).mem_iff.1 hvb
      obtain ⟨r, hr, hveq, hsurv, hct⟩ := create_in_out_tick hsan hao hva'
      obtain ⟨r', hr', hveq', hsurv', hct'⟩ := create_in_out_tick hsan hbo hvb'
      have hrr : r = r' := hinj r hr r' hr' (hveq.symm.trans hveq')
      subst hrr
      exact absurd hab (by rw [← hct, ← hct']; exact lt_irrefl _)
  · -- deletes_nodup
    rw [hflat, vmDeletes_join, List.map_map]
    refine List.nodup_flatten.2 ⟨?_, ?_⟩
    · intro l' hl'
      obtain ⟨tl, htl, rfl⟩ := List.mem_map.1 hl'
      have hto : (tl.1, tl.2) ∈ out := by
        rw [Prod.mk.eta]
        exact (List.mem_filter.1 htl).1
      show (vmDeletes (batchTick tl.2)).Nodup
      refine (((htickperm hto).filterMap _).symm).nodup ?_
      exact List.Nodup.sublist (vmDeletes_sublist_vm tl.2) (out_tick_vm_nodup hvm hsan hto)
    · rw [List.pairwise_map]
      refine hmono_f.imp_of_mem ?_
      intro a b ha hb hab
      intro v hva hvb
      have hao : (a.1, a.2) ∈ out := by
        rw [Prod.mk.eta]
        exact (List.mem_filter.1 ha).1
      have hbo : (b.1, b.2) ∈ out := by
        rw [Prod.mk.eta]
        exact (List.mem_filter.1 hb).1
      have hva' : v ∈ vmDeletes a.2 := ((htickperm hao).filterMap _).mem_iff.1 hva
      have hvb' : v ∈ vmDeletes b.2 := ((htickperm hbo).filterMap _).mem_iff.1 hvb
      obtain ⟨r, hr, hveq, hsurv, hdt⟩ := delete_in_out_tick hsan hao hva'
      obtain ⟨r', hr', hveq', hsurv', hdt'⟩ := delete_in_out_tick hsan hbo hvb'
      have hrr : r = r' := hinj r hr r' hr' (hveq.symm.trans hveq')
      subst hrr
      exact absurd hab (by rw [← hdt, ← hdt']; exact lt_irrefl _)
  · -- delete_has_earlier_create
    intro tl htl vm hvmdel
    rw [hbeq] at htl
    obtain ⟨tl', htl', heq⟩ := List.mem_map.1 htl
    subst heq
    have hto : (tl'.1, tl'.2) ∈ out := by
      rw [Prod.mk.eta]
      exact (List.mem_filter.1 htl').1
    have hvm' : vm ∈ vmDeletes tl'.2 :=
      ((htickperm hto).filterMap _).mem_iff.1 hvmdel
    obtain ⟨r, hr, hveq, hsurv, hdt⟩ := delete_in_out_tick hsan hto hvm'
    obtain ⟨hlt, hvlt, hex, -⟩ := sanitize_conds hsan r hr hsurv
    obtain ⟨i, hiN, hctv⟩ := hex
    have hecrow : Event.create r.vdc_uuid r.vm_uuid r.cores r.ram ∈
        rowEventsAt (validate_event_time r.create_time) r := by
      unfold rowEventsAt
      rw [if_neg hsurv, if_pos rfl]
      exact List.mem_append.2 (Or.inl (List.mem_singleton_self _))
    have hecs : Event.create r.vdc_uuid r.vm_uuid r.cores r.ram ∈
        sanitizedEventsAt rows (validate_event_time r.create_time) :=
      mem_sanitizedEventsAt_of hr hecrow
    have hmemout : (validate_event_time r.create_time,
        sanitizedEventsAt rows (validate_event_time r.create_time)) ∈ out := by
      rw [sanitize_struct hsan]
      refine List.mem_map.2 ⟨i, List.mem_range.2 hiN, ?_⟩
      rw [← hctv]
    have hne : sanitizedEventsAt rows (validate_event_time r.create_time) ≠ [] :=
      List.ne_nil_of_mem hecs
    have hmem_f : (validate_event_time r.create_time,
        sanitizedEventsAt rows (validate_event_time r.create_time)) ∈
        out.filter (fun tl => !tl.2.isEmpty) := by
      refine List.mem_filter.2 ⟨hmemout, ?_⟩
      simp [hne]
    refine ⟨(validate_event_time r.create_time,
        batchTick (sanitizedEventsAt rows (validate_event_time r.create_time))), ?_, ?_, ?_⟩
    · rw [hbeq]
      exact List.mem_map.2 ⟨_, hmem_f, rfl⟩
    · show validate_event_time r.create_time < tl'.1
      rw [← hdt]
      exact hvlt
    · show vm ∈ vmCreates
        (batchTick (sanitizedEventsAt rows (validate_event_time r.create_time)))
      refine ((htickperm hmemout).filterMap _).mem_iff.2 ?_
      rw [hveq]
      exact mem_vmCreates.2 ⟨_, hecs, r.vdc_uuid, r.cores, r.ram, rfl⟩
  · -- vdcs_plain
    intro tl htl e he
    rw [hbeq] at htl
    obtain ⟨tl', htl', heq⟩ := List.mem_map.1 htl
    subst heq
    have hto : (tl'.1, tl'.2) ∈ out := by
      rw [Prod.mk.eta]
      exact (List.mem_filter.1 htl').1
    have he' : e ∈ tl'.2 := (htickperm hto).mem_iff.1 he
    obtain ⟨r, hr, hsurv, her⟩ := sanitize_mem_event hsan hto he'
    rw [rowEventsAt_vdc her]
    exact hplain r hr
  · -- keys_mono
    rw [hbeq]
    exact List.pairwise_map.2 hmono_f
  · -- ticks_nonempty
    intro tl htl
    rw [hbeq] at htl
    obtain ⟨tl', htl', heq⟩ := List.mem_map.1 htl
    subst heq
    show batchTick tl'.2 ≠ []
    refine batchTick_ne_nil ?_
    have h2 := (List.mem_filter.1 htl').2
    intro hnil
    rw [hnil] at h2
    exact absurd h2 (by decide)

/-- **C9.** For every event stream produced by the sanitizer and the tick
batcher from CSV rows with pairwise-distinct vm uuids and underscore-free
logical vdc uuids, every DELETE of a batched tick has its CREATE at a strictly
earlier batched tick, and the chopper replays the whole stream without hitting
any error branch — in particular the hard abort for a DELETE referencing a VM
whose CREATE has not been processed is unreachable. -/
theorem C9_chop_after_batch_never_aborts {N max : ℕ} {rows : List Row}
    {out : EventList} (hvm : (rows.map Row.vm_uuid).Nodup)
    (hplain : ∀ r ∈ rows, noUnderscore r.vdc_uuid)
    (hsan : sanitize N rows = Except.ok out) :
    (∀ tl ∈ batch_vdcs out, ∀ vm ∈ vmDeletes tl.2,
      ∃ tl', tl' ∈ batch_vdcs out ∧ tl'.1 < tl.1 ∧ vm ∈ vmCreates tl'.2) ∧
    ∃ res, chop_vdcs (batch_vdcs out) max = Except.ok res := by
  have hwf := chopWF_pipeline hvm hplain hsan
  refine ⟨hwf.delete_has_earlier_create, ?_⟩
  obtain ⟨s, hok, -⟩ := @chop_vdcs_run max (batch_vdcs out)
    (ticksOK_of_wf hwf (batch_vdcs out) [] rfl)
  exact ⟨(s.vm2vdc, s.vm_peers), hok⟩

/-- Two CSV rows whose lifetimes overlap, exercising the full
sanitize-batch-chop path. -/
def rowsEx : List Row := [⟨"A", "d", 0, 600, 4, 8⟩, ⟨"B", "d", 300, 900, 1, 2⟩]

/-- The sanitized grid of `rowsEx` over four ticks. -/
def gridEx : EventList :=
  [(0, [Event.create "d" "A" 4 8]), (300, [Event.create "d" "B" 1 2]),
   (600, [Event.delete "d" "A"]), (900, [Event.delete "d" "B"])]

theorem C9_chop_after_batch_never_aborts_witness :
    ((rowsEx.map Row.vm_uuid).Nodup ∧
      (∀ r ∈ rowsEx, noUnderscore r.vdc_uuid) ∧
      sanitize 4 rowsEx = Except.ok gridEx) ∧
    ((∀ tl ∈ batch_vdcs gridEx, ∀ vm ∈ vmDeletes tl.2,
      ∃ tl', tl' ∈ batch_vdcs gridEx ∧ tl'.1 < tl.1 ∧ vm ∈ vmCreates tl'.2) ∧
    ∃ res, chop_vdcs (batch_vdcs gridEx) 30 = Except.ok res) :=
  ⟨⟨by decide, by decide, by decide⟩,
    @C9_chop_after_batch_never_aborts 4 30 rowsEx gridEx
      (by decide) (by decide) (by decide)⟩

/-! ### Bandwidth symmetry of the connection maps -/

/-- The vm uuid of a networked event. -/
def NetEvent.vm : NetEvent → String
  | .create _ vm _ _ _ => vm
  | .delete _ vm => vm

/-- The connection map of a networked event (empty for deletes). -/
def NetEvent.conn : NetEvent → List (String × ℤ)
  | .create _ _ _ _ conn => conn
  | .delete _ _ => []

theorem pymin_comm (a b : ℚ) : pymin a b = pymin b a := by
  unfold pymin
  rcases lt_trichotomy a b with h | h | h
  · rw [if_pos (le_of_lt h), if_neg (not_le.2 h)]
  · rw [h]
  · rw [if_neg (not_le.2 h), if_pos (le_of_lt h)]

/-- One event of the cores-collection pass of `_add_network`. -/
def coresStep (d : List (String × ℚ)) (e : Event) : List (String × ℚ) :=
  match e with
  | Event.create _ vm cores _ => aset d vm cores
  | Event.delete _ _ => d

theorem vmCoresDict_eq_flat (events : EventList) :
    vmCoresDict events = (flatTicks events).foldl coresStep [] := by
  have aux : ∀ (evs : EventList) (d : List (String × ℚ)),
      evs.foldl (fun d tl => tl.2.foldl coresStep d) d =
        (flatTicks evs).foldl coresStep d := by
    intro evs
    induction evs with
    | nil => intro d; rfl
    | cons tl evs ih =>
      intro d
      rw [List.foldl_cons, ih, flatTicks_cons, List.foldl_append]
  exact aux events []

theorem coresFold_stable {l : List Event} {vm : String}
    (h : vm ∉ vmCreates l) (d : List (String × ℚ)) :
    alookup (l.foldl coresStep d) vm = alookup d vm := by
  induction l generalizing d with
  | nil => rfl
  | cons e l ih =>
    match e with
    | Event.create vdc vm' c r =>
      rw [vmCreates_cons_create] at h
      simp only [List.mem_cons, not_or] at h
      have hne : vm' ≠ vm := fun hh => h.1 hh.symm
      rw [List.foldl_cons]
      show alookup (l.foldl coresStep (aset d vm' c)) vm = _
      rw [ih h.2, alookup_aset_ne _ _ _ _ hne]
    | Event.delete vdc vm' =>
      rw [vmCreates_cons_delete] at h
      rw [List.foldl_cons]
      show alookup (l.foldl coresStep d) vm = _
      exact ih h _

theorem coresFold_lookup {l : List Event} (hnd : (vmCreates l).Nodup) {vdc vm : String}
    {c r : ℚ} (hmem : Event.create vdc vm c r ∈ l) (d : List (String × ℚ)) :
    alookup (l.foldl coresStep d) vm = some c := by
  induction l generalizing d with
  | nil => cases hmem
  | cons e l ih =>
    rcases List.mem_cons.1 hmem with rfl | hmem'
    · rw [vmCreates_cons_create] at hnd
      obtain ⟨hhead, -⟩ := List.nodup_cons.1 hnd
      rw [List.foldl_cons]
      show alookup (l.foldl coresStep (aset d vm c)) vm = some c
      rw [coresFold_stable hhead (aset d vm c), alookup_aset_self]
    · match e with
      | Event.create vdc' vm' c' r' =>
        rw [vmCreates_cons_create] at hnd
        rw [List.foldl_cons]
        show alookup (l.foldl coresStep (aset d vm' c')) vm = some c
        exact ih (List.nodup_cons.1 hnd).2 hmem' _
      | Event.delete vdc' vm' =>
        rw [vmCreates_cons_delete] at hnd
        rw [List.foldl_cons]
        show alookup (l.foldl coresStep d) vm = some c
        exact ih hnd hmem' _

/-- With a unique create per vm, the cores dict holds each created vm's cores. -/
theorem vmCoresDict_lookup {events : EventList} {vdc vm : String} {c r : ℚ}
    (hnd : (vmCreates (flatTicks events)).Nodup)
    {tl : ℕ × List Event} (htl : tl ∈ events) (he : Event.create vdc vm c r ∈ tl.2) :
    alookup (vmCoresDict events) vm = some c := by
  rw [vmCoresDict_eq_flat]
  exact coresFold_lookup hnd (mem_flatTicks.2 ⟨tl, htl, he⟩) []

/-- Counterexample to C3: the workload synthesized from `rowsEx` contains the
bandwidth entry `("A", 10)` in the connection map of the CREATE of `B`, but the
CREATE of `A` (whose VM was created at an earlier tick) carries no entry for
`B` at all — the reciprocal entry does not exist. -/
theorem C3_counterexample_missing_reciprocal :
    pipeline 4 30 10 rowsEx = Except.ok
      [("tick_0", [NetEvent.create "d" "A" 4 8 []]),
       ("tick_300", [NetEvent.create "d" "B" 1 2 [("A", 10)]]),
       ("tick_600", [NetEvent.delete "d" "A"]),
       ("tick_900", [NetEvent.delete "d" "B"])] ∧
    (∃ tl ∈ ([("tick_0", [NetEvent.create "d" "A" 4 8 []]),
       ("tick_300", [NetEvent.create "d" "B" 1 2 [("A", 10)]]),
       ("tick_600", [NetEvent.delete "d" "A"]),
       ("tick_900", [NetEvent.delete "d" "B"])] : List (String × List NetEvent)),
      ∃ ne ∈ tl.2, NetEvent.vm ne = "B" ∧ ("A", (10 : ℤ)) ∈ NetEvent.conn ne) ∧
    (∀ tl ∈ ([("tick_0", [NetEvent.create "d" "A" 4 8 []]),
       ("tick_300", [NetEvent.create "d" "B" 1 2 [("A", 10)]]),
       ("tick_600", [NetEvent.delete "d" "A"]),
       ("tick_900", [NetEvent.delete "d" "B"])] : List (String × List NetEvent)),
      ∀ ne ∈ tl.2, NetEvent.vm ne = "A" →
        alookup (NetEvent.conn ne) "B" = none) :=
  ⟨by with_unfolding_all decide, by with_unfolding_all decide,
    by with_unfolding_all decide⟩

/-- **C3, amended.** The reciprocal bandwidth entry need not exist
(`C3_counterexample_missing_reciprocal`); what does hold is that whenever both
directions are present — VM `vmA`'s connection map carries an entry for `vmB`
and vice versa — the two values are identical, because each is the truncated
product of the bandwidth-per-core with the symmetric minimum of the two VMs'
core counts. -/
theorem C3_bandwidth_symmetric_when_mutual {events : EventList}
    {vm2vdc : List (String × String)} {vm_peers : List (String × List String)}
    {band : ℤ} {w : List (String × List NetEvent)}
    (hnd : (vmCreates (flatTicks events)).Nodup)
    (h : add_network events vm2vdc vm_peers band = Except.ok w)
    {tlA tlB : String × List NetEvent} (hA : tlA ∈ w) (hB : tlB ∈ w)
    {pA pB vmA vmB : String} {cA rA cB rB : ℚ} {cnA cnB : List (String × ℤ)}
    (hneA : NetEvent.create pA vmA cA rA cnA ∈ tlA.2)
    (hneB : NetEvent.create pB vmB cB rB cnB ∈ tlB.2)
    {x y : ℤ} (hx : alookup cnA vmB = some x) (hy : alookup cnB vmA = some y) :
    x = y := by
  have hf := mapM_ok_forall₂ _ _ _ h
  obtain ⟨tlEA, htlEA, hrelA⟩ := forall₂_mem_right hf hA
  obtain ⟨-, nevsA, hmapA, hntlA⟩ := add_network_tick_ok hrelA
  have hfA := mapM_ok_forall₂ _ _ _ hmapA
  have hneA' : NetEvent.create pA vmA cA rA cnA ∈ nevsA := by
    rw [hntlA] at hneA
    exact hneA
  obtain ⟨eA, heA, hokA⟩ := forall₂_mem_right hfA hneA'
  obtain ⟨tlEB, htlEB, hrelB⟩ := forall₂_mem_right hf hB
  obtain ⟨-, nevsB, hmapB, hntlB⟩ := add_network_tick_ok hrelB
  have hfB := mapM_ok_forall₂ _ _ _ hmapB
  have hneB' : NetEvent.create pB vmB cB rB cnB ∈ nevsB := by
    rw [hntlB] at hneB
    exact hneB
  obtain ⟨eB, heB, hokB⟩ := forall₂_mem_right hfB hneB'
  obtain ⟨hdelA, hcreA⟩ := netEventOf_ok_rel hokA
  obtain ⟨hdelB, hcreB⟩ := netEventOf_ok_rel hokB
  match eA with
  | Event.delete dvdc dvm =>
    obtain ⟨p, -, hshape⟩ := hdelA dvdc dvm rfl
    cases hshape
  | Event.create vdcA vmA' cA' rA' =>
    obtain ⟨p1, peers1, conn1, -, -, hshapeA, hconnA, -⟩ := hcreA vdcA vmA' cA' rA' rfl
    cases hshapeA
    match eB with
    | Event.delete dvdc dvm =>
      obtain ⟨p, -, hshape⟩ := hdelB dvdc dvm rfl
      cases hshape
    | Event.create vdcB vmB' cB' rB' =>
      obtain ⟨p2, peers2, conn2, -, -, hshapeB, hconnB, -⟩ := hcreB vdcB vmB' cB' rB' rfl
      cases hshapeB
      have hdictA : alookup (vmCoresDict events) vmA = some cA :=
        vmCoresDict_lookup hnd htlEA heA
      have hdictB : alookup (vmCoresDict events) vmB = some cB :=
        vmCoresDict_lookup hnd htlEB heB
      obtain ⟨pcB, hpcB, hxval⟩ := hconnA (vmB, x) (alookup_mem _ _ _ hx)
      obtain ⟨pcA, hpcA, hyval⟩ := hconnB (vmA, y) (alookup_mem _ _ _ hy)
      have h1 : pcB = cB := by
        rw [hdictB] at hpcB
        cases hpcB
        rfl
      have h2 : pcA = cA := by
        rw [hdictA] at hpcA
        cases hpcA
        rfl
      have hxval' : x = pyIntTrunc (band * pymin cA pcB) := hxval
      have hyval' : y = pyIntTrunc (band * pymin cB pcA) := hyval
      rw [hxval', hyval', h1, h2, pymin_comm]

theorem C3_bandwidth_symmetric_when_mutual_witness :
    ((vmCreates (flatTicks [(0, [Event.create "d" "A" 4 8, Event.create "d" "B" 8 8]),
        (600, [Event.delete "d" "A"])])).Nodup ∧
      add_network [(0, [Event.create "d" "A" 4 8, Event.create "d" "B" 8 8]),
          (600, [Event.delete "d" "A"])]
        [("A", "d"), ("B", "d")] [("A", ["B"]), ("B", ["A"])] 10 =
        Except.ok [("tick_0", [NetEvent.create "d" "A" 4 8 [("B", 40)],
          NetEvent.create "d" "B" 8 8 [("A", 40)]]),
          ("tick_600", [NetEvent.delete "d" "A"])] ∧
      ("tick_0", [NetEvent.create "d" "A" 4 8 [("B", 40)],
          NetEvent.create "d" "B" 8 8 [("A", 40)]]) ∈
        [("tick_0", [NetEvent.create "d" "A" 4 8 [("B", 40)],
          NetEvent.create "d" "B" 8 8 [("A", 40)]]),
          ("tick_600", [NetEvent.delete "d" "A"])] ∧
      NetEvent.create "d" "A" 4 8 [("B", 40)] ∈
        ("tick_0", [NetEvent.create "d" "A" 4 8 [("B", 40)],
          NetEvent.create "d" "B" 8 8 [("A", 40)]]).2 ∧
      NetEvent.create "d" "B" 8 8 [("A", 40)] ∈
        ("tick_0", [NetEvent.create "d" "A" 4 8 [("B", 40)],
          NetEvent.create "d" "B" 8 8 [("A", 40)]]).2 ∧
      alookup [(("B" : String), (40 : ℤ))] "B" = some 40 ∧
      alookup [(("A" : String), (40 : ℤ))] "A" = some 40) ∧
    (40 : ℤ) = 40 :=
  ⟨⟨by decide, by with_unfolding_all decide, by with_unfolding_all decide,
    by with_unfolding_all decide, by with_unfolding_all decide, by decide, by decide⟩,
    @C3_bandwidth_symmetric_when_mutual
      [(0, [Event.create "d" "A" 4 8, Event.create "d" "B" 8 8]),
        (600, [Event.delete "d" "A"])]
      [("A", "d"), ("B", "d")] [("A", ["B"]), ("B", ["A"])] 10
      [("tick_0", [NetEvent.create "d" "A" 4 8 [("B", 40)],
        NetEvent.create "d" "B" 8 8 [("A", 40)]]),
        ("tick_600", [NetEvent.delete "d" "A"])]
      (by decide) (by with_unfolding_all decide)
      ("tick_0", [NetEvent.create "d" "A" 4 8 [("B", 40)],
        NetEvent.create "d" "B" 8 8 [("A", 40)]])
      ("tick_0", [NetEvent.create "d" "A" 4 8 [("B", 40)],
        NetEvent.create "d" "B" 8 8 [("A", 40)]])
      (by with_unfolding_all decide) (by with_unfolding_all decide)
      "d" "d" "A" "B" 4 8 8 8 [("B", 40)] [("A", 40)]
      (by with_unfolding_all decide) (by with_unfolding_all decide)
      40 40 (by decide) (by decide)⟩

/-! ### The verifier: replay over micro events -/

/-- A micro event of the verifier replay: one `(source, peer)` bandwidth entry
of a create event, or a node deletion. -/
inductive Micro : Type
  | entry (u a : String)
  | del (v : String)

deriving instance DecidableEq for Micro

/-- One micro event of the verifier: an entry runs the per-entry check with
the weight `W`, a deletion removes the node when present. -/
def microStep (W : String → String → ℤ) (g : PeerGraph) : Micro → Except String PeerGraph
  | Micro.entry u a => checkConnEntry u g (a, W u a)
  | Micro.del v => Except.ok (if v ∈ g.nodes then removeNode g v else g)

/-- The ordered pair `(u, a)` holds an uncancelled edge after the micro prefix
`M`: its entry fired, neither endpoint was deleted since, and if the peering is
mutual the reverse entry has not fired (else the reverse entry removed it). -/
def openPairM (Pr : String → String → Prop) (M : List Micro) (u a : String) : Prop :=
  Micro.entry u a ∈ M ∧ Pr u a ∧ Micro.del u ∉ M ∧ Micro.del a ∉ M ∧
    (Pr a u → Micro.entry a u ∉ M)

/-- Exact membership description of the verifier graph after a micro prefix. -/
structure GraphChar (Pr : String → String → Prop) (W : String → String → ℤ)
    (M : List Micro) (g : PeerGraph) : Prop where
  edges : ∀ ed, ed ∈ g.edges ↔ ∃ u a, ed = ((u, a), W u a) ∧ openPairM Pr M u a
  nodes : ∀ v, v ∈ g.nodes ↔ Micro.del v ∉ M ∧
    ∃ u a, Micro.entry u a ∈ M ∧ Pr u a ∧ (v = u ∨ v = a)

/-- Prefix-indexed admissibility of a micro stream. -/
def MicroOK (Pr : String → String → Prop) : List Micro → List Micro → Prop
  | _, [] => True
  | done, Micro.entry u a :: rest =>
      (Pr u a ∧ u ≠ a ∧ Micro.entry u a ∉ done ∧
        Micro.del u ∉ done ∧ Micro.del a ∉ done) ∧
      MicroOK Pr (done ++ [Micro.entry u a]) rest
  | done, Micro.del v :: rest =>
      Micro.del v ∉ done ∧ MicroOK Pr (done ++ [Micro.del v]) rest

theorem openPairM_snoc_del (Pr : String → String → Prop) (M : List Micro)
    (u a v : String) :
    openPairM Pr (M ++ [Micro.del v]) u a ↔
      (openPairM Pr M u a ∧ u ≠ v ∧ a ≠ v) := by
  unfold openPairM
  constructor
  · rintro ⟨h1, h2, h3, h4, h5⟩
    have h1' : Micro.entry u a ∈ M := by
      rcases List.mem_append.1 h1 with h | h
      · exact h
      · cases List.mem_singleton.1 h
    have huv : u ≠ v := by
      intro hh
      exact h3 (List.mem_append.2 (Or.inr (by rw [hh]; exact List.mem_singleton_self _)))
    have hav : a ≠ v := by
      intro hh
      exact h4 (List.mem_append.2 (Or.inr (by rw [hh]; exact List.mem_singleton_self _)))
    exact ⟨⟨h1', h2, fun hh => h3 (List.mem_append.2 (Or.inl hh)),
      fun hh => h4 (List.mem_append.2 (Or.inl hh)),
      fun hpr hh => h5 hpr (List.mem_append.2 (Or.inl hh))⟩, huv, hav⟩
  · rintro ⟨⟨h1, h2, h3, h4, h5⟩, huv, hav⟩
    refine ⟨List.mem_append.2 (Or.inl h1), h2, ?_, ?_, ?_⟩
    · intro hh
      rcases List.mem_append.1 hh with h | h
      · exact h3 h
      · exact huv (Micro.del.inj (List.mem_singleton.1 h))
    · intro hh
      rcases List.mem_append.1 hh with h | h
      · exact h4 h
      · exact hav (Micro.del.inj (List.mem_singleton.1 h))
    · intro hpr hh
      rcases List.mem_append.1 hh with h | h
      · exact h5 hpr h
      · cases List.mem_singleton.1 h

theorem entry_mem_snoc_del {M : List Micro} {u a v : String} :
    Micro.entry u a ∈ M ++ [Micro.del v] ↔ Micro.entry u a ∈ M := by
  constructor
  · intro h
    rcases List.mem_append.1 h with h | h
    · exact h
    · cases List.mem_singleton.1 h
  · exact fun h => List.mem_append.2 (Or.inl h)

theorem del_mem_snoc_del {M : List Micro} {x v : String} :
    Micro.del x ∈ M ++ [Micro.del v] ↔ Micro.del x ∈ M ∨ x = v := by
  constructor
  · intro h
    rcases List.mem_append.1 h with h | h
    · exact Or.inl h
    · exact Or.inr (Micro.del.inj (List.mem_singleton.1 h))
  · rintro (h | rfl)
    · exact List.mem_append.2 (Or.inl h)
    · exact List.mem_append.2 (Or.inr (List.mem_singleton_self _))

theorem del_mem_snoc_entry {M : List Micro} {x u a : String} :
    Micro.del x ∈ M ++ [Micro.entry u a] ↔ Micro.del x ∈ M := by
  constructor
  · intro h
    rcases List.mem_append.1 h with h | h
    · exact h
    · cases List.mem_singleton.1 h
  · exact fun h => List.mem_append.2 (Or.inl h)

theorem entry_mem_snoc_entry {M : List Micro} {x y u a : String} :
    Micro.entry x y ∈ M ++ [Micro.entry u a] ↔
      Micro.entry x y ∈ M ∨ (x = u ∧ y = a) := by
  constructor
  · intro h
    rcases List.mem_append.1 h with h | h
    · exact Or.inl h
    · have := List.mem_singleton.1 h
      cases this
      exact Or.inr ⟨rfl, rfl⟩
  · rintro (h | ⟨rfl, rfl⟩)
    · exact List.mem_append.2 (Or.inl h)
    · exact List.mem_append.2 (Or.inr (List.mem_singleton_self _))

theorem addNode_edges (g : PeerGraph) (v : String) : (addNode g v).edges = g.edges := by
  unfold addNode
  split <;> rfl

theorem mem_addNode_nodes (g : PeerGraph) (v x : String) :
    x ∈ (addNode g v).nodes ↔ x ∈ g.nodes ∨ x = v := by
  unfold addNode
  split
  · constructor
    · exact Or.inl
    · rintro (h | rfl)
      · exact h
      · assumption
  · constructor
    · intro h
      rcases List.mem_append.1 h with h | h
      · exact Or.inl h
      · exact Or.inr (List.mem_singleton.1 h)
    · rintro (h | rfl)
      · exact List.mem_append.2 (Or.inl h)
      · exact List.mem_append.2 (Or.inr (List.mem_singleton_self _))

/-- One micro step preserves the graph characterization. -/
theorem microStep_char {Pr : String → String → Prop} {W : String → String → ℤ}
    (hW : ∀ u a, W u a = W a u) (hpos : ∀ u a, Pr u a → 0 < W u a)
    {M : List Micro} {g : PeerGraph} (hg : GraphChar Pr W M g) {m : Micro}
    (hok : match m with
      | Micro.entry u a => Pr u a ∧ u ≠ a ∧ Micro.entry u a ∉ M ∧
          Micro.del u ∉ M ∧ Micro.del a ∉ M
      | Micro.del v => Micro.del v ∉ M) :
    ∃ g', microStep W g m = Except.ok g' ∧ GraphChar Pr W (M ++ [m]) g' := by
  match m with
  | Micro.del v =>
    have hvM : Micro.del v ∉ M := hok
    refine ⟨if v ∈ g.nodes then removeNode g v else g, rfl, ?_, ?_⟩
    · -- edges
      intro ed
      have hfilter : ed ∈ (if v ∈ g.nodes then removeNode g v else g).edges ↔
          ed ∈ g.edges ∧ ed.1.1 ≠ v ∧ ed.1.2 ≠ v := by
        split
        · unfold removeNode
          simp only [List.mem_filter, Bool.and_eq_true, decide_eq_true_eq]
        · rename_i hvn
          constructor
          · intro hed
            refine ⟨hed, ?_, ?_⟩
            · intro hh
              obtain ⟨u, a, hsh, hop⟩ := (hg.edges ed).1 hed
              rw [hsh] at hh
              exact hvn ((hg.nodes v).2 ⟨hvM, u, a, hop.1, hop.2.1, Or.inl hh.symm⟩)
            · intro hh
              obtain ⟨u, a, hsh, hop⟩ := (hg.edges ed).1 hed
              rw [hsh] at hh
              exact hvn ((hg.nodes v).2 ⟨hvM, u, a, hop.1, hop.2.1, Or.inr hh.symm⟩)
          · exact fun h => h.1
      rw [hfilter]
      constructor
      · rintro ⟨hed, h1, h2⟩
        obtain ⟨u, a, hsh, hop⟩ := (hg.edges ed).1 hed
        refine ⟨u, a, hsh, (openPairM_snoc_del Pr M u a v).2 ⟨hop, ?_, ?_⟩⟩
        · rw [hsh] at h1
          exact h1
        · rw [hsh] at h2
          exact h2
      · rintro ⟨u, a, hsh, hop'⟩
        obtain ⟨hop, huv, hav⟩ := (openPairM_snoc_del Pr M u a v).1 hop'
        refine ⟨(hg.edges ed).2 ⟨u, a, hsh, hop⟩, ?_, ?_⟩
        · rw [hsh]
          exact huv
        · rw [hsh]
          exact hav
    · -- nodes
      intro x
      have hnodes : x ∈ (if v ∈ g.nodes then removeNode g v else g).nodes ↔
          x ∈ g.nodes ∧ x ≠ v := by
        split
        · unfold removeNode
          simp only [List.mem_filter, decide_eq_true_eq]
        · rename_i hvn
          constructor
          · intro hx
            refine ⟨hx, ?_⟩
            rintro rfl
            exact hvn hx
          · exact fun h => h.1
      rw [hnodes, (hg.nodes x)]
      constructor
      · rintro ⟨⟨hdx, u, a, hua, hpr, hx⟩, hxv⟩
        refine ⟨?_, u, a, entry_mem_snoc_del.2 hua, hpr, hx⟩
        intro hh
        rcases del_mem_snoc_del.1 hh with h | h
        · exact hdx h
        · exact hxv h
      · rintro ⟨hdx, u, a, hua, hpr, hx⟩
        have hdx' : Micro.del x ∉ M := fun h => hdx (List.mem_append.2 (Or.inl h))
        have hxv : x ≠ v := by
          rintro rfl
          exact hdx (del_mem_snoc_del.2 (Or.inr rfl))
        exact ⟨⟨hdx', u, a, entry_mem_snoc_del.1 hua, hpr, hx⟩, hxv⟩
  | Micro.entry u₀ a₀ =>
    obtain ⟨hPr, hne, hent, hdu, hda⟩ := hok
    have hmatch_char : ∀ ed ∈ g.edges, edgeMatches u₀ a₀ ed = true →
        ed = ((a₀, u₀), W a₀ u₀) ∧ openPairM Pr M a₀ u₀ := by
      intro ed hed hm
      obtain ⟨u, a, hshape, hop⟩ := (hg.edges ed).1 hed
      subst hshape
      unfold edgeMatches at hm
      simp only [Bool.or_eq_true, Bool.and_eq_true, decide_eq_true_eq] at hm
      rcases hm with ⟨hm1, hm2⟩ | ⟨hm1, hm2⟩
      · exfalso
        have hu : u = u₀ := hm1
        have ha : a = a₀ := hm2
        subst hu ha
        exact hent hop.1
      · have hu : u = a₀ := hm1
        have ha : a = u₀ := hm2
        subst hu ha
        exact ⟨rfl, hop⟩
    by_cases hhe : hasEdge g u₀ a₀ = true
    · -- the reverse edge is present: weight check and removal
      obtain ⟨ed₀, hed₀, hm₀⟩ := List.any_eq_true.1 hhe
      obtain ⟨hshape₀, hopBA⟩ := hmatch_char ed₀ hed₀ hm₀
      have hfind_some : (g.edges.find? (edgeMatches u₀ a₀)).isSome := by
        rw [List.find?_isSome]
        exact ⟨ed₀, hed₀, hm₀⟩
      obtain ⟨ed', hfind⟩ := Option.isSome_iff_exists.1 hfind_some
      have hed' : ed' ∈ g.edges := List.mem_of_find?_eq_some hfind
      have hm' : edgeMatches u₀ a₀ ed' = true := List.find?_some hfind
      obtain ⟨hshape', -⟩ := hmatch_char ed' hed' hm'
      have hweight : edgeWeight g u₀ a₀ = some (W a₀ u₀) := by
        unfold edgeWeight
        rw [hfind, hshape']
        rfl
      refine ⟨removeEdge g u₀ a₀, ?_, ?_, ?_⟩
      · show checkConnEntry u₀ g (a₀, W u₀ a₀) = Except.ok (removeEdge g u₀ a₀)
        unfold checkConnEntry
        rw [if_neg (not_le.2 (hpos _ _ hPr)), if_pos hhe, hweight]
        show (if W a₀ u₀ = W u₀ a₀ then Except.ok (removeEdge g u₀ a₀)
          else Except.error "assert: bandwidth not symmetric") = _
        rw [if_pos (hW a₀ u₀)]
      · -- edges
        intro ed
        show ed ∈ (removeEdge g u₀ a₀).edges ↔ _
        unfold removeEdge
        simp only [List.mem_filter, Bool.not_eq_true']
        constructor
        · rintro ⟨hed, hnm⟩
          obtain ⟨u, a, hsh, hop⟩ := (hg.edges ed).1 hed
          refine ⟨u, a, hsh, entry_mem_snoc_entry.2 (Or.inl hop.1), hop.2.1,
            fun hh => hop.2.2.1 (del_mem_snoc_entry.1 hh),
            fun hh => hop.2.2.2.1 (del_mem_snoc_entry.1 hh), ?_⟩
          intro hpr hh
          rcases entry_mem_snoc_entry.1 hh with h | ⟨rfl, rfl⟩
          · exact hop.2.2.2.2 hpr h
          · -- (a, u) = (u₀, a₀): then ed matches (u₀, a₀), contradiction
            rw [hsh] at hnm
            unfold edgeMatches at hnm
            simp at hnm
          -- hnm now : ¬ matches; the pair (u, a) = (a₀, u₀) matches
        · rintro ⟨u, a, hsh, hop'⟩
          have hne_ua : ¬(u = u₀ ∧ a = a₀) := by
            rintro ⟨rfl, rfl⟩
            have := hop'.2.2.2.2 hopBA.2.1
            exact this (entry_mem_snoc_entry.2 (Or.inl hopBA.1))
          have hne_au : ¬(u = a₀ ∧ a = u₀) := by
            rintro ⟨rfl, rfl⟩
            have := hop'.2.2.2.2 hPr
            exact this (entry_mem_snoc_entry.2 (Or.inr ⟨rfl, rfl⟩))
          have hmem : Micro.entry u a ∈ M := by
            rcases entry_mem_snoc_entry.1 hop'.1 with h | ⟨rfl, rfl⟩
            · exact h
            · exact absurd ⟨rfl, rfl⟩ hne_ua
          have hop : openPairM Pr M u a :=
            ⟨hmem, hop'.2.1, fun hh => hop'.2.2.1 (del_mem_snoc_entry.2 hh),
              fun hh => hop'.2.2.2.1 (del_mem_snoc_entry.2 hh),
              fun hpr hh => hop'.2.2.2.2 hpr (entry_mem_snoc_entry.2 (Or.inl hh))⟩
          refine ⟨(hg.edges ed).2 ⟨u, a, hsh, hop⟩, ?_⟩
          rw [hsh]
          cases hcon : edgeMatches u₀ a₀ ((u, a), W u a) with
          | false => rfl
          | true =>
            exfalso
            unfold edgeMatches at hcon
            simp only [Bool.or_eq_true, Bool.and_eq_true, decide_eq_true_eq] at hcon
            rcases hcon with ⟨h1, h2⟩ | ⟨h1, h2⟩
            · exact hne_ua ⟨h1, h2⟩
            · exact hne_au ⟨h1, h2⟩
      · -- nodes: removeEdge leaves the node list unchanged
        intro x
        show x ∈ g.nodes ↔ _
        rw [hg.nodes x]
        constructor
        · rintro ⟨hdx, u, a, hua, hpr, hx⟩
          exact ⟨fun hh => hdx (del_mem_snoc_entry.1 hh), u, a,
            entry_mem_snoc_entry.2 (Or.inl hua), hpr, hx⟩
        · rintro ⟨hdx, u, a, hua, hpr, hx⟩
          have hdx' : Micro.del x ∉ M := fun hh => hdx (del_mem_snoc_entry.2 hh)
          rcases entry_mem_snoc_entry.1 hua with h | ⟨h1, h2⟩
          · exact ⟨hdx', u, a, h, hpr, hx⟩
          · refine ⟨hdx', a₀, u₀, hopBA.1, hopBA.2.1, ?_⟩
            rw [h1, h2] at hx
            exact hx.symm
    · -- no matching edge: add it
      have hnBA : ¬ openPairM Pr M a₀ u₀ := by
        intro hop
        apply hhe
        rw [show hasEdge g u₀ a₀ = g.edges.any (edgeMatches u₀ a₀) from rfl,
          List.any_eq_true]
        refine ⟨((a₀, u₀), W a₀ u₀), (hg.edges _).2 ⟨a₀, u₀, rfl, hop⟩, ?_⟩
        unfold edgeMatches
        simp
      refine ⟨addEdge g u₀ a₀ (W u₀ a₀), ?_, ?_, ?_⟩
      · show checkConnEntry u₀ g (a₀, W u₀ a₀) = Except.ok (addEdge g u₀ a₀ (W u₀ a₀))
        unfold checkConnEntry
        rw [if_neg (not_le.2 (hpos _ _ hPr)), if_neg hhe]
      · -- edges
        intro ed
        have hedges : ed ∈ (addEdge g u₀ a₀ (W u₀ a₀)).edges ↔
            ed ∈ g.edges ∨ ed = ((u₀, a₀), W u₀ a₀) := by
          show ed ∈ (addNode (addNode g u₀) a₀).edges ++ [((u₀, a₀), W u₀ a₀)] ↔ _
          rw [addNode_edges, addNode_edges, List.mem_append, List.mem_singleton]
        rw [hedges]
        constructor
        · rintro (hed | rfl)
          · obtain ⟨u, a, hsh, hop⟩ := (hg.edges ed).1 hed
            refine ⟨u, a, hsh, entry_mem_snoc_entry.2 (Or.inl hop.1), hop.2.1,
              fun hh => hop.2.2.1 (del_mem_snoc_entry.1 hh),
              fun hh => hop.2.2.2.1 (del_mem_snoc_entry.1 hh), ?_⟩
            intro hpr hh
            rcases entry_mem_snoc_entry.1 hh with h | ⟨rfl, rfl⟩
            · exact hop.2.2.2.2 hpr h
            · exact hnBA hop
          · refine ⟨u₀, a₀, rfl, entry_mem_snoc_entry.2 (Or.inr ⟨rfl, rfl⟩), hPr,
              fun hh => hdu (del_mem_snoc_entry.1 hh),
              fun hh => hda (del_mem_snoc_entry.1 hh), ?_⟩
            intro hpr hh
            rcases entry_mem_snoc_entry.1 hh with h | ⟨h1, h2⟩
            · exact hnBA ⟨h, hpr, hda, hdu, fun _ hh' => hent hh'⟩
            · exact hne h2
        · rintro ⟨u, a, hsh, hop'⟩
          rcases entry_mem_snoc_entry.1 hop'.1 with h | ⟨rfl, rfl⟩
          · refine Or.inl ((hg.edges ed).2 ⟨u, a, hsh, ⟨h, hop'.2.1,
              fun hh => hop'.2.2.1 (del_mem_snoc_entry.2 hh),
              fun hh => hop'.2.2.2.1 (del_mem_snoc_entry.2 hh),
              fun hpr hh => hop'.2.2.2.2 hpr (entry_mem_snoc_entry.2 (Or.inl hh))⟩⟩)
          · exact Or.inr hsh
      · -- nodes
        intro x
        have hnodes : x ∈ (addEdge g u₀ a₀ (W u₀ a₀)).nodes ↔
            x ∈ g.nodes ∨ x = u₀ ∨ x = a₀ := by
          show x ∈ (addNode (addNode g u₀) a₀).nodes ↔ _
          rw [mem_addNode_nodes, mem_addNode_nodes]
          constructor
          · rintro ((h | h) | h)
            · exact Or.inl h
            · exact Or.inr (Or.inl h)
            · exact Or.inr (Or.inr h)
          · rintro (h | h | h)
            · exact Or.inl (Or.inl h)
            · exact Or.inl (Or.inr h)
            · exact Or.inr h
        rw [hnodes]
        constructor
        · rintro (hx | hx | hx)
          · obtain ⟨hdx, u, a, hua, hpr, hx'⟩ := (hg.nodes x).1 hx
            exact ⟨fun hh => hdx (del_mem_snoc_entry.1 hh), u, a,
              entry_mem_snoc_entry.2 (Or.inl hua), hpr, hx'⟩
          · exact ⟨fun hh => hdu (del_mem_snoc_entry.1 (hx ▸ hh)), u₀, a₀,
              entry_mem_snoc_entry.2 (Or.inr ⟨rfl, rfl⟩), hPr, Or.inl hx⟩
          · exact ⟨fun hh => hda (del_mem_snoc_entry.1 (hx ▸ hh)), u₀, a₀,
              entry_mem_snoc_entry.2 (Or.inr ⟨rfl, rfl⟩), hPr, Or.inr hx⟩
        · rintro ⟨hdx, u, a, hua, hpr, hx⟩
          have hdx' : Micro.del x ∉ M := fun hh => hdx (del_mem_snoc_entry.2 hh)
          rcases entry_mem_snoc_entry.1 hua with h | ⟨rfl, rfl⟩
          · exact Or.inl ((hg.nodes x).2 ⟨hdx', u, a, h, hpr, hx⟩)
          · rcases hx with rfl | rfl
            · exact Or.inr (Or.inl rfl)
            · exact Or.inr (Or.inr rfl)

theorem microFold_char {Pr : String → String → Prop} {W : String → String → ℤ}
    (hW : ∀ u a, W u a = W a u) (hpos : ∀ u a, Pr u a → 0 < W u a) :
    ∀ (rest done : List Micro) (g : PeerGraph), GraphChar Pr W done g →
      MicroOK Pr done rest →
      ∃ g', List.foldlM (microStep W) g rest = Except.ok g' ∧
        GraphChar Pr W (done ++ rest) g' := by
  intro rest
  induction rest with
  | nil => exact fun done g hg _ => ⟨g, rfl, by simpa using hg⟩
  | cons m rest ih =>
    intro done g hg hok
    have hstep : ∃ g₁, microStep W g m = Except.ok g₁ ∧
        GraphChar Pr W (done ++ [m]) g₁ := by
      match m with
      | Micro.entry u a => exact microStep_char hW hpos hg hok.1
      | Micro.del v => exact microStep_char hW hpos hg hok.1
    obtain ⟨g₁, h₁, hg₁⟩ := hstep
    have hrest : MicroOK Pr (done ++ [m]) rest := by
      match m with
      | Micro.entry u a => exact hok.2
      | Micro.del v => exact hok.2
    obtain ⟨g', h', hg'⟩ := ih (done ++ [m]) g₁ hg₁ hrest
    refine ⟨g', ?_, ?_⟩
    · rw [List.foldlM_cons, h₁]
      exact h'
    · have hd : done ++ m :: rest = (done ++ [m]) ++ rest := by simp
      rw [hd]
      exact hg'

theorem graphChar_empty (Pr : String → String → Prop) (W : String → String → ℤ) :
    GraphChar Pr W [] emptyPeerGraph := by
  constructor
  · intro ed
    simp [emptyPeerGraph, openPairM]
  · intro v
    simp [emptyPeerGraph]

theorem graphChar_final {Pr : String → String → Prop} {W : String → String → ℤ}
    {M : List Micro} {g : PeerGraph} (hchar : GraphChar Pr W M g)
    (hdel : ∀ u a, Micro.entry u a ∈ M → Micro.del u ∈ M ∧ Micro.del a ∈ M) :
    g.nodes = [] ∧ g.edges = [] := by
  constructor
  · rw [List.eq_nil_iff_forall_not_mem]
    intro v hv
    obtain ⟨hnd, u, a, hua, hpr, hv'⟩ := (hchar.nodes v).1 hv
    rcases hv' with rfl | rfl
    · exact hnd (hdel v a hua).1
    · exact hnd (hdel u v hua).2
  · rw [List.eq_nil_iff_forall_not_mem]
    intro ed hed
    obtain ⟨u, a, -, h1, -, h3, -, -⟩ := (hchar.edges ed).1 hed
    exact h3 (hdel u a h1).1

/-- Global well-formedness of a micro stream, sufficient for the verifier to
replay it and end with an empty graph. -/
structure MicroWF (Pr : String → String → Prop) (M : List Micro) : Prop where
  nodup : M.Nodup
  pr : ∀ u a, Micro.entry u a ∈ M → Pr u a ∧ u ≠ a
  del_after : ∀ done rest u a, M = done ++ Micro.entry u a :: rest →
    Micro.del u ∉ done ∧ Micro.del a ∉ done
  fired_deleted : ∀ u a, Micro.entry u a ∈ M → Micro.del u ∈ M ∧ Micro.del a ∈ M

theorem microOK_of_WF {Pr : String → String → Prop} {M : List Micro}
    (h : MicroWF Pr M) :
    ∀ (rest done : List Micro), M = done ++ rest → MicroOK Pr done rest := by
  intro rest
  induction rest with
  | nil =>
    intro done _
    trivial
  | cons m rest ih =>
    intro done hsp
    have hnd := h.nodup
    rw [hsp] at hnd
    have hm_not_done : m ∉ done := by
      intro hmem
      have := List.disjoint_of_nodup_append hnd
      exact this hmem (List.mem_cons_self _ _)
    match m with
    | Micro.entry u a =>
      have hmemM : Micro.entry u a ∈ M := by
        rw [hsp]
        exact List.mem_append.2 (Or.inr (List.mem_cons_self _ _))
      obtain ⟨hpr, hnea⟩ := h.pr u a hmemM
      obtain ⟨hd1, hd2⟩ := h.del_after done rest u a hsp
      refine ⟨⟨hpr, hnea, hm_not_done, hd1, hd2⟩, ?_⟩
      exact ih (done ++ [Micro.entry u a]) (by rw [hsp]; simp)
    | Micro.del v =>
      exact ⟨hm_not_done, ih (done ++ [Micro.del v]) (by rw [hsp]; simp)⟩

/-- The verifier replay of a well-formed micro stream in which every fired
entry's endpoints are eventually deleted ends with the empty graph. -/
theorem microRun_empty {Pr : String → String → Prop} {W : String → String → ℤ}
    (hW : ∀ u a, W u a = W a u) (hpos : ∀ u a, Pr u a → 0 < W u a)
    {M : List Micro} (hwf : MicroWF Pr M) :
    ∃ g, List.foldlM (microStep W) emptyPeerGraph M = Except.ok g ∧
      g.nodes = [] ∧ g.edges = [] := by
  obtain ⟨g, hrun, hchar⟩ := microFold_char hW hpos M [] emptyPeerGraph
    (graphChar_empty Pr W) (microOK_of_WF hwf M [] rfl)
  refine ⟨g, hrun, graphChar_final (by simpa using hchar) hwf.fired_deleted⟩

/-! ### From the networked workload to micro events -/

/-- The micro events of one networked event. -/
def microOfNet : NetEvent → List Micro
  | NetEvent.create _ vm _ _ conn => conn.map (fun kv => Micro.entry vm kv.1)
  | NetEvent.delete _ vm => [Micro.del vm]

/-- The micro events of one workload tick. -/
def microOfTick (nl : List NetEvent) : List Micro := (nl.map microOfNet).join

/-- The micro stream of a whole workload. -/
def microOfW (w : List (String × List NetEvent)) : List Micro :=
  (w.map (fun tl => microOfTick tl.2)).join

/-- The vm a micro event is about. -/
def microSubject : Micro → String
  | Micro.entry u _ => u
  | Micro.del v => v

theorem microSubject_of_mem {ne : NetEvent} {m : Micro} (h : m ∈ microOfNet ne) :
    microSubject m = NetEvent.vm ne := by
  match ne with
  | NetEvent.create p vm c r conn =>
    obtain ⟨kv, -, rfl⟩ := List.mem_map.1 h
    rfl
  | NetEvent.delete p vm =>
    rw [List.mem_singleton.1 h]
    rfl

theorem connFold_micro {W : String → String → ℤ} {vm : String} :
    ∀ (conn : List (String × ℤ)) (g : PeerGraph),
      (∀ kv ∈ conn, kv.2 = W vm kv.1) →
      List.foldlM (checkConnEntry vm) g conn =
        List.foldlM (microStep W) g (conn.map (fun kv => Micro.entry vm kv.1)) := by
  intro conn
  induction conn with
  | nil =>
    intro g _
    rfl
  | cons kv conn ih =>
    intro g hv
    rw [List.map_cons, List.foldlM_cons, List.foldlM_cons]
    have hkv : checkConnEntry vm g kv = microStep W g (Micro.entry vm kv.1) := by
      show checkConnEntry vm g kv = checkConnEntry vm g (kv.1, W vm kv.1)
      rw [← hv kv (List.mem_cons_self _ _), Prod.mk.eta]
    rw [hkv]
    cases hst : microStep W g (Micro.entry vm kv.1) with
    | error e =>
      rfl
    | ok g₁ =>
      show List.foldlM (checkConnEntry vm) g₁ conn = _
      exact ih g₁ (fun kv' h => hv kv' (List.mem_cons_of_mem _ h))

theorem checkEvent_micro {W : String → String → ℤ} {g : PeerGraph} {ne : NetEvent}
    (hval : ∀ p vm c r conn, ne = NetEvent.create p vm c r conn →
      ∀ kv ∈ conn, kv.2 = W vm kv.1) :
    checkEvent g ne = List.foldlM (microStep W) g (microOfNet ne) := by
  match ne with
  | NetEvent.delete p vm => rfl
  | NetEvent.create p vm c r conn =>
    show List.foldlM (checkConnEntry vm) g conn = _
    exact connFold_micro conn g (hval p vm c r conn rfl)

theorem checkTickFold_micro {W : String → String → ℤ} :
    ∀ (nl : List NetEvent) (g : PeerGraph),
      (∀ ne ∈ nl, ∀ p vm c r conn, ne = NetEvent.create p vm c r conn →
        ∀ kv ∈ conn, kv.2 = W vm kv.1) →
      List.foldlM checkEvent g nl = List.foldlM (microStep W) g (microOfTick nl) := by
  intro nl
  induction nl with
  | nil =>
    intro g _
    rfl
  | cons ne nl ih =>
    intro g hv
    have hjoin : microOfTick (ne :: nl) = microOfNet ne ++ microOfTick nl := rfl
    rw [hjoin, List.foldlM_append, List.foldlM_cons]
    rw [← checkEvent_micro (hv ne (List.mem_cons_self _ _))]
    cases hst : checkEvent g ne with
    | error e => rfl
    | ok g₁ =>
      show List.foldlM checkEvent g₁ nl = _
      exact ih g₁ (fun ne' h => hv ne' (List.mem_cons_of_mem _ h))

theorem checkW_micro {W : String → String → ℤ} :
    ∀ (w : List (String × List NetEvent)) (g : PeerGraph),
      (∀ tl ∈ w, tl.2 ≠ []) →
      (∀ tl ∈ w, ∀ ne ∈ tl.2, ∀ p vm c r conn, ne = NetEvent.create p vm c r conn →
        ∀ kv ∈ conn, kv.2 = W vm kv.1) →
      List.foldlM (fun g tl => if tl.2.isEmpty then
          (Except.error "assert: empty tick" : Except String PeerGraph)
        else List.foldlM checkEvent g tl.2) g w =
      List.foldlM (microStep W) g (microOfW w) := by
  intro w
  induction w with
  | nil =>
    intro g _ _
    rfl
  | cons tl w ih =>
    intro g hne hv
    have hjoin : microOfW (tl :: w) = microOfTick tl.2 ++ microOfW w := rfl
    rw [hjoin, List.foldlM_append, List.foldlM_cons]
    have hnee : ¬ tl.2.isEmpty = true := by
      have := hne tl (List.mem_cons_self _ _)
      cases htl2 : tl.2 with
      | nil => exact absurd htl2 this
      | cons a l =>
        simp
    rw [if_neg hnee, ← checkTickFold_micro tl.2 g (hv tl (List.mem_cons_self _ _))]
    cases hst : List.foldlM checkEvent g tl.2 with
    | error e => rfl
    | ok g₁ =>
      show List.foldlM _ g₁ w = _
      exact ih g₁ (fun tl' h => hne tl' (List.mem_cons_of_mem _ h))
        (fun tl' h => hv tl' (List.mem_cons_of_mem _ h))

/-- Truncation toward zero of a rational at least one is at least one. -/
theorem pyIntTrunc_pos {q : ℚ} (h : 1 ≤ q) : 0 < pyIntTrunc q := by
  unfold pyIntTrunc
  have hden : (0 : ℤ) < (q.den : ℤ) := by exact_mod_cast q.den_pos
  have hnum : (q.den : ℤ) ≤ q.num := by
    have := Rat.le_def.1 h
    simpa using this
  have hnum0 : (0 : ℤ) ≤ q.num := le_trans (le_of_lt hden) hnum
  rw [Int.tdiv_eq_ediv hnum0 (le_of_lt hden)]
  have h1 : (1 : ℤ) ≤ q.num / (q.den : ℤ) := by
    rw [Int.le_ediv_iff_mul_le hden]
    simpa using hnum
  omega

theorem akeys_aset_mem {α β : Type} [DecidableEq α] :
    ∀ (l : List (α × β)) (k x : α) (v : β),
      x ∈ akeys (aset l k v) ↔ x ∈ akeys l ∨ x = k
  | [], k, x, v => by simp [aset, akeys]
  | (k', v') :: rest, k, x, v => by
    by_cases hk : k' = k
    · subst hk
      show x ∈ akeys (if k' = k' then (k', v) :: rest else _) ↔ _
      rw [if_pos rfl]
      show x ∈ k' :: akeys rest ↔ x ∈ k' :: akeys rest ∨ x = k'
      constructor
      · exact Or.inl
      · rintro (h | rfl)
        · exact h
        · exact List.mem_cons_self _ _
    · show x ∈ akeys (if k' = k then (k, v) :: rest else (k', v') :: aset rest k v) ↔ _
      rw [if_neg hk]
      show x ∈ k' :: akeys (aset rest k v) ↔ x ∈ k' :: akeys rest ∨ x = k
      rw [List.mem_cons, List.mem_cons, akeys_aset_mem rest k x v]
      constructor
      · rintro (h | h | h)
        · exact Or.inl (Or.inl h)
        · exact Or.inl (Or.inr h)
        · exact Or.inr h
      · rintro ((h | h) | h)
        · exact Or.inl h
        · exact Or.inr (Or.inl h)
        · exact Or.inr (Or.inr h)

theorem akeys_aset_nodup {α β : Type} [DecidableEq α] :
    ∀ {l : List (α × β)}, (akeys l).Nodup → ∀ (k : α) (v : β),
      (akeys (aset l k v)).Nodup := by
  intro l
  induction l with
  | nil =>
    intro _ k v
    simp [aset, akeys]
  | cons p rest ih =>
    intro hnd k v
    obtain ⟨k', v'⟩ := p
    have hnd' := hnd
    rw [show akeys ((k', v') :: rest) = k' :: akeys rest from rfl] at hnd'
    obtain ⟨hhead, htail⟩ := List.nodup_cons.1 hnd'
    by_cases hk : k' = k
    · subst hk
      show (akeys (if k' = k' then (k', v) :: rest else (k', v') :: aset rest k' v)).Nodup
      rw [if_pos rfl]
      exact hnd'
    · show (akeys (if k' = k then (k, v) :: rest else (k', v') :: aset rest k v)).Nodup
      rw [if_neg hk]
      show (k' :: akeys (aset rest k v)).Nodup
      refine List.nodup_cons.2 ⟨?_, ih htail k v⟩
      intro hmem
      rcases (akeys_aset_mem rest k k' v).1 hmem with h | h
      · exact hhead h
      · exact hk h

theorem connFold_keys {coresDict : List (String × ℚ)} {band : ℤ} {cores : ℚ} :
    ∀ (peers : List String) (init conn : List (String × ℤ)),
      peers.foldlM (fun conn pvm => do
        let pc ← lookupE coresDict pvm "KeyError: vm_cores_dict"
        Except.ok (aset conn pvm (pyIntTrunc (band * pymin cores pc)))) init =
        Except.ok conn →
      (∀ x ∈ akeys conn, x ∈ akeys init ∨ x ∈ peers) ∧
      ((akeys init).Nodup → (akeys conn).Nodup) := by
  intro peers
  induction peers with
  | nil =>
    intro init conn h
    simp only [List.foldlM_nil] at h
    cases h
    exact ⟨fun x hx => Or.inl hx, fun h => h⟩
  | cons pvm peers ih =>
    intro init conn h
    obtain ⟨init₁, h₁, h₂⟩ := foldlM_ok_cons _ _ _ _ _ h
    obtain ⟨pc, hpc, hset⟩ := except_bind_ok _ _ _ h₁
    cases hset
    obtain ⟨ih1, ih2⟩ := ih _ _ h₂
    constructor
    · intro x hx
      rcases ih1 x hx with h' | h'
      · rcases (akeys_aset_mem init pvm x _).1 h' with h'' | h''
        · exact Or.inl h''
        · exact Or.inr (by rw [h'']; exact List.mem_cons_self _ _)
      · exact Or.inr (List.mem_cons_of_mem _ h')
    · intro hnd
      exact ih2 (akeys_aset_nodup hnd _ _)

/-- Detail shape of a create event's translation by `netEventOf`. -/
theorem netEventOf_create_conn {vm2vdc : List (String × String)}
    {vm_peers : List (String × List String)} {coresDict : List (String × ℚ)}
    {band : ℤ} {vdc vm : String} {cores ram : ℚ} {ne : NetEvent}
    (h : netEventOf vm2vdc vm_peers coresDict band (Event.create vdc vm cores ram) =
      Except.ok ne) :
    ∃ p peers conn, alookup vm2vdc vm = some p ∧ alookup vm_peers vm = some peers ∧
      ne = NetEvent.create p vm cores ram conn ∧
      (∀ kv ∈ conn, kv.1 ∈ peers) ∧ (akeys conn).Nodup := by
  simp only [netEventOf] at h
  obtain ⟨p, hp, h1⟩ := except_bind_ok _ _ _ h
  obtain ⟨peers, hpe, h2⟩ := except_bind_ok _ _ _ h1
  obtain ⟨conn, hconn, hok⟩ := except_bind_ok _ _ _ h2
  cases hok
  obtain ⟨hk1, hk2⟩ := connFold_keys peers [] conn hconn
  refine ⟨p, peers, conn, lookupE_ok hp, lookupE_ok hpe, rfl, ?_, ?_⟩
  · intro kv hkv
    have : kv.1 ∈ akeys conn := List.mem_map_of_mem _ hkv
    rcases hk1 kv.1 this with h' | h'
    · cases h'
    · exact h'
  · exact hk2 (by constructor)

/-- The vm uuid is preserved by `netEventOf`. -/
theorem netEventOf_vm {vm2vdc : List (String × String)}
    {vm_peers : List (String × List String)} {coresDict : List (String × ℚ)}
    {band : ℤ} {e : Event} {ne : NetEvent}
    (h : netEventOf vm2vdc vm_peers coresDict band e = Except.ok ne) :
    NetEvent.vm ne = Event.vm e := by
  match e with
  | Event.delete dvdc dvm =>
    simp only [netEventOf] at h
    obtain ⟨p, hp, hok⟩ := except_bind_ok _ _ _ h
    cases hok
    rfl
  | Event.create cvdc cvm ccores cram =>
    simp only [netEventOf] at h
    obtain ⟨p, hp, h1⟩ := except_bind_ok _ _ _ h
    obtain ⟨peers, hpe, h2⟩ := except_bind_ok _ _ _ h1
    obtain ⟨conn, hconn, hok⟩ := except_bind_ok _ _ _ h2
    cases hok
    rfl

/-- A delete net event comes from a delete event. -/
theorem netEventOf_delete_src {vm2vdc : List (String × String)}
    {vm_peers : List (String × List String)} {coresDict : List (String × ℚ)}
    {band : ℤ} {e : Event} {p vm : String}
    (h : netEventOf vm2vdc vm_peers coresDict band e = Except.ok (NetEvent.delete p vm)) :
    ∃ vdc, e = Event.delete vdc vm := by
  match e with
  | Event.delete dvdc dvm =>
    simp only [netEventOf] at h
    obtain ⟨q, hq, hok⟩ := except_bind_ok _ _ _ h
    cases hok
    exact ⟨dvdc, rfl⟩
  | Event.create cvdc cvm ccores cram =>
    simp only [netEventOf] at h
    obtain ⟨q, hq, h1⟩ := except_bind_ok _ _ _ h
    obtain ⟨peers, hpe, h2⟩ := except_bind_ok _ _ _ h1
    obtain ⟨conn, hconn, hok⟩ := except_bind_ok _ _ _ h2
    cases hok

/-- A create net event comes from a create event with the same vm and cores. -/
theorem netEventOf_create_src {vm2vdc : List (String × String)}
    {vm_peers : List (String × List String)} {coresDict : List (String × ℚ)}
    {band : ℤ} {e : Event} {p vm : String} {cores ram : ℚ} {conn : List (String × ℤ)}
    (h : netEventOf vm2vdc vm_peers coresDict band e =
      Except.ok (NetEvent.create p vm cores ram conn)) :
    ∃ vdc, e = Event.create vdc vm cores ram := by
  match e with
  | Event.delete dvdc dvm =>
    simp only [netEventOf] at h
    obtain ⟨q, hq, hok⟩ := except_bind_ok _ _ _ h
    cases hok
  | Event.create cvdc cvm ccores cram =>
    simp only [netEventOf] at h
    obtain ⟨q, hq, h1⟩ := except_bind_ok _ _ _ h
    obtain ⟨peers, hpe, h2⟩ := except_bind_ok _ _ _ h1
    obtain ⟨conn', hconn, hok⟩ := except_bind_ok _ _ _ h2
    cases hok
    exact ⟨cvdc, rfl⟩

theorem forall₂_mem_left {α β : Type} {R : α → β → Prop} {l : List α} {l' : List β}
    {a : α} (h : List.Forall₂ R l l') (ha : a ∈ l) : ∃ b ∈ l', R a b := by
  induction h with
  | nil => cases ha
  | cons hr _ ih =>
    rcases List.mem_cons.1 ha with rfl | ha'
    · exact ⟨_, List.mem_cons_self _ _, hr⟩
    · obtain ⟨b, hb, hbr⟩ := ih ha'
      exact ⟨b, List.mem_cons_of_mem _ hb, hbr⟩

theorem forall₂_pairwise {α β : Type} {R : α → β → Prop} {S : α → α → Prop}
    {T : β → β → Prop} {l : List α} {l' : List β} (hf : List.Forall₂ R l l')
    (hp : l.Pairwise S)
    (himp : ∀ a b a' b', R a a' → R b b' → S a b → T a' b') :
    l'.Pairwise T := by
  induction hf with
  | nil => exact List.Pairwise.nil
  | cons hr hf ih =>
    obtain ⟨hhead, htail⟩ := List.pairwise_cons.1 hp
    refine List.pairwise_cons.2 ⟨?_, ih htail⟩
    intro b' hb'
    obtain ⟨b, hb, hrb⟩ := forall₂_mem_right hf hb'
    exact himp _ _ _ _ hr hrb (hhead b hb)

theorem forall₂_map_eq {α β γ : Type} {R : α → β → Prop} {f : α → γ} {g : β → γ}
    {l : List α} {l' : List β} (h : List.Forall₂ R l l')
    (hfg : ∀ a b, R a b → g b = f a) : l'.map g = l.map f := by
  induction h with
  | nil => rfl
  | cons hr hf ih =>
    rw [List.map_cons, List.map_cons, ih, hfg _ _ hr]

theorem forall₂_decomp_right {α β : Type} {R : α → β → Prop} :
    ∀ {l : List α} {l' b₁ b₂ : List β} {y : β}, List.Forall₂ R l l' →
      l' = b₁ ++ y :: b₂ →
      ∃ a₁ x a₂, l = a₁ ++ x :: a₂ ∧ List.Forall₂ R a₁ b₁ ∧ R x y ∧
        List.Forall₂ R a₂ b₂ := by
  intro l l' b₁
  induction b₁ generalizing l l' with
  | nil =>
    intro b₂ y hf hsp
    subst hsp
    cases hf with
    | cons hr hf' =>
      rename_i x l₀
      exact ⟨[], _, _, rfl, List.Forall₂.nil, hr, hf'⟩
  | cons b b₁ ih =>
    intro b₂ y hf hsp
    subst hsp
    cases hf with
    | cons hr hf' =>
      obtain ⟨a₁, x, a₂, hsp', h₁, hxy, h₂⟩ := ih hf' rfl
      rename_i a l₀
      exact ⟨a :: a₁, x, a₂, by rw [hsp']; rfl, List.Forall₂.cons hr h₁, hxy, h₂⟩

theorem mem_microOfTick {nl : List NetEvent} {m : Micro} :
    m ∈ microOfTick nl ↔ ∃ ne, ne ∈ nl ∧ m ∈ microOfNet ne := by
  unfold microOfTick
  rw [List.mem_join]
  constructor
  · rintro ⟨l, hl, hm⟩
    obtain ⟨ne, hne, rfl⟩ := List.mem_map.1 hl
    exact ⟨ne, hne, hm⟩
  · rintro ⟨ne, hne, hm⟩
    exact ⟨microOfNet ne, List.mem_map_of_mem _ hne, hm⟩

theorem mem_microOfW {w : List (String × List NetEvent)} {m : Micro} :
    m ∈ microOfW w ↔ ∃ tl, tl ∈ w ∧ m ∈ microOfTick tl.2 := by
  unfold microOfW
  rw [List.mem_join]
  constructor
  · rintro ⟨l, hl, hm⟩
    obtain ⟨tl, htl, rfl⟩ := List.mem_map.1 hl
    exact ⟨tl, htl, hm⟩
  · rintro ⟨tl, htl, hm⟩
    exact ⟨microOfTick tl.2, List.mem_map_of_mem _ htl, hm⟩

theorem entry_of_mem_microOfNet {ne : NetEvent} {u a : String}
    (h : Micro.entry u a ∈ microOfNet ne) :
    ∃ p c r conn, ne = NetEvent.create p u c r conn ∧ ∃ x, (a, x) ∈ conn := by
  match ne with
  | NetEvent.create p vm c r conn =>
    obtain ⟨kv, hkv, heq⟩ := List.mem_map.1 h
    have h1 : vm = u := congrArg microSubject heq
    have h2 : kv.1 = a := by
      cases heq
      rfl
    subst h1
    refine ⟨p, c, r, conn, rfl, kv.2, ?_⟩
    rw [← h2, Prod.mk.eta]
    exact hkv
  | NetEvent.delete p vm =>
    cases List.mem_singleton.1 h

theorem del_of_mem_microOfNet {ne : NetEvent} {v : String}
    (h : Micro.del v ∈ microOfNet ne) : ∃ p, ne = NetEvent.delete p v := by
  match ne with
  | NetEvent.create p vm c r conn =>
    obtain ⟨kv, hkv, heq⟩ := List.mem_map.1 h
    cases heq
  | NetEvent.delete p vm =>
    have := List.mem_singleton.1 h
    cases this
    exact ⟨p, rfl⟩

theorem microOfW_prefix {w : List (String × List NetEvent)} :
    ∀ {done rest : List Micro} {m x : Micro},
      microOfW w = done ++ m :: rest → x ∈ done →
      ∃ w₁ tl w₂, w = w₁ ++ tl :: w₂ ∧ m ∈ microOfTick tl.2 ∧
        (x ∈ microOfTick tl.2 ∨ ∃ tlx, tlx ∈ w₁ ∧ x ∈ microOfTick tlx.2) := by
  induction w with
  | nil =>
    intro done rest m x h hx
    have hlen := congrArg List.length h
    rw [List.length_append, List.length_cons] at hlen
    have : microOfW ([] : List (String × List NetEvent)) = [] := rfl
    rw [this] at hlen
    simp only [List.length_nil] at hlen
    omega
  | cons tl w ih =>
    intro done rest m x h hx
    have hsplit : microOfTick tl.2 ++ microOfW w = done ++ m :: rest := h
    rcases List.append_eq_append_iff.1 hsplit with ⟨a', hd, hw⟩ | ⟨c', hc, hm⟩
    · -- done = chunk ++ a', microOfW w = a' ++ m :: rest
      have hmw : m ∈ microOfW w := by
        rw [hw]
        exact List.mem_append.2 (Or.inr (List.mem_cons_self _ _))
      rw [hd] at hx
      rcases List.mem_append.1 hx with hx' | hx'
      · -- x in this tick's chunk; m is in a later tick
        obtain ⟨tl', htl', hm'⟩ := mem_microOfW.1 hmw
        obtain ⟨s, t, hst⟩ := List.append_of_mem htl'
        refine ⟨tl :: s, tl', t, by rw [hst]; rfl, hm', Or.inr ⟨tl, List.mem_cons_self _ _, hx'⟩⟩
      · obtain ⟨w₁, tl', w₂, hw', hm', hx''⟩ := ih hw hx'
        refine ⟨tl :: w₁, tl', w₂, by rw [hw']; rfl, hm', ?_⟩
        rcases hx'' with h' | ⟨tlx, h1, h2⟩
        · exact Or.inl h'
        · exact Or.inr ⟨tlx, List.mem_cons_of_mem _ h1, h2⟩
    · -- chunk = done ++ c', m :: rest = c' ++ microOfW w
      match c', hm with
      | [], hm =>
        have hmw : m ∈ microOfW w := by
          have hm' : m :: rest = microOfW w := hm
          rw [← hm']
          exact List.mem_cons_self _ _
        have hx' : x ∈ microOfTick tl.2 := by
          rw [hc]
          exact List.mem_append.2 (Or.inl hx)
        obtain ⟨tl', htl', hm'⟩ := mem_microOfW.1 hmw
        obtain ⟨s, t, hst⟩ := List.append_of_mem htl'
        refine ⟨tl :: s, tl', t, by rw [hst]; rfl, hm', Or.inr ⟨tl, List.mem_cons_self _ _, hx'⟩⟩
      | m' :: c'', hm =>
        have hmm : m = m' := (List.cons.inj hm).1
        subst hmm
        refine ⟨[], tl, w, rfl, ?_, Or.inl ?_⟩
        · rw [hc]
          exact List.mem_append.2 (Or.inr (List.mem_cons_self _ _))
        · rw [hc]
          exact List.mem_append.2 (Or.inl hx)

/-! ### The pipeline workload satisfies the micro well-formedness conditions -/

/-- The core count the verifier-side model reads off the cores dict. -/
def coresOf (events : EventList) (v : String) : ℚ :=
  (alookup (vmCoresDict events) v).getD 1

/-- The bandwidth the network synthesis assigns to an ordered pair. -/
def Wof (events : EventList) (band : ℤ) (u a : String) : ℤ :=
  pyIntTrunc (band * pymin (coresOf events u) (coresOf events a))

theorem Wof_comm (events : EventList) (band : ℤ) (u a : String) :
    Wof events band u a = Wof events band a u := by
  unfold Wof
  rw [pymin_comm]

/-- `a` is recorded as a peer of `u`. -/
def peersRel (pe : List (String × List String)) (u a : String) : Prop :=
  ∃ lv, alookup pe u = some lv ∧ a ∈ lv

theorem batched_mem_row {N : ℕ} {rows : List Row} {out : EventList}
    (hvm : (rows.map Row.vm_uuid).Nodup) (hsan : sanitize N rows = Except.ok out)
    {tl : ℕ × List Event} (htl : tl ∈ batch_vdcs out) {e : Event} (he : e ∈ tl.2) :
    ∃ r ∈ rows, r.create_time ≠ r.delete_time ∧ e ∈ rowEventsAt tl.1 r := by
  obtain ⟨l, hlt, hne, hbt⟩ := mem_batch_vdcs htl
  have hperm := batchTick_perm_of_nodup_keys
    (keys_nodup_of_vm_nodup (out_tick_vm_nodup hvm hsan hlt))
  rw [hbt] at he
  exact sanitize_mem_event hsan hlt (hperm.mem_iff.1 he)

theorem batched_create_cores {N : ℕ} {rows : List Row} {out : EventList}
    (hvm : (rows.map Row.vm_uuid).Nodup) (hsan : sanitize N rows = Except.ok out)
    (hcores : ∀ r ∈ rows, 1 ≤ r.cores)
    {tl : ℕ × List Event} (htl : tl ∈ batch_vdcs out) {vdc u : String} {c ra : ℚ}
    (he : Event.create vdc u c ra ∈ tl.2) : 1 ≤ c := by
  obtain ⟨r, hr, hsurv, her⟩ := batched_mem_row hvm hsan htl he
  rcases (rowEventsAt_cases her).2 with ⟨-, heq⟩ | ⟨-, heq⟩
  · cases heq
    exact hcores r hr
  · cases heq

theorem created_dict_cores {N : ℕ} {rows : List Row} {out : EventList}
    (hvm : (rows.map Row.vm_uuid).Nodup) (hsan : sanitize N rows = Except.ok out)
    (hcores : ∀ r ∈ rows, 1 ≤ r.cores)
    (hnd : (vmCreates (flatTicks (batch_vdcs out))).Nodup) {u : String}
    (hc : createdIn (flatTicks (batch_vdcs out)) u) :
    ∃ c, alookup (vmCoresDict (batch_vdcs out)) u = some c ∧ 1 ≤ c := by
  obtain ⟨e, he, vdc, c, ra, rfl⟩ := hc
  obtain ⟨tl, htl, he'⟩ := mem_flatTicks.1 he
  exact ⟨c, vmCoresDict_lookup hnd htl he',
    batched_create_cores hvm hsan hcores htl he'⟩

theorem coresOf_created {N : ℕ} {rows : List Row} {out : EventList}
    (hvm : (rows.map Row.vm_uuid).Nodup) (hsan : sanitize N rows = Except.ok out)
    (hcores : ∀ r ∈ rows, 1 ≤ r.cores)
    (hnd : (vmCreates (flatTicks (batch_vdcs out))).Nodup) {u : String}
    (hc : createdIn (flatTicks (batch_vdcs out)) u) :
    1 ≤ coresOf (batch_vdcs out) u := by
  obtain ⟨c, hlook, hge⟩ := created_dict_cores hvm hsan hcores hnd hc
  unfold coresOf
  rw [hlook]
  exact hge

theorem create_has_delete_batch {N : ℕ} {rows : List Row} {out : EventList}
    (hvm : (rows.map Row.vm_uuid).Nodup) (hsan : sanitize N rows = Except.ok out)
    {tl : ℕ × List Event} (htl : tl ∈ batch_vdcs out) {u : String}
    (hu : u ∈ vmCreates tl.2) :
    ∃ tl', tl' ∈ batch_vdcs out ∧ u ∈ vmDeletes tl'.2 := by
  obtain ⟨l, hlt, hne, hbt⟩ := mem_batch_vdcs htl
  have hperm := batchTick_perm_of_nodup_keys
    (keys_nodup_of_vm_nodup (out_tick_vm_nodup hvm hsan hlt))
  rw [hbt] at hu
  have hu' : u ∈ vmCreates l := (hperm.filterMap _).mem_iff.1 hu
  obtain ⟨r, hr, hveq, hsurv, -⟩ := create_in_out_tick hsan hlt hu'
  obtain ⟨-, hvlt, -, hexd⟩ := sanitize_conds hsan r hr hsurv
  obtain ⟨i, hiN, hdtv⟩ := hexd
  have hedrow : Event.delete r.vdc_uuid r.vm_uuid ∈
      rowEventsAt (validate_event_time r.delete_time) r := by
    unfold rowEventsAt
    rw [if_neg hsurv, if_neg (Nat.ne_of_lt hvlt), if_pos rfl]
    exact List.mem_singleton_self _
  have heds : Event.delete r.vdc_uuid r.vm_uuid ∈
      sanitizedEventsAt rows (validate_event_time r.delete_time) :=
    mem_sanitizedEventsAt_of hr hedrow
  have hmemout : (validate_event_time r.delete_time,
      sanitizedEventsAt rows (validate_event_time r.delete_time)) ∈ out := by
    rw [sanitize_struct hsan]
    refine List.mem_map.2 ⟨i, List.mem_range.2 hiN, ?_⟩
    rw [← hdtv]
  have hlne : sanitizedEventsAt rows (validate_event_time r.delete_time) ≠ [] :=
    List.ne_nil_of_mem heds
  have hmem_f : (validate_event_time r.delete_time,
      sanitizedEventsAt rows (validate_event_time r.delete_time)) ∈
      out.filter (fun tl => !tl.2.isEmpty) := by
    refine List.mem_filter.2 ⟨hmemout, ?_⟩
    simp [hlne]
  refine ⟨(validate_event_time r.delete_time,
    batchTick (sanitizedEventsAt rows (validate_event_time r.delete_time))), ?_, ?_⟩
  · rw [batch_vdcs_eq]
    exact List.mem_map.2 ⟨_, hmem_f, rfl⟩
  · have hperm' := batchTick_perm_of_nodup_keys
      (keys_nodup_of_vm_nodup (out_tick_vm_nodup hvm hsan hmemout))
    show u ∈ vmDeletes (batchTick (sanitizedEventsAt rows
      (validate_event_time r.delete_time)))
    refine (hperm'.filterMap _).mem_iff.2 ?_
    rw [hveq]
    exact mem_vmDeletes.2 ⟨_, heds, r.vdc_uuid, rfl⟩

theorem creates_pairwise_disjoint {events : EventList}
    (hnd : (vmCreates (flatTicks events)).Nodup) :
    events.Pairwise (fun A B => ∀ u, u ∈ vmCreates A.2 → u ∉ vmCreates B.2) := by
  have h1 : flatTicks events = (events.map Prod.snd).join := rfl
  rw [h1, vmCreates_join, List.map_map] at hnd
  have h2 := (List.nodup_flatten.1 hnd).2
  rw [List.pairwise_map] at h2
  refine h2.imp ?_
  intro A B hAB u hu1 hu2
  exact hAB hu1 hu2

theorem deletes_pairwise_disjoint {events : EventList}
    (hnd : (vmDeletes (flatTicks events)).Nodup) :
    events.Pairwise (fun A B => ∀ u, u ∈ vmDeletes A.2 → u ∉ vmDeletes B.2) := by
  have h1 : flatTicks events = (events.map Prod.snd).join := rfl
  rw [h1, vmDeletes_join, List.map_map] at hnd
  have h2 := (List.nodup_flatten.1 hnd).2
  rw [List.pairwise_map] at h2
  refine h2.imp ?_
  intro A B hAB u hu1 hu2
  exact hAB hu1 hu2

theorem vmCreates_unique_split {events : EventList}
    (hnd : (vmCreates (flatTicks events)).Nodup) {p : EventList} {A : ℕ × List Event}
    {q : EventList} (hsp : events = p ++ A :: q) {u : String}
    (huA : u ∈ vmCreates A.2) {B : ℕ × List Event} (hB : B ∈ events)
    (huB : u ∈ vmCreates B.2) : B = A := by
  have hpw := creates_pairwise_disjoint hnd
  rw [hsp] at hpw hB
  obtain ⟨hp, hAq, hcross⟩ := List.pairwise_append.1 hpw
  obtain ⟨hhead, -⟩ := List.pairwise_cons.1 hAq
  rcases List.mem_append.1 hB with hB' | hB'
  · exact absurd huA (hcross B hB' A (List.mem_cons_self _ _) u huB)
  · rcases List.mem_cons.1 hB' with rfl | hB''
    · rfl
    · exact absurd huB (hhead B hB'' u huA)

theorem batched_tick_vm_nodup {N : ℕ} {rows : List Row} {out : EventList}
    (hvm : (rows.map Row.vm_uuid).Nodup) (hsan : sanitize N rows = Except.ok out)
    {tl : ℕ × List Event} (htl : tl ∈ batch_vdcs out) :
    (tl.2.map Event.vm).Nodup := by
  obtain ⟨l, hlt, hne, hbt⟩ := mem_batch_vdcs htl
  have hvnd := out_tick_vm_nodup hvm hsan hlt
  have hperm := batchTick_perm_of_nodup_keys (keys_nodup_of_vm_nodup hvnd)
  rw [hbt]
  exact ((hperm.map Event.vm).symm).nodup hvnd

/-- Relation between a batched tick and its networked form. -/
def NetRel (v2 : List (String × String)) (pe : List (String × List String))
    (cd : List (String × ℚ)) (band : ℤ)
    (tl : ℕ × List Event) (ntl : String × List NetEvent) : Prop :=
  tl.2 ≠ [] ∧ List.Forall₂
    (fun e ne => netEventOf v2 pe cd band e = Except.ok ne) tl.2 ntl.2

theorem add_network_netRel {events : EventList} {v2 : List (String × String)}
    {pe : List (String × List String)} {band : ℤ}
    {w : List (String × List NetEvent)}
    (h : add_network events v2 pe band = Except.ok w) :
    List.Forall₂ (NetRel v2 pe (vmCoresDict events) band) events w := by
  have hf := mapM_ok_forall₂ _ _ _ h
  refine hf.imp ?_
  intro tl ntl hrelt
  obtain ⟨hne, nevs, hmap, hid⟩ := add_network_tick_ok hrelt
  rw [hid]
  exact ⟨hne, mapM_ok_forall₂ _ _ _ hmap⟩

theorem netRel_entry_src {v2 : List (String × String)}
    {pe : List (String × List String)} {cd : List (String × ℚ)} {band : ℤ}
    {tl : ℕ × List Event} {ntl : String × List NetEvent}
    (h : NetRel v2 pe cd band tl ntl) {u a : String}
    (hm : Micro.entry u a ∈ microOfTick ntl.2) :
    ∃ vdc c r, Event.create vdc u c r ∈ tl.2 ∧
      ∃ peers, alookup pe u = some peers ∧ a ∈ peers := by
  obtain ⟨ne, hne, hmm⟩ := mem_microOfTick.1 hm
  obtain ⟨p, c, r, conn, rfl, x, hx⟩ := entry_of_mem_microOfNet hmm
  obtain ⟨e, he, hok⟩ := forall₂_mem_right h.2 hne
  obtain ⟨vdc, rfl⟩ := netEventOf_create_src hok
  obtain ⟨p', peers, conn', hp', hpe', hshape, hkeys, -⟩ := netEventOf_create_conn hok
  cases hshape
  exact ⟨vdc, c, r, he, peers, hpe', hkeys (a, x) hx⟩

theorem netRel_del_src {v2 : List (String × String)}
    {pe : List (String × List String)} {cd : List (String × ℚ)} {band : ℤ}
    {tl : ℕ × List Event} {ntl : String × List NetEvent}
    (h : NetRel v2 pe cd band tl ntl) {v : String}
    (hm : Micro.del v ∈ microOfTick ntl.2) :
    ∃ vdc, Event.delete vdc v ∈ tl.2 := by
  obtain ⟨ne, hne, hmm⟩ := mem_microOfTick.1 hm
  obtain ⟨p, rfl⟩ := del_of_mem_microOfNet hmm
  obtain ⟨e, he, hok⟩ := forall₂_mem_right h.2 hne
  obtain ⟨vdc, rfl⟩ := netEventOf_delete_src hok
  exact ⟨vdc, he⟩

theorem netRel_del_dst {v2 : List (String × String)}
    {pe : List (String × List String)} {cd : List (String × ℚ)} {band : ℤ}
    {tl : ℕ × List Event} {ntl : String × List NetEvent}
    (h : NetRel v2 pe cd band tl ntl) {vdc v : String}
    (he : Event.delete vdc v ∈ tl.2) : Micro.del v ∈ microOfTick ntl.2 := by
  obtain ⟨ne, hne, hok⟩ := forall₂_mem_left h.2 he
  obtain ⟨p, -, rfl⟩ := (netEventOf_ok_rel hok).1 vdc v rfl
  refine mem_microOfTick.2 ⟨NetEvent.delete p v, hne, ?_⟩
  exact List.mem_singleton_self _

theorem netRel_micro_nodup {v2 : List (String × String)}
    {pe : List (String × List String)} {cd : List (String × ℚ)} {band : ℤ}
    {tl : ℕ × List Event} {ntl : String × List NetEvent}
    (h : NetRel v2 pe cd band tl ntl)
    (hvmnd : (tl.2.map Event.vm).Nodup) : (microOfTick ntl.2).Nodup := by
  unfold microOfTick
  refine List.nodup_flatten.2 ⟨?_, ?_⟩
  · intro l' hl'
    obtain ⟨ne, hne, rfl⟩ := List.mem_map.1 hl'
    match ne with
    | NetEvent.delete p vm =>
      show ([Micro.del vm] : List Micro).Nodup
      simp
    | NetEvent.create p vm c r conn =>
      obtain ⟨e, he, hok⟩ := forall₂_mem_right h.2 hne
      obtain ⟨vdc, rfl⟩ := netEventOf_create_src hok
      obtain ⟨p', peers, conn', hp', hpe', hshape, hkeys, hknd⟩ :=
        netEventOf_create_conn hok
      cases hshape
      show (conn.map (fun kv => Micro.entry vm kv.1)).Nodup
      have hmm2 : conn.map (fun kv => Micro.entry vm kv.1) =
          (akeys conn).map (fun x => Micro.entry vm x) := by
        unfold akeys
        rw [List.map_map]
        rfl
      rw [hmm2]
      refine List.Nodup.map ?_ hknd
      intro x y hxy
      exact (Micro.entry.inj hxy).2
  · rw [List.pairwise_map]
    have hpw : tl.2.Pairwise (fun a b => Event.vm a ≠ Event.vm b) := by
      have := hvmnd
      rw [List.Nodup, List.pairwise_map] at this
      exact this
    refine forall₂_pairwise h.2 hpw ?_
    intro e e' ne ne' hok hok' hne
    intro m hm hm'
    apply hne
    rw [← netEventOf_vm hok, ← netEventOf_vm hok',
      ← microSubject_of_mem hm, ← microSubject_of_mem hm']

/-- The micro stream of the pipeline's networked workload is well-formed. -/
theorem microWF_pipeline {N : ℕ} {rows : List Row} {out : EventList} {band : ℤ}
    {s : ChopState} {w : List (String × List NetEvent)}
    (hvm : (rows.map Row.vm_uuid).Nodup)
    (hsan : sanitize N rows = Except.ok out)
    (hwf : ChopWF (batch_vdcs out))
    (hinv : TickInv (batch_vdcs out) s)
    (hrel : List.Forall₂
      (NetRel s.vm2vdc s.vm_peers (vmCoresDict (batch_vdcs out)) band)
      (batch_vdcs out) w) :
    MicroWF (peersRel s.vm_peers) (microOfW w) := by
  have hndc := hwf.creates_nodup
  have hndd := hwf.deletes_nodup
  refine ⟨?_, ?_, ?_, ?_⟩
  · -- nodup
    unfold microOfW
    refine List.nodup_flatten.2 ⟨?_, ?_⟩
    · intro l' hl'
      obtain ⟨ntl, hntl, rfl⟩ := List.mem_map.1 hl'
      obtain ⟨tl, htl, hr⟩ := forall₂_mem_right hrel hntl
      exact netRel_micro_nodup hr (batched_tick_vm_nodup hvm hsan htl)
    · rw [List.pairwise_map]
      have hS : (batch_vdcs out).Pairwise (fun A B =>
          (∀ u, u ∈ vmCreates A.2 → u ∉ vmCreates B.2) ∧
          (∀ u, u ∈ vmDeletes A.2 → u ∉ vmDeletes B.2)) :=
        (creates_pairwise_disjoint hndc).and (deletes_pairwise_disjoint hndd)
      refine forall₂_pairwise hrel hS ?_
      intro A B ntlA ntlB hrA hrB hS'
      intro m hmA hmB
      match m with
      | Micro.entry u a =>
        obtain ⟨vdcA, cA, rA, heA, -⟩ := netRel_entry_src hrA hmA
        obtain ⟨vdcB, cB, rB, heB, -⟩ := netRel_entry_src hrB hmB
        exact hS'.1 u (mem_vmCreates.2 ⟨_, heA, vdcA, cA, rA, rfl⟩)
          (mem_vmCreates.2 ⟨_, heB, vdcB, cB, rB, rfl⟩)
      | Micro.del v =>
        obtain ⟨vdcA, heA⟩ := netRel_del_src hrA hmA
        obtain ⟨vdcB, heB⟩ := netRel_del_src hrB hmB
        exact hS'.2 v (mem_vmDeletes.2 ⟨_, heA, vdcA, rfl⟩)
          (mem_vmDeletes.2 ⟨_, heB, vdcB, rfl⟩)
  · -- pr
    intro u a hm
    obtain ⟨ntl, hntl, hmt⟩ := mem_microOfW.1 hm
    obtain ⟨tl, htl, hr⟩ := forall₂_mem_right hrel hntl
    obtain ⟨vdc, c, r, he, peers, hpe, hap⟩ := netRel_entry_src hr hmt
    refine ⟨⟨peers, hpe, hap⟩, ?_⟩
    obtain ⟨pre, tlc, post, hdec, hcre, p, hp, hiff⟩ := hinv.peers_spec u peers hpe
    exact fun hh => ((hiff a).1 hap).1 hh.symm
  · -- del_after
    intro done rest u a hsp
    have hfact : ∀ x ∈ done, ∃ w₁ ntl w₂, w = w₁ ++ ntl :: w₂ ∧
        Micro.entry u a ∈ microOfTick ntl.2 ∧
        (x ∈ microOfTick ntl.2 ∨ ∃ ntlx, ntlx ∈ w₁ ∧ x ∈ microOfTick ntlx.2) :=
      fun x hx => microOfW_prefix hsp hx
    constructor
    · intro hdu
      obtain ⟨w₁, ntl, w₂, hwsp, hmt, hx⟩ := hfact _ hdu
      obtain ⟨E₁, etl, E₂, hesp, hf₁, hr, hf₂⟩ := forall₂_decomp_right hrel hwsp
      obtain ⟨vdcU, cU, rU, heU, -⟩ := netRel_entry_src hr hmt
      have huC : u ∈ vmCreates etl.2 := mem_vmCreates.2 ⟨_, heU, vdcU, cU, rU, rfl⟩
      have hdel_facts : ∃ etlx, etlx ∈ batch_vdcs out ∧ u ∈ vmDeletes etlx.2 ∧
          etlx.1 ≤ etl.1 := by
        rcases hx with hx' | ⟨ntlx, hntlx, hx'⟩
        · obtain ⟨vdcD, heD⟩ := netRel_del_src hr hx'
          refine ⟨etl, ?_, mem_vmDeletes.2 ⟨_, heD, vdcD, rfl⟩, le_refl _⟩
          rw [hesp]
          exact List.mem_append.2 (Or.inr (List.mem_cons_self _ _))
        · obtain ⟨etlx, hetlx, hrx⟩ := forall₂_mem_right hf₁ hntlx
          obtain ⟨vdcD, heD⟩ := netRel_del_src hrx hx'
          have hkey : etlx.1 < etl.1 := by
            have hpw := hwf.keys_mono
            rw [hesp] at hpw
            exact (List.pairwise_append.1 hpw).2.2 etlx hetlx etl
              (List.mem_cons_self _ _)
          refine ⟨etlx, ?_, mem_vmDeletes.2 ⟨_, heD, vdcD, rfl⟩, le_of_lt hkey⟩
          rw [hesp]
          exact List.mem_append.2 (Or.inl hetlx)
      obtain ⟨etlx, hetlxB, huD, hle⟩ := hdel_facts
      obtain ⟨tlD, htlD, hltD, hcreD⟩ := hwf.delete_has_earlier_create etlx hetlxB u huD
      have heq : tlD = etl := vmCreates_unique_split hndc hesp huC htlD hcreD
      rw [heq] at hltD
      omega
    · intro hda
      obtain ⟨w₁, ntl, w₂, hwsp, hmt, hx⟩ := hfact _ hda
      obtain ⟨E₁, etl, E₂, hesp, hf₁, hr, hf₂⟩ := forall₂_decomp_right hrel hwsp
      obtain ⟨vdcU, cU, rU, heU, peers, hpe, hap⟩ := netRel_entry_src hr hmt
      have huC : u ∈ vmCreates etl.2 := mem_vmCreates.2 ⟨_, heU, vdcU, cU, rU, rfl⟩
      obtain ⟨pre, tlc, post, hdec, hcre, p, hp, hiff⟩ := hinv.peers_spec u peers hpe
      have hnotdel : ¬ deletedUpTo (batch_vdcs out) tlc.1 a := by
        have h1 := ((hiff a).1 hap).2.2.2
        rw [deletedUpTo_iff_split hwf.keys_mono hdec a] at h1
        exact h1
      have htlceq : tlc = etl := by
        refine vmCreates_unique_split hndc hesp huC ?_ (mem_vmCreates.2 hcre)
        rw [hdec]
        exact List.mem_append.2 (Or.inr (List.mem_cons_self _ _))
      have hdel_facts : ∃ etlx, etlx ∈ batch_vdcs out ∧ deletedIn etlx.2 a ∧
          etlx.1 ≤ etl.1 := by
        rcases hx with hx' | ⟨ntlx, hntlx, hx'⟩
        · obtain ⟨vdcD, heD⟩ := netRel_del_src hr hx'
          refine ⟨etl, ?_, ⟨_, heD, vdcD, rfl⟩, le_refl _⟩
          rw [hesp]
          exact List.mem_append.2 (Or.inr (List.mem_cons_self _ _))
        · obtain ⟨etlx, hetlx, hrx⟩ := forall₂_mem_right hf₁ hntlx
          obtain ⟨vdcD, heD⟩ := netRel_del_src hrx hx'
          have hkey : etlx.1 < etl.1 := by
            have hpw := hwf.keys_mono
            rw [hesp] at hpw
            exact (List.pairwise_append.1 hpw).2.2 etlx hetlx etl
              (List.mem_cons_self _ _)
          refine ⟨etlx, ?_, ⟨_, heD, vdcD, rfl⟩, le_of_lt hkey⟩
          rw [hesp]
          exact List.mem_append.2 (Or.inl hetlx)
      obtain ⟨etlx, hetlxB, haD, hle⟩ := hdel_facts
      refine hnotdel ⟨etlx, hetlxB, ?_, haD⟩
      rw [htlceq]
      exact hle
  · -- fired_deleted
    intro u a hm
    obtain ⟨ntl, hntl, hmt⟩ := mem_microOfW.1 hm
    obtain ⟨tl, htl, hr⟩ := forall₂_mem_right hrel hntl
    obtain ⟨vdc, c, r, he, peers, hpe, hap⟩ := netRel_entry_src hr hmt
    have hdelmem : ∀ v tl', tl' ∈ batch_vdcs out → v ∈ vmDeletes tl'.2 →
        Micro.del v ∈ microOfW w := by
      intro v tl' htl' hv
      obtain ⟨ntl', hntl', hr'⟩ := forall₂_mem_left hrel htl'
      obtain ⟨e', he', vdc', rfl⟩ := mem_vmDeletes.1 hv
      exact mem_microOfW.2 ⟨ntl', hntl', netRel_del_dst hr' he'⟩
    constructor
    · have huC : u ∈ vmCreates tl.2 := mem_vmCreates.2 ⟨_, he, vdc, c, r, rfl⟩
      obtain ⟨tl', htl', hud⟩ := create_has_delete_batch hvm hsan htl huC
      exact hdelmem u tl' htl' hud
    · obtain ⟨pre, tlc, post, hdec, hcre, p, hp, hiff⟩ := hinv.peers_spec u peers hpe
      have hav2 : alookup s.vm2vdc a = some p := ((hiff a).1 hap).2.1
      have hacre : createdIn (flatTicks (batch_vdcs out)) a :=
        hinv.inv.toChopInv.vm2vdc_created a p hav2
      obtain ⟨e', he', vdc', c', r', rfl⟩ := hacre
      obtain ⟨tlA, htlA, heA⟩ := mem_flatTicks.1 he'
      have haC : a ∈ vmCreates tlA.2 := mem_vmCreates.2 ⟨_, heA, vdc', c', r', rfl⟩
      obtain ⟨tl', htl', had⟩ := create_has_delete_batch hvm hsan htlA haC
      exact hdelmem a tl' htl' had

/-- Every connection value in the networked workload is the `Wof` bandwidth of
its ordered pair of endpoints. -/
theorem connValues_pipeline {out : EventList} {band : ℤ}
    {v2 : List (String × String)} {pe : List (String × List String)}
    {w : List (String × List NetEvent)}
    (hnd : (vmCreates (flatTicks (batch_vdcs out))).Nodup)
    (hrel : List.Forall₂ (NetRel v2 pe (vmCoresDict (batch_vdcs out)) band)
      (batch_vdcs out) w) :
    ∀ tl ∈ w, ∀ ne ∈ tl.2, ∀ p vm c r conn, ne = NetEvent.create p vm c r conn →
      ∀ kv ∈ conn, kv.2 = Wof (batch_vdcs out) band vm kv.1 := by
  intro ntl hntl ne hne p vm c r conn hshape kv hkv
  obtain ⟨tl, htl, hr⟩ := forall₂_mem_right hrel hntl
  obtain ⟨e, he, hok⟩ := forall₂_mem_right hr.2 hne
  subst hshape
  obtain ⟨vdc, rfl⟩ := netEventOf_create_src hok
  obtain ⟨p', peers, conn', hp', hpe', hsh, hvals, -⟩ :=
    (netEventOf_ok_rel hok).2 vdc vm c r rfl
  cases hsh
  obtain ⟨pc, hpc, hkv2⟩ := hvals kv hkv
  have hcd : alookup (vmCoresDict (batch_vdcs out)) vm = some c :=
    vmCoresDict_lookup hnd htl he
  have h1 : coresOf (batch_vdcs out) kv.1 = pc := by
    unfold coresOf
    rw [hpc]
    rfl
  have h2 : coresOf (batch_vdcs out) vm = c := by
    unfold coresOf
    rw [hcd]
    rfl
  rw [hkv2]
  unfold Wof
  rw [h1, h2]

/-- Between two VMs related by the peers table, the synthesized bandwidth is
strictly positive (cores are at least one, band at least one). -/
theorem wpos_pipeline {N : ℕ} {rows : List Row} {out : EventList} {band : ℤ}
    {s : ChopState}
    (hvm : (rows.map Row.vm_uuid).Nodup)
    (hsan : sanitize N rows = Except.ok out)
    (hcores : ∀ r ∈ rows, 1 ≤ r.cores) (hband : (1 : ℤ) ≤ band)
    (hnd : (vmCreates (flatTicks (batch_vdcs out))).Nodup)
    (hinv : TickInv (batch_vdcs out) s) :
    ∀ u a, peersRel s.vm_peers u a → 0 < Wof (batch_vdcs out) band u a := by
  intro u a hpr
  obtain ⟨lv, hpe, halv⟩ := hpr
  obtain ⟨pre, tlc, post, hdec, hcre, p, hp, hiff⟩ := hinv.peers_spec u lv hpe
  have hcu : createdIn (flatTicks (batch_vdcs out)) u := by
    obtain ⟨e, he, hc⟩ := hcre
    refine ⟨e, mem_flatTicks.2 ⟨tlc, ?_, he⟩, hc⟩
    rw [hdec]
    exact List.mem_append.2 (Or.inr (List.mem_cons_self _ _))
  have hca : createdIn (flatTicks (batch_vdcs out)) a := by
    have h1 := ((hiff a).1 halv).2.2.1
    rw [hdec]
    exact flatTicks_prefix_mono h1
  have h1u := coresOf_created hvm hsan hcores hnd hcu
  have h1a := coresOf_created hvm hsan hcores hnd hca
  unfold Wof
  apply pyIntTrunc_pos
  have hm : 1 ≤ pymin (coresOf (batch_vdcs out) u) (coresOf (batch_vdcs out) a) := by
    unfold pymin
    split
    · exact h1u
    · exact h1a
  have hb : (1 : ℚ) ≤ (band : ℚ) := by exact_mod_cast hband
  calc (1 : ℚ) = 1 * 1 := by norm_num
    _ ≤ (band : ℚ) * pymin (coresOf (batch_vdcs out) u) (coresOf (batch_vdcs out) a) := by
        apply mul_le_mul hb hm
        · norm_num
        · exact le_trans zero_le_one hb

/-- C4: replaying the fully synthesized event stream through the verifier's
transient undirected weighted graph ends with a graph containing zero nodes
and zero edges, and the symmetry check `_check_virtual_network` succeeds. The
hypotheses are the generator's operating conditions: distinct vm uuids, vdc
uuids without the reserved underscore, at least one core per row, and at least
one bandwidth unit per core. -/
theorem C4_verifier_replay_ends_empty {N max : ℕ} {rows : List Row} {band : ℤ}
    {w : List (String × List NetEvent)}
    (hvm : (rows.map Row.vm_uuid).Nodup)
    (hplain : ∀ r ∈ rows, noUnderscore r.vdc_uuid)
    (hcores : ∀ r ∈ rows, 1 ≤ r.cores)
    (hband : (1 : ℤ) ≤ band)
    (hrun : pipeline N max band rows = Except.ok w) :
    (∃ g, List.foldlM (fun g tl => if tl.2.isEmpty then
        (Except.error "assert: empty tick" : Except String PeerGraph)
      else List.foldlM checkEvent g tl.2) emptyPeerGraph w = Except.ok g ∧
      g.nodes = [] ∧ g.edges = []) ∧
    check_virtual_network w = Except.ok true := by
  have hrun' : sanitize N rows >>= (fun out =>
      chop_vdcs (batch_vdcs out) max >>= fun vp =>
        add_network (batch_vdcs out) vp.1 vp.2 band) = Except.ok w := hrun
  obtain ⟨out, hsan, h1⟩ := except_bind_ok _ _ _ hrun'
  obtain ⟨vp, hchop, h2⟩ := except_bind_ok _ _ _ h1
  have hwf := chopWF_pipeline hvm hplain hsan
  obtain ⟨s, hchop', hinv⟩ := @chop_vdcs_run max (batch_vdcs out)
    (ticksOK_of_wf hwf (batch_vdcs out) [] rfl)
  have hvp : vp = (s.vm2vdc, s.vm_peers) := by
    rw [hchop'] at hchop
    exact (Except.ok.inj hchop).symm
  subst hvp
  have hrel := add_network_netRel h2
  have hndc : (vmCreates (flatTicks (batch_vdcs out))).Nodup := hwf.creates_nodup
  have hwfM := microWF_pipeline hvm hsan hwf hinv hrel
  obtain ⟨g, hrunM, hn, he⟩ := microRun_empty (Wof_comm (batch_vdcs out) band)
    (wpos_pipeline hvm hsan hcores hband hndc hinv) hwfM
  have hne : ∀ tl ∈ w, tl.2 ≠ [] := by
    intro ntl hntl h0
    obtain ⟨tl, htl, hr⟩ := forall₂_mem_right hrel hntl
    have hlen := hr.2.length_eq
    rw [h0] at hlen
    simp at hlen
    exact hr.1 hlen
  have hvals := connValues_pipeline hndc hrel
  have hfold : List.foldlM (fun g tl => if tl.2.isEmpty then
        (Except.error "assert: empty tick" : Except String PeerGraph)
      else List.foldlM checkEvent g tl.2) emptyPeerGraph w = Except.ok g := by
    rw [checkW_micro w emptyPeerGraph hne hvals]
    exact hrunM
  refine ⟨⟨g, hfold, hn, he⟩, ?_⟩
  unfold check_virtual_network
  rw [hfold]
  show (if g.nodes.length = 0 then
      if g.edges.length = 0 then Except.ok true
      else Except.error "assert: leftover edges"
    else Except.error "assert: leftover nodes") = Except.ok true
  rw [hn, he]
  rfl

/-- The synthesized workload of `rowsEx` at four grid items, vdc size 30 and
ten bandwidth units per core. -/
def wEx : List (String × List NetEvent) :=
  [("tick_0", [NetEvent.create "d" "A" 4 8 []]),
   ("tick_300", [NetEvent.create "d" "B" 1 2 [("A", 10)]]),
   ("tick_600", [NetEvent.delete "d" "A"]),
   ("tick_900", [NetEvent.delete "d" "B"])]

theorem C4_verifier_replay_ends_empty_witness :
    ((rowsEx.map Row.vm_uuid).Nodup ∧ (∀ r ∈ rowsEx, noUnderscore r.vdc_uuid) ∧
      (∀ r ∈ rowsEx, 1 ≤ r.cores) ∧ ((1 : ℤ) ≤ 10) ∧
      pipeline 4 30 10 rowsEx = Except.ok wEx) ∧
    ((∃ g, List.foldlM (fun g tl => if tl.2.isEmpty then
        (Except.error "assert: empty tick" : Except String PeerGraph)
      else List.foldlM checkEvent g tl.2) emptyPeerGraph wEx = Except.ok g ∧
      g.nodes = [] ∧ g.edges = []) ∧
    check_virtual_network wEx = Except.ok true) :=
  ⟨⟨by decide, by decide, by with_unfolding_all decide, by decide,
      by with_unfolding_all decide⟩,
    @C4_verifier_replay_ends_empty 4 30 rowsEx 10 wEx (by decide) (by decide)
      (by with_unfolding_all decide) (by decide) (by with_unfolding_all decide)⟩
